import Mathlib

/-!
# ef-ds/queue: a segmented ring-linked FIFO queue

A shallow embedding of `queue.go` and a verification of its specification.

* Go pointers `*node` are addresses into an explicit node heap (`Mem.nodes`); the nil
  pointer is `none`, and `&node{...}` allocates at the end of the heap.
* A Go `interface{}` value is an `Option V`; the nil interface is `none`.
* A Go `int` is an `Int`.  The only counter that is not bounded by a slot-array length is
  `len`, which would need `2^63` queued values to wrap around, so no wrap-around is modelled.
* Every operation that can panic in Go (nil dereference, index out of range, `make` with a
  negative length) returns `Option`; `none` is the panic.
* The four package constants are a record `Consts` of integers that the operations take as a
  parameter; `defaults` carries the values of `queue.go`.
-/

set_option autoImplicit false

namespace queue

/-! ## Constants -/

/-- The four package-level constants of `queue.go`. They are untyped integer constants in
the source, so any integer, negative ones included, can be written in their place. -/
structure Consts where
  /-- Size of the first slice. -/
  firstSliceSize : Int
  /-- By how much the first slice grows. -/
  sliceGrowthFactor : Int
  /-- Maximum size of the first slice. -/
  maxFirstSliceSize : Int
  /-- Size of every other slice. -/
  maxInternalSliceSize : Int
deriving DecidableEq

/-- Source constant `firstSliceSize = 4`. -/
def firstSliceSize : Nat := 4

/-- Source constant `sliceGrowthFactor = 4`. -/
def sliceGrowthFactor : Nat := 4

/-- Source constant `maxFirstSliceSize = 64`. -/
def maxFirstSliceSize : Nat := 64

/-- Source constant `maxInternalSliceSize = 256`. -/
def maxInternalSliceSize : Nat := 256

/-- The constants as `queue.go` declares them. -/
def defaults : Consts :=
  { firstSliceSize := (firstSliceSize : Int)
    sliceGrowthFactor := (sliceGrowthFactor : Int)
    maxFirstSliceSize := (maxFirstSliceSize : Int)
    maxInternalSliceSize := (maxInternalSliceSize : Int) }

/-! ## Data model -/

/-- Source type `node`: a slice of values and the pointer to the next node. -/
structure node (V : Type) where
  /-- The slot array `v []interface{}`. -/
  v : List (Option V)
  /-- The link `n *node`. -/
  n : Option Nat
deriving DecidableEq

/-- Source type `Queue`; the default field values are Go's zero value. -/
structure Queue where
  /-- Pointer to the node being read. -/
  head : Option Nat := none
  /-- Pointer to the node being written. -/
  tail : Option Nat := none
  /-- Index of the first element in the head slice. -/
  hp : Int := 0
  /-- Last index of the head slice. -/
  hlp : Int := 0
  /-- Index one past the last element in the tail slice. -/
  tp : Int := 0
  /-- Number of queued values. -/
  len : Int := 0
deriving DecidableEq

/-- The node heap together with the queue handle `d`. -/
structure Mem (V : Type) where
  /-- Every node allocated so far; a `*node` is an index into this list. -/
  nodes : List (node V)
  /-- The queue handle the methods are called on. -/
  d : Queue
deriving DecidableEq

variable {V : Type}

/-! ## Memory primitives -/

/-- Dereference of a `*node`: faults on nil and on an address outside the heap. -/
def deref (nodes : List (node V)) : Option Nat → Option (node V)
  | none => none
  | some a => nodes[a]?

/-- Slice read `s[i]` with Go's bounds check. -/
def index {α : Type} (s : List α) (i : Int) : Option α :=
  if 0 ≤ i then s[i.toNat]? else none

/-- Slice write `s[i] = x` with Go's bounds check. -/
def assign {α : Type} (s : List α) (i : Int) (x : α) : Option (List α) :=
  if 0 ≤ i ∧ i < (s.length : Int) then some (s.set i.toNat x) else none

/-- Field write `p.v = w`. -/
def setV (nodes : List (node V)) (p : Option Nat) (w : List (Option V)) :
    Option (List (node V)) :=
  match p with
  | none => none
  | some a =>
    match nodes[a]? with
    | none => none
    | some nd => some (nodes.set a { nd with v := w })

/-- Field write `p.n = q`. -/
def setN (nodes : List (node V)) (p q : Option Nat) : Option (List (node V)) :=
  match p with
  | none => none
  | some a =>
    match nodes[a]? with
    | none => none
    | some nd => some (nodes.set a { nd with n := q })

/-- Slot write `p.v[i] = x`. -/
def storeV (nodes : List (node V)) (p : Option Nat) (i : Int) (x : Option V) :
    Option (List (node V)) :=
  match deref nodes p with
  | none => none
  | some nd =>
    match assign nd.v i x with
    | none => none
    | some w => setV nodes p w

/-- Go's builtin `make([]interface{}, k)`: `k` nil slots; it faults on a negative length.
The heap is unbounded: every non-negative length is granted. -/
def make (k : Int) : Option (List (Option V)) :=
  if 0 ≤ k then some (List.replicate k.toNat none) else none

/-- Go's builtin `copy(dst, src)`: overwrites the first `min(len dst, len src)` slots. -/
def copy (dst src : List (Option V)) : List (Option V) :=
  src.take (min dst.length src.length) ++ dst.drop (min dst.length src.length)

/-! ## Operations -/

/-- Source `New`: a pointer to a fresh zero `Queue`. -/
def New : Mem V := { nodes := [], d := {} }

/-- Source `Init`: `*d = Queue{}`. The nodes stay in the heap as garbage. -/
def Init (s : Mem V) : Mem V := { s with d := {} }

/-- Source `Len`. -/
def Len (s : Mem V) : Int := s.d.len

/-- Source `Front`, with the memory it leaves behind. -/
def Front (s : Mem V) : Option (Mem V × Option V × Bool) :=
  if s.d.len = 0 then some (s, none, false)
  else
    match deref s.nodes s.d.head with
    | none => none
    | some h =>
      match index h.v s.d.hp with
      | none => none
      | some x => some (s, x, true)

/-- The `switch` of source `Push`, before `d.len++`. -/
def pushSwitch (c : Consts) (x : Option V) (s : Mem V) : Option (Mem V) :=
  match s.d.head with
  | none => do
    -- h := &node{v: make([]interface{}, firstSliceSize)}
    let h := s.nodes.length
    let v0 ← make c.firstSliceSize
    let m1 := s.nodes ++ [{ v := v0, n := none }]
    -- h.n = h
    let m2 ← setN m1 (some h) (some h)
    -- d.head = h; d.tail = h
    let d1 := { s.d with head := some h, tail := some h }
    -- d.tail.v[0] = v
    let m3 ← storeV m2 d1.tail 0 x
    -- d.hlp = firstSliceSize - 1; d.tp = 1
    pure { nodes := m3, d := { d1 with hlp := c.firstSliceSize - 1, tp := 1 } }
  | some _ => do
    let t ← deref s.nodes s.d.tail
    if s.d.tp < (t.v.length : Int) then do
      -- d.tail.v[d.tp] = v; d.tp++
      let m1 ← storeV s.nodes s.d.tail s.d.tp x
      pure { nodes := m1, d := { s.d with tp := s.d.tp + 1 } }
    else if s.d.tp < c.maxFirstSliceSize then do
      -- nv := make([]interface{}, len(d.tail.v)*sliceGrowthFactor); copy(nv, d.tail.v)
      let nv0 ← make ((t.v.length : Int) * c.sliceGrowthFactor)
      let nv := copy nv0 t.v
      -- d.tail.v = nv
      let m1 ← setV s.nodes s.d.tail nv
      -- d.tail.v[d.tp] = v; d.tp++; d.hlp = len(nv) - 1
      let m2 ← storeV m1 s.d.tail s.d.tp x
      pure { nodes := m2, d := { s.d with tp := s.d.tp + 1, hlp := (nv.length : Int) - 1 } }
    else if t.n ≠ s.d.head then do
      -- n := d.tail.n; d.tail = n; d.tail.v[0] = v; d.tp = 1
      let d1 := { s.d with tail := t.n }
      let m1 ← storeV s.nodes d1.tail 0 x
      pure { nodes := m1, d := { d1 with tp := 1 } }
    else do
      -- n := &node{v: make([]interface{}, maxInternalSliceSize)}
      let a := s.nodes.length
      let v0 ← make c.maxInternalSliceSize
      let m1 := s.nodes ++ [{ v := v0, n := none }]
      -- n.n = d.head
      let m2 ← setN m1 (some a) s.d.head
      -- d.tail.n = n
      let m3 ← setN m2 s.d.tail (some a)
      -- d.tail = n; d.tail.v[0] = v; d.tp = 1
      let d1 := { s.d with tail := some a }
      let m4 ← storeV m3 d1.tail 0 x
      pure { nodes := m4, d := { d1 with tp := 1 } }

/-- Source `Push`. -/
def Push (c : Consts) (x : Option V) (s : Mem V) : Option (Mem V) :=
  match pushSwitch c x s with
  | none => none
  | some s1 => some { s1 with d := { s1.d with len := s1.d.len + 1 } }

/-- Source `Pop`. -/
def Pop (s : Mem V) : Option (Mem V × Option V × Bool) :=
  if s.d.len = 0 then some (s, none, false)
  else do
    -- vp := &d.head.v[d.hp]; v := *vp
    let h ← deref s.nodes s.d.head
    let x ← index h.v s.d.hp
    -- *vp = nil
    let m1 ← storeV s.nodes s.d.head s.d.hp none
    -- d.len--
    let d1 := { s.d with len := s.d.len - 1 }
    if d1.hp < d1.hlp then
      -- d.hp++
      pure ({ nodes := m1, d := { d1 with hp := d1.hp + 1 } }, x, true)
    else if d1.head = d1.tail then
      -- d.tp = d.hp
      pure ({ nodes := m1, d := { d1 with tp := d1.hp } }, x, true)
    else do
      -- d.hp = 0; d.head = d.head.n
      let h1 ← deref m1 d1.head
      let d2 := { d1 with hp := 0, head := h1.n }
      -- d.hlp = len(d.head.v) - 1
      let h2 ← deref m1 d2.head
      pure ({ nodes := m1, d := { d2 with hlp := (h2.v.length : Int) - 1 } }, x, true)

/-! ## Operation sequences -/

/-- One call of the public interface. -/
inductive Op (V : Type) where
  | Init : Op V
  | Len : Op V
  | Front : Op V
  | Push (x : Option V) : Op V
  | Pop : Op V
deriving DecidableEq

/-- What a call returns to its caller. -/
inductive Ret (V : Type) where
  /-- `Init` returns its receiver. -/
  | recv : Ret V
  /-- `Len` returns an `int`. -/
  | int (k : Int) : Ret V
  /-- `Front` and `Pop` return a value and the found flag. -/
  | val (x : Option V) (ok : Bool) : Ret V
  /-- `Push` returns nothing. -/
  | unit : Ret V
deriving DecidableEq

/-- Runs one call. -/
def step (c : Consts) (op : Op V) (s : Mem V) : Option (Mem V × Ret V) :=
  match op with
  | .Init => some (Init s, .recv)
  | .Len => some (s, .int (Len s))
  | .Front =>
    match Front s with
    | none => none
    | some (s1, x, ok) => some (s1, .val x ok)
  | .Push x =>
    match Push c x s with
    | none => none
    | some s1 => some (s1, .unit)
  | .Pop =>
    match Pop s with
    | none => none
    | some (s1, x, ok) => some (s1, .val x ok)

/-- Runs a sequence of calls, collecting what each returns. -/
def run (c : Consts) : List (Op V) → Mem V → Option (Mem V × List (Ret V))
  | [], s => some (s, [])
  | op :: ops, s =>
    match step c op s with
    | none => none
    | some (s1, r) =>
      match run c ops s1 with
      | none => none
      | some (s2, rs) => some (s2, r :: rs)

/-! ## The list model of the specification -/

/-- One call on the plain list model: `Push` appends at the back, `Pop` removes the
front, `Front` reads it, `Len` is the length and `Init` empties the list. -/
def specStep (op : Op V) (xs : List (Option V)) : List (Option V) × Ret V :=
  match op, xs with
  | .Init, _ => ([], .recv)
  | .Len, xs => (xs, .int (xs.length : Int))
  | .Front, [] => ([], .val none false)
  | .Front, x :: xs => (x :: xs, .val x true)
  | .Push x, xs => (xs ++ [x], .unit)
  | .Pop, [] => ([], .val none false)
  | .Pop, x :: xs => (xs, .val x true)

/-- A sequence of calls on the list model. -/
def specRun : List (Op V) → List (Option V) → List (Option V) × List (Ret V)
  | [], xs => (xs, [])
  | op :: ops, xs =>
    let r := specStep op xs
    let rest := specRun ops r.1
    (rest.1, r.2 :: rest.2)

/-! ## Ghost state, invariant and abstraction relation -/

/-- The slot array of the node at address `a` (empty outside the heap). -/
def slotsAt (nodes : List (node V)) (a : Nat) : List (Option V) :=
  match nodes[a]? with
  | some nd => nd.v
  | none => []

/-- The link of the node at address `a` (nil outside the heap). -/
def nextAt (nodes : List (node V)) (a : Nat) : Option Nat :=
  match nodes[a]? with
  | some nd => nd.n
  | none => none

/-- Each address of the list links to the one after it, and the last one to `z`. -/
def linked (nx : Nat → Option Nat) : List Nat → Nat → Prop
  | [], _ => True
  | a :: l, z => nx a = some (l.headD z) ∧ linked nx l z

/-- The queued values held by the segments `used` (head segment first, tail segment last):
the head segment from slot `hp` on, every segment in between in full, and the tail segment
up to slot `tp`. -/
def live (sl : Nat → List (Option V)) : List Nat → Nat → Nat → List (Option V)
  | [], _, _ => []
  | [a], hp, tp => ((sl a).take tp).drop hp
  | a :: b :: l, hp, tp => (sl a).drop hp ++ live sl (b :: l) 0 tp

/-- Constraints on the constants under which the queue works. -/
structure Valid (c : Consts) : Prop where
  first_pos : 1 ≤ c.firstSliceSize
  internal_pos : 1 ≤ c.maxInternalSliceSize
  ceiling_le : c.maxFirstSliceSize ≤ c.maxInternalSliceSize
  growth : c.firstSliceSize < c.maxFirstSliceSize → 2 ≤ c.sliceGrowthFactor

/-- The representation invariant of a queue that owns at least one segment.
`used` lists the segments from the head segment `h` to the tail segment `t`, `spare` the
segments after the tail and before the head, `hp` and `tp` are the cursors, `fst` is the
first segment allocated and `j` the number of times it has grown. -/
structure Ring (c : Consts) (s : Mem V) (used spare : List Nat) (h t hp tp fst j : Nat) :
    Prop where
  head_eq : s.d.head = some h
  tail_eq : s.d.tail = some t
  used_head : used.head? = some h
  used_last : used.getLast? = some t
  nodup : (used ++ spare).Nodup
  inHeap : ∀ a ∈ used ++ spare, a < s.nodes.length
  cyc : linked (nextAt s.nodes) (used ++ spare) h
  hp_eq : s.d.hp = (hp : Int)
  tp_eq : s.d.tp = (tp : Int)
  hlp_eq : s.d.hlp = ((slotsAt s.nodes h).length : Int) - 1
  len_eq : s.d.len = ((live (slotsAt s.nodes) used hp tp).length : Int)
  hp_lt : hp < (slotsAt s.nodes h).length
  tp_le : tp ≤ (slotsAt s.nodes t).length
  hp_le_tp : h = t → hp ≤ tp
  tp_pos : h ≠ t → 1 ≤ tp
  fst_mem : fst ∈ used ++ spare
  cap_fst : (slotsAt s.nodes fst).length =
    c.firstSliceSize.toNat * c.sliceGrowthFactor.toNat ^ j
  cap_low : j ≠ 0 →
    c.firstSliceSize.toNat * c.sliceGrowthFactor.toNat ^ (j - 1) < c.maxFirstSliceSize.toNat
  cap_multi : 2 ≤ (used ++ spare).length →
    c.maxFirstSliceSize.toNat ≤ (slotsAt s.nodes fst).length
  cap_rest : ∀ a ∈ used ++ spare, a ≠ fst →
    (slotsAt s.nodes a).length = c.maxInternalSliceSize.toNat
  cap_pos : ∀ a ∈ used ++ spare, 1 ≤ (slotsAt s.nodes a).length
  nil_head : ∀ y ∈ (slotsAt s.nodes h).take hp, y = none
  nil_tail : ∀ y ∈ (slotsAt s.nodes t).drop tp, y = none
  nil_spare : ∀ a ∈ spare, ∀ y ∈ slotsAt s.nodes a, y = none

/-- The abstraction relation: memory `s` represents the list `xs` of queued values. -/
def Rep (c : Consts) (s : Mem V) (xs : List (Option V)) : Prop :=
  (s.d = {} ∧ xs = []) ∨
    ∃ used spare h t hp tp fst j, Ring c s used spare h t hp tp fst j ∧
      xs = live (slotsAt s.nodes) used hp tp

/-- Whether a call is `Push` or `Pop`. -/
def Op.isPushPop : Op V → Bool
  | .Push _ => true
  | .Pop => true
  | _ => false

/-- A memory state that some sequence of calls on a new queue ends in. -/
def Reachable (c : Consts) (s : Mem V) : Prop :=
  ∃ ops rs, run c ops New = some (s, rs)

/-- Number of `Push` calls in a sequence. -/
def pushCount : List (Op V) → Nat
  | [] => 0
  | .Push _ :: ops => pushCount ops + 1
  | _ :: ops => pushCount ops

/-- Number of `Pop` calls of a sequence whose result, in the list of results of the
sequence, is found. -/
def popFoundCount : List (Op V) → List (Ret V) → Nat
  | .Pop :: ops, .val _ true :: rs => popFoundCount ops rs + 1
  | _ :: ops, _ :: rs => popFoundCount ops rs
  | _, _ => 0

/-- Number of values pushed and not yet popped since the last `Init`, counted along a
sequence of calls starting from `k` such values. -/
def pending : List (Op V) → Nat → Nat
  | [], k => k
  | .Init :: ops, _ => pending ops 0
  | .Push _ :: ops, k => pending ops (k + 1)
  | .Pop :: ops, k => pending ops (k - 1)
  | .Len :: ops, k => pending ops k
  | .Front :: ops, k => pending ops k

/-- The node reached from `a` by following the link `n` `k` times. -/
def follow (nodes : List (node V)) : Nat → Nat → Option Nat
  | 0, a => some a
  | k + 1, a =>
    match nextAt nodes a with
    | none => none
    | some b => follow nodes k b

/-- A sample sequence of calls: two pushes, the second of a nil value, and one pop. -/
def sampleOps : List (Op Nat) := [Op.Push (some 7), Op.Push none, Op.Pop]

/-- What the calls of `sampleOps` return on a new queue. -/
def sampleRets : List (Ret Nat) := [Ret.unit, Ret.unit, Ret.val (some 7) true]

/-- The memory `sampleOps` leaves: one segment of four slots that holds the nil value. -/
def sampleMem : Mem Nat :=
  { nodes := [{ v := [none, none, none, none], n := some 0 }]
    d := { head := some 0, tail := some 0, hp := 1, hlp := 3, tp := 2, len := 1 } }

/-- A drained queue: the memory after one push and one pop. -/
def drainedMem : Mem Nat :=
  { nodes := [{ v := [none, none, none, none], n := some 0 }]
    d := { head := some 0, tail := some 0, hp := 1, hlp := 3, tp := 1, len := 0 } }

/-- The cases of the `switch` in source `Push`, in source order. -/
inductive PushCase where
  | first : PushCase
  | room : PushCase
  | grow : PushCase
  | spare : PushCase
  | alloc : PushCase
deriving DecidableEq

/-- The case of the `switch` that `Push` takes in memory `s`: the conditions of source `Push`
evaluated in order (`none` when evaluating them faults). -/
def pushCase (c : Consts) (s : Mem V) : Option PushCase :=
  match s.d.head with
  | none => some .first
  | some _ =>
    match deref s.nodes s.d.tail with
    | none => none
    | some t =>
      if s.d.tp < (t.v.length : Int) then some .room
      else if s.d.tp < c.maxFirstSliceSize then some .grow
      else if t.n ≠ s.d.head then some .spare
      else some .alloc

/-- The paths through source `Pop`. -/
inductive PopCase where
  | empty : PopCase
  | advance : PopCase
  | drain : PopCase
  | rotate : PopCase
deriving DecidableEq

/-- The path that `Pop` takes in memory `s`: the guard and the conditions of its `switch`
evaluated in order. -/
def popCase (s : Mem V) : PopCase :=
  if s.d.len = 0 then .empty
  else if s.d.hp < s.d.hlp then .advance
  else if s.d.head = s.d.tail then .drain
  else .rotate

/-- The addresses met from `a` by following the link `n`, up to and including the first one
at which `stop` holds, and at most `fuel` of them. -/
def walk (nodes : List (node V)) (stop : Nat → Bool) : Nat → Nat → List Nat
  | 0, _ => []
  | fuel + 1, a =>
    a :: (if stop a then []
      else
        match nextAt nodes a with
        | none => []
        | some b => walk nodes stop fuel b)

/-- The segments of the ring: the nodes met from head by following `n` until the link leads
back to head. -/
def segments (s : Mem V) : List Nat :=
  match s.d.head with
  | none => []
  | some h => walk s.nodes (fun a => decide (nextAt s.nodes a = some h)) s.nodes.length h

/-- The segments in use: the nodes met from head by following `n` until tail. -/
def usedSegments (s : Mem V) : List Nat :=
  match s.d.head, s.d.tail with
  | some h, some t => walk s.nodes (fun a => decide (a = t)) s.nodes.length h
  | _, _ => []

/-- The half-open range of slot indices of segment `a` that hold queued values: from `hp` in
the head segment, up to `tp` in the tail segment, all slots of a segment in between, and no
slot of a segment that is not in use. -/
def liveRange (s : Mem V) (a : Nat) : Nat × Nat :=
  if a ∈ usedSegments s then
    (if s.d.head = some a then s.d.hp.toNat else 0,
      if s.d.tail = some a then s.d.tp.toNat else (slotsAt s.nodes a).length)
  else (0, 0)

/-- The queued values that segment `a` holds, oldest first. -/
def held (s : Mem V) (a : Nat) : List (Option V) :=
  ((slotsAt s.nodes a).take (liveRange s a).2).drop (liveRange s a).1

/-- The queued values of memory `s`, oldest first, read off the segments in use. -/
def queued (s : Mem V) : List (Option V) :=
  (usedSegments s).flatMap (held s)

/-- The first segment allocated for the queue, after one call in memory `s` where it was `f`
before: none after `Init`, the node that `Push` allocates when it finds no segment, and `f`
otherwise. -/
def firstAfter (op : Op V) (s : Mem V) (f : Option Nat) : Option Nat :=
  match op with
  | .Init => none
  | .Push _ => if s.d.head = none then some s.nodes.length else f
  | _ => f

/-- The first segment allocated for the queue, after a sequence of calls. -/
def firstSegment (c : Consts) : List (Op V) → Mem V → Option Nat → Option Nat
  | [], _, f => f
  | op :: ops, s, f =>
    match step c op s with
    | none => none
    | some (s1, _) => firstSegment c ops s1 (firstAfter op s f)

/-- The abstraction relation together with the first segment allocated. -/
def RepF (c : Consts) (s : Mem V) (xs : List (Option V)) (f : Option Nat) : Prop :=
  (s.d = {} ∧ xs = [] ∧ f = none) ∨
    ∃ used spare h t hp tp fst j, Ring c s used spare h t hp tp fst j ∧
      xs = live (slotsAt s.nodes) used hp tp ∧ f = some fst

/-- Four pushes: the calls that fill the first segment at its initial size. -/
def fullOps : List (Op Nat) :=
  [Op.Push (some 1), Op.Push (some 2), Op.Push (some 3), Op.Push (some 4)]

/-- What the calls of `fullOps` return. -/
def fullRets : List (Ret Nat) := [Ret.unit, Ret.unit, Ret.unit, Ret.unit]

/-- The memory `fullOps` leaves: one full segment of four slots; the next `Push` grows it. -/
def fullMem : Mem Nat :=
  { nodes := [{ v := [some 1, some 2, some 3, some 4], n := some 0 }]
    d := { head := some 0, tail := some 0, hp := 0, hlp := 3, tp := 4, len := 4 } }

/-- Four pushes and three pops: one value is left, in the last slot of the segment. -/
def lastOps : List (Op Nat) := fullOps ++ [Op.Pop, Op.Pop, Op.Pop]

/-- What the calls of `lastOps` return. -/
def lastRets : List (Ret Nat) :=
  fullRets ++ [Ret.val (some 1) true, Ret.val (some 2) true, Ret.val (some 3) true]

/-- The memory `lastOps` leaves: the next `Pop` takes the path of its second case. -/
def lastMem : Mem Nat :=
  { nodes := [{ v := [none, none, none, some 4], n := some 0 }]
    d := { head := some 0, tail := some 0, hp := 3, hlp := 3, tp := 4, len := 1 } }

/-- Sixty-four pushes of nil: the calls that fill the first segment at its largest size. -/
def allocOps : List (Op Nat) := List.replicate 64 (Op.Push none)

/-- What the calls of `allocOps` return. -/
def allocRets : List (Ret Nat) := List.replicate 64 Ret.unit

/-- The memory `allocOps` leaves: one full segment of 64 slots and no spare segment. -/
def allocMem : Mem Nat :=
  { nodes := [{ v := List.replicate 64 none, n := some 0 }]
    d := { head := some 0, tail := some 0, hp := 0, hlp := 63, tp := 64, len := 64 } }

/-- Calls that lead to a full tail segment followed by a spare one: 65 pushes of nil fill the
first segment and start a second one, 64 pops drain the first segment, and 255 pushes fill
the second. -/
def spareOps : List (Op Nat) :=
  List.replicate 65 (Op.Push none) ++ List.replicate 64 Op.Pop ++
    List.replicate 255 (Op.Push none)

/-- What the calls of `spareOps` return. -/
def spareRets : List (Ret Nat) :=
  List.replicate 65 Ret.unit ++ List.replicate 64 (Ret.val none true) ++
    List.replicate 255 Ret.unit

/-- The memory `spareOps` leaves: node 1 is head and tail and is full, node 0 is spare. -/
def spareMem : Mem Nat :=
  { nodes := [{ v := List.replicate 64 none, n := some 1 },
              { v := List.replicate 256 none, n := some 0 }]
    d := { head := some 1, tail := some 1, hp := 0, hlp := 255, tp := 256, len := 256 } }

/-- Number of segments, less one, after `n` pushes on a new queue. -/
def pushK (n : Nat) : Nat := if n ≤ 64 then 0 else (n - 64 + 255) / 256

/-- The tail cursor after `n` pushes on a new queue. -/
def pushTp (n : Nat) : Nat := if n ≤ 64 then n else n - 64 - 256 * (pushK n - 1)

/-- Length of the first slot array after `n` pushes on a new queue. -/
def pushCap (n : Nat) : Nat := if n ≤ 4 then 4 else if n ≤ 16 then 16 else 64

/-- The shape of the memory after `n` pushes on a new queue: the nodes are `0, ..., pushK n`,
all of them in use in this order, with node 0 the head and the first segment. -/
def PushShape (n : Nat) (s : Mem V) : Prop :=
  ∃ j, Ring defaults s (List.range (pushK n + 1)) [] 0 (pushK n) 0 (pushTp n) 0 j ∧
    s.nodes.length = pushK n + 1 ∧ (slotsAt s.nodes 0).length = pushCap n

/-- The constraints on the four constants that the specification states: the growth ceiling
is reached from the initial capacity by repeated multiplication by the growth factor, and the
standard capacity is at least the growth ceiling. -/
def Tunable (c : Consts) : Prop :=
  (∃ k : Nat, c.maxFirstSliceSize = c.firstSliceSize * c.sliceGrowthFactor ^ k) ∧
    c.maxFirstSliceSize ≤ c.maxInternalSliceSize

/-! ## Lemmas and theorems -/

theorem deref_spec (nodes : List (node V)) (a : Nat) (h : a < nodes.length) :
    ∃ nd, deref nodes (some a) = some nd ∧ nd.v = slotsAt nodes a ∧ nd.n = nextAt nodes a := by
  refine ⟨nodes[a], ?_, ?_, ?_⟩ <;> simp [deref, slotsAt, nextAt, List.getElem?_eq_getElem h]

theorem slotsAt_append (nodes : List (node V)) (nd : node V) :
    slotsAt (nodes ++ [nd]) = Function.update (slotsAt nodes) nodes.length nd.v := by
  funext b
  by_cases hb : b = nodes.length
  · subst hb; simp [slotsAt]
  · rw [Function.update_noteq hb]
    rcases Nat.lt_or_gt_of_ne hb with h | h
    · simp [slotsAt, List.getElem?_append_left h]
    · have h1 : nodes.length ≤ b := Nat.le_of_lt h
      have h2 : (nodes ++ [nd]).length ≤ b := by simp; omega
      simp [slotsAt, List.getElem?_eq_none h1, List.getElem?_eq_none h2]

theorem nextAt_append (nodes : List (node V)) (nd : node V) :
    nextAt (nodes ++ [nd]) = Function.update (nextAt nodes) nodes.length nd.n := by
  funext b
  by_cases hb : b = nodes.length
  · subst hb; simp [nextAt]
  · rw [Function.update_noteq hb]
    rcases Nat.lt_or_gt_of_ne hb with h | h
    · simp [nextAt, List.getElem?_append_left h]
    · have h1 : nodes.length ≤ b := Nat.le_of_lt h
      have h2 : (nodes ++ [nd]).length ≤ b := by simp; omega
      simp [nextAt, List.getElem?_eq_none h1, List.getElem?_eq_none h2]

theorem slotsAt_set (nodes : List (node V)) (a : Nat) (nd : node V) (h : a < nodes.length) :
    slotsAt (nodes.set a nd) = Function.update (slotsAt nodes) a nd.v := by
  funext b
  by_cases hb : b = a
  · subst hb; simp [slotsAt, List.getElem?_set_self h]
  · rw [Function.update_noteq hb]
    simp [slotsAt, List.getElem?_set_ne (Ne.symm hb)]

theorem nextAt_set (nodes : List (node V)) (a : Nat) (nd : node V) (h : a < nodes.length) :
    nextAt (nodes.set a nd) = Function.update (nextAt nodes) a nd.n := by
  funext b
  by_cases hb : b = a
  · subst hb; simp [nextAt, List.getElem?_set_self h]
  · rw [Function.update_noteq hb]
    simp [nextAt, List.getElem?_set_ne (Ne.symm hb)]

theorem setV_spec (nodes : List (node V)) (a : Nat) (w : List (Option V))
    (h : a < nodes.length) :
    ∃ m, setV nodes (some a) w = some m ∧ m.length = nodes.length ∧
      slotsAt m = Function.update (slotsAt nodes) a w ∧ nextAt m = nextAt nodes := by
  refine ⟨nodes.set a { nodes[a] with v := w }, ?_, ?_, ?_, ?_⟩
  · simp [setV, List.getElem?_eq_getElem h]
  · simp
  · rw [slotsAt_set _ _ _ h]
  · rw [nextAt_set _ _ _ h]
    funext b
    by_cases hb : b = a
    · subst hb; simp [nextAt, List.getElem?_eq_getElem h]
    · rw [Function.update_noteq hb]

theorem setN_spec (nodes : List (node V)) (a : Nat) (q : Option Nat)
    (h : a < nodes.length) :
    ∃ m, setN nodes (some a) q = some m ∧ m.length = nodes.length ∧
      slotsAt m = slotsAt nodes ∧ nextAt m = Function.update (nextAt nodes) a q := by
  refine ⟨nodes.set a { nodes[a] with n := q }, ?_, ?_, ?_, ?_⟩
  · simp [setN, List.getElem?_eq_getElem h]
  · simp
  · rw [slotsAt_set _ _ _ h]
    funext b
    by_cases hb : b = a
    · subst hb; simp [slotsAt, List.getElem?_eq_getElem h]
    · rw [Function.update_noteq hb]
  · rw [nextAt_set _ _ _ h]

theorem storeV_spec (nodes : List (node V)) (a i : Nat) (x : Option V)
    (h : a < nodes.length) (hi : i < (slotsAt nodes a).length) :
    ∃ m, storeV nodes (some a) (i : Int) x = some m ∧ m.length = nodes.length ∧
      slotsAt m = Function.update (slotsAt nodes) a ((slotsAt nodes a).set i x) ∧
      nextAt m = nextAt nodes := by
  obtain ⟨nd, hnd, hv, _⟩ := deref_spec nodes a h
  obtain ⟨m, hm, hlen, hs, hn⟩ := setV_spec nodes a ((slotsAt nodes a).set i x) h
  refine ⟨m, ?_, hlen, hs, hn⟩
  simp [storeV, hnd, assign, hv, hi, hm]

theorem index_spec {α : Type} (s : List α) (i : Nat) (h : i < s.length) :
    index s (i : Int) = some (s.get ⟨i, h⟩) := by
  simp [index, List.getElem?_eq_getElem h]

theorem make_nonneg (k : Int) (h : 0 ≤ k) :
    (make k : Option (List (Option V))) = some (List.replicate k.toNat none) := by
  simp [make, h]

theorem make_mul (a : Nat) (g : Int) (h : 0 ≤ g) :
    (make ((a : Int) * g) : Option (List (Option V))) =
      some (List.replicate (a * g.toNat) none) := by
  lift g to Nat using h
  rw [make_nonneg _ (by positivity), ← Nat.cast_mul, Int.toNat_natCast, Int.toNat_natCast]

theorem copy_make (k : Nat) (w : List (Option V)) (h : w.length ≤ k) :
    copy (List.replicate k none) w = w ++ List.replicate (k - w.length) none := by
  simp [copy, Nat.min_eq_right h]

theorem linked_append (nx : Nat → Option Nat) (l1 l2 : List Nat) (z : Nat) :
    linked nx (l1 ++ l2) z ↔ linked nx l1 (l2.headD z) ∧ linked nx l2 z := by
  induction l1 with
  | nil => simp [linked]
  | cons a l ih =>
    cases l with
    | nil => simp [linked]
    | cons b l => simp only [List.cons_append, linked, List.headD_cons] at ih ⊢; rw [ih]; tauto

theorem linked_congr {nx nx' : Nat → Option Nat} {l : List Nat} {z : Nat}
    (h : ∀ a ∈ l, nx' a = nx a) (hl : linked nx l z) : linked nx' l z := by
  induction l with
  | nil => trivial
  | cons a l ih =>
    refine ⟨?_, ih (fun b hb => h b (List.mem_cons_of_mem _ hb)) hl.2⟩
    rw [h a (List.mem_cons_self _ _)]; exact hl.1

theorem linked_mem {nx : Nat → Option Nat} {l : List Nat} {z a : Nat}
    (hl : linked nx l z) (ha : a ∈ l) : ∃ b, nx a = some b ∧ (b ∈ l ∨ b = z) := by
  induction l with
  | nil => simp at ha
  | cons c l ih =>
    rcases List.mem_cons.1 ha with rfl | ha
    · refine ⟨l.headD z, hl.1, ?_⟩
      cases l with
      | nil => right; rfl
      | cons b l => left; simp
    · obtain ⟨b, hb, hm⟩ := ih hl.2 ha
      exact ⟨b, hb, hm.imp (List.mem_cons_of_mem _) id⟩

theorem live_congr {sl sl' : Nat → List (Option V)} {l : List Nat} (hp tp : Nat)
    (h : ∀ a ∈ l, sl' a = sl a) : live sl' l hp tp = live sl l hp tp := by
  induction l generalizing hp with
  | nil => rfl
  | cons a l ih =>
    cases l with
    | nil => simp [live, h a (List.mem_cons_self _ _)]
    | cons b l =>
      simp only [live]
      rw [h a (List.mem_cons_self _ _), ih 0 (fun c hc => h c (List.mem_cons_of_mem _ hc))]

theorem live_single (sl : Nat → List (Option V)) (a hp tp : Nat) :
    live sl [a] hp tp = ((sl a).take tp).drop hp := rfl

theorem live_cons (sl : Nat → List (Option V)) (a : Nat) {l : List Nat} (hl : l ≠ [])
    (hp tp : Nat) : live sl (a :: l) hp tp = (sl a).drop hp ++ live sl l 0 tp := by
  cases l with
  | nil => exact absurd rfl hl
  | cons b l => rfl

/-- Writing the slot `tp` of the tail segment appends to the queued values. -/
theorem live_write_tail {sl sl' : Nat → List (Option V)} (pre : List Nat) (t hp tp : Nat)
    (x : Option V) (hpre : ∀ a ∈ pre, sl' a = sl a)
    (ht : (sl' t).take (tp + 1) = (sl t).take tp ++ [x])
    (htp : tp ≤ (sl t).length) (hhp : pre = [] → hp ≤ tp) :
    live sl' (pre ++ [t]) hp (tp + 1) = live sl (pre ++ [t]) hp tp ++ [x] := by
  induction pre generalizing hp with
  | nil =>
    have h := hhp rfl
    simp only [List.nil_append, live_single, ht]
    rw [List.drop_append_of_le_length (by simp; omega)]
  | cons a l ih =>
    have h1 := ih 0 (fun c hc => hpre c (List.mem_cons_of_mem _ hc)) (fun _ => Nat.zero_le _)
    have hne : l ++ [t] ≠ [] := by simp
    rw [List.cons_append, live_cons sl' a hne, live_cons sl a hne, h1,
      hpre a (List.mem_cons_self _ _), List.append_assoc]

/-- Moving the tail to a further segment `n` appends the first `tp'` slots of `n`, provided
the old tail segment is full. -/
theorem live_extend {sl sl' : Nat → List (Option V)} (pre : List Nat) (t n hp tp tp' : Nat)
    (hsl : ∀ a ∈ pre ++ [t], sl' a = sl a) (htp : tp = (sl t).length) :
    live sl' (pre ++ [t] ++ [n]) hp tp' = live sl (pre ++ [t]) hp tp ++ (sl' n).take tp' := by
  induction pre generalizing hp with
  | nil =>
    simp [live, htp, hsl t (by simp)]
  | cons a l ih =>
    have h1 := ih 0 (fun c hc => hsl c (List.mem_cons_of_mem _ hc))
    have hne : l ++ [t] ≠ [] := by simp
    have hne' : l ++ [t] ++ [n] ≠ [] := by simp
    rw [List.cons_append, List.cons_append, live_cons sl' a hne', live_cons sl a hne, h1,
      hsl a (by simp), List.append_assoc]

/-- Reading slot `hp` of the head segment and clearing it takes the first queued value. -/
theorem live_pop {sl sl' : Nat → List (Option V)} (h : Nat) (rest : List Nat) (hp tp : Nat)
    (hlt : hp < (sl h).length) (hrest : ∀ a ∈ rest, sl' a = sl a)
    (hh : sl' h = (sl h).set hp none) (hs : rest = [] → hp < tp) :
    live sl (h :: rest) hp tp = (sl h).get ⟨hp, hlt⟩ :: live sl' (h :: rest) (hp + 1) tp := by
  cases rest with
  | nil =>
    have := hs rfl
    simp only [live_single, hh]
    rw [List.set_take, List.drop_set_of_lt _ _ (Nat.lt_succ_self hp)]
    have hl : hp < ((sl h).take tp).length := by simp; omega
    rw [List.drop_eq_getElem_cons hl]
    simp
  | cons b l =>
    have hne : b :: l ≠ [] := by simp
    rw [live_cons sl h hne, live_cons sl' h hne, hh, live_congr 0 tp hrest,
      List.drop_set_of_lt _ _ (Nat.lt_succ_self hp), List.drop_eq_getElem_cons hlt]
    rfl

theorem valid_defaults : Valid defaults := by
  constructor <;> decide

section ringFacts

variable {c : Consts} {s : Mem V} {used spare : List Nat} {h t hp tp fst j : Nat}

theorem Ring.h_mem (R : Ring c s used spare h t hp tp fst j) : h ∈ used :=
  List.mem_of_mem_head? (by rw [R.used_head]; exact rfl)

theorem Ring.t_mem (R : Ring c s used spare h t hp tp fst j) : t ∈ used :=
  List.mem_of_getLast?_eq_some R.used_last

theorem Ring.h_lt (R : Ring c s used spare h t hp tp fst j) : h < s.nodes.length :=
  R.inHeap h (List.mem_append_left _ R.h_mem)

theorem Ring.t_lt (R : Ring c s used spare h t hp tp fst j) : t < s.nodes.length :=
  R.inHeap t (List.mem_append_left _ R.t_mem)

theorem Ring.nodup_used (R : Ring c s used spare h t hp tp fst j) : used.Nodup :=
  (List.nodup_append.1 R.nodup).1

theorem Ring.not_spare (R : Ring c s used spare h t hp tp fst j) {a : Nat} (ha : a ∈ used) :
    a ∉ spare := fun hs => (List.nodup_append.1 R.nodup).2.2 ha hs

/-- The head and tail pointers are equal exactly when one segment is in use. -/
theorem Ring.single (R : Ring c s used spare h t hp tp fst j) (e : h = t) : used = [t] := by
  obtain ⟨rest, hr⟩ := List.head?_eq_some_iff.1 R.used_head
  obtain ⟨pre, hpre⟩ := List.getLast?_eq_some_iff.1 R.used_last
  have hn := R.nodup_used
  subst e
  cases pre with
  | nil => simpa using hpre
  | cons a pre =>
    rw [hpre] at hr hn
    simp only [List.cons_append, List.cons.injEq] at hr
    obtain ⟨rfl, -⟩ := hr
    simp at hn

theorem Ring.multi (R : Ring c s used spare h t hp tp fst j) (e : h ≠ t) :
    ∃ mid, used = h :: (mid ++ [t]) := by
  obtain ⟨rest, hr⟩ := List.head?_eq_some_iff.1 R.used_head
  obtain ⟨pre, hpre⟩ := List.getLast?_eq_some_iff.1 R.used_last
  cases pre with
  | nil =>
    rw [hpre] at hr
    simp only [List.nil_append, List.cons.injEq] at hr
    exact absurd hr.1.symm e
  | cons a pre =>
    rw [hpre] at hr
    simp only [List.cons_append, List.cons.injEq] at hr
    obtain ⟨rfl, -⟩ := hr
    exact ⟨pre, hpre⟩

end ringFacts

theorem storeV_zero (nodes : List (node V)) (a : Nat) (x : Option V)
    (h : a < nodes.length) (hi : 1 ≤ (slotsAt nodes a).length) :
    ∃ m, storeV nodes (some a) 0 x = some m ∧ m.length = nodes.length ∧
      slotsAt m = Function.update (slotsAt nodes) a ((slotsAt nodes a).set 0 x) ∧
      nextAt m = nextAt nodes := by
  simpa using storeV_spec nodes a 0 x h hi

theorem live_write_last {sl sl' : Nat → List (Option V)} {used : List Nat} {t : Nat}
    (hp tp : Nat) (x : Option V) (hl : used.getLast? = some t) (hn : used.Nodup)
    (hsl : ∀ a, a ≠ t → sl' a = sl a)
    (ht : (sl' t).take (tp + 1) = (sl t).take tp ++ [x])
    (htp : tp ≤ (sl t).length) (hhp : used = [t] → hp ≤ tp) :
    live sl' used hp (tp + 1) = live sl used hp tp ++ [x] := by
  obtain ⟨pre, rfl⟩ := List.getLast?_eq_some_iff.1 hl
  refine live_write_tail pre t hp tp x (fun a ha => hsl a ?_) ht htp (fun e => hhp (by simp [e]))
  rintro rfl
  have := List.nodup_append.1 hn
  exact this.2.2 ha (by simp)

theorem take_set_le {α : Type} (l : List α) (m n : Nat) (a : α) (h : m ≤ n) :
    (l.set n a).take m = l.take m := by
  rw [List.set_take, List.set_eq_of_length_le]
  simp; omega

theorem take_succ_set {α : Type} (l : List α) (n : Nat) (a : α) (h : n < l.length) :
    (l.set n a).take (n + 1) = l.take n ++ [a] := by
  rw [List.take_succ, take_set_le _ _ _ _ (Nat.le_refl n)]
  simp [h]

/-- Second branch of `Push`: there is room in the tail segment. -/
theorem push_room (c : Consts) (x : Option V) (s : Mem V) {used spare : List Nat}
    {h t hp tp fst j : Nat} (R : Ring c s used spare h t hp tp fst j)
    (hroom : tp < (slotsAt s.nodes t).length) :
    ∃ s', Push c x s = some s' ∧ Ring c s' used spare h t hp (tp + 1) fst j ∧
      live (slotsAt s'.nodes) used hp (tp + 1) = live (slotsAt s.nodes) used hp tp ++ [x] := by
  obtain ⟨nodes, d⟩ := s
  obtain ⟨nd, hnd, hndv, hndn⟩ := deref_spec nodes t R.t_lt
  obtain ⟨m1, hm1, hlen1, hsl1, hnx1⟩ := storeV_spec nodes t tp x R.t_lt hroom
  have hhead := R.head_eq
  have htail := R.tail_eq
  have htp := R.tp_eq
  simp only at hhead htail htp hroom
  have hlens : ∀ a, (slotsAt m1 a).length = (slotsAt nodes a).length := by
    intro a; rw [hsl1]
    by_cases e : a = t
    · subst e; simp
    · rw [Function.update_noteq e]
  have hother : ∀ a, a ≠ t → slotsAt m1 a = slotsAt nodes a := by
    intro a e; rw [hsl1, Function.update_noteq e]
  have hself : slotsAt m1 t = (slotsAt nodes t).set tp x := by rw [hsl1]; simp
  have hlive : live (slotsAt m1) used hp (tp + 1) = live (slotsAt nodes) used hp tp ++ [x] :=
    live_write_last hp tp x R.used_last R.nodup_used hother
      (by rw [hself]; exact take_succ_set _ _ _ hroom) R.tp_le
      (fun e => R.hp_le_tp (by
        have := R.used_head; rw [e] at this; simpa using this.symm))
  refine ⟨⟨m1, { d with tp := d.tp + 1, len := d.len + 1 }⟩, ?_, ?_, hlive⟩
  · have hlt : d.tp < (nd.v.length : Int) := by rw [hndv, htp]; exact_mod_cast hroom
    simp only [Push, pushSwitch, hhead, htail, hnd, hlt, if_true, bind, Option.bind, pure]
    rw [htp, hm1]
  · exact
      { head_eq := R.head_eq
        tail_eq := R.tail_eq
        used_head := R.used_head
        used_last := R.used_last
        nodup := R.nodup
        inHeap := by simpa [hlen1] using R.inHeap
        cyc := by simpa [hnx1] using R.cyc
        hp_eq := R.hp_eq
        tp_eq := by simp [htp]
        hlp_eq := by simpa [hlens] using R.hlp_eq
        len_eq := by
          have := R.len_eq
          simp only at this
          simp [hlive, this]
        hp_lt := by simpa [hlens] using R.hp_lt
        tp_le := by simp only [hlens]; omega
        hp_le_tp := fun e => Nat.le_succ_of_le (R.hp_le_tp e)
        tp_pos := fun _ => Nat.succ_le_succ (Nat.zero_le _)
        fst_mem := R.fst_mem
        cap_fst := by simpa [hlens] using R.cap_fst
        cap_low := R.cap_low
        cap_multi := by simpa [hlens] using R.cap_multi
        cap_rest := by simpa [hlens] using R.cap_rest
        cap_pos := by simpa [hlens] using R.cap_pos
        nil_head := by
          by_cases e : h = t
          · subst e
            simp only [hself]
            rw [take_set_le _ _ _ _ (R.hp_le_tp rfl)]
            exact R.nil_head
          · simp only [hother h e]
            exact R.nil_head
        nil_tail := by
          simp only [hself]
          rw [List.drop_set_of_lt _ _ (Nat.lt_succ_self tp)]
          intro y hy
          refine R.nil_tail y ?_
          have : List.drop (tp + 1) (slotsAt nodes t) = List.drop 1 (List.drop tp (slotsAt nodes t)) := by
            rw [List.drop_drop]
          rw [this] at hy
          exact List.mem_of_mem_drop hy
        nil_spare := by
          intro a ha
          rw [hother a (fun e => R.not_spare R.t_mem (e ▸ ha))]
          exact R.nil_spare a ha }

theorem Valid.first_le_cap {c : Consts} (j n : Nat)
    (e : n = c.firstSliceSize.toNat * c.sliceGrowthFactor.toNat ^ j) (hn : 1 ≤ n) :
    c.firstSliceSize.toNat ≤ n := by
  rcases Nat.eq_zero_or_pos (c.sliceGrowthFactor.toNat ^ j) with h0 | h0
  · rw [h0] at e; omega
  · rw [e]; exact Nat.le_mul_of_pos_right _ h0

/-- Third branch of `Push`: the tail segment is full and below the growth ceiling. -/
theorem push_grow (c : Consts) (hc : Valid c) (x : Option V) (s : Mem V)
    {used spare : List Nat} {h t hp tp fst j : Nat} (R : Ring c s used spare h t hp tp fst j)
    (hfull : tp = (slotsAt s.nodes t).length) (hlow : tp < c.maxFirstSliceSize.toNat) :
    ∃ s', Push c x s = some s' ∧ Ring c s' used spare h t hp (tp + 1) fst (j + 1) ∧
      live (slotsAt s'.nodes) used hp (tp + 1) = live (slotsAt s.nodes) used hp tp ++ [x] := by
  obtain ⟨nodes, d⟩ := s
  simp only at hfull
  -- the tail is the first segment, and it is alone in the ring
  have hfst : t = fst := by
    by_contra e
    have := R.cap_rest t (List.mem_append_left _ R.t_mem) e
    have := hc.ceiling_le
    simp only at *
    omega
  subst hfst
  have hone : (used ++ spare).length < 2 := by
    by_contra e
    have := R.cap_multi (by omega)
    simp only at this
    omega
  have hused : used = [t] := by
    obtain ⟨pre, hpre⟩ := List.getLast?_eq_some_iff.1 R.used_last
    cases pre with
    | nil => simpa using hpre
    | cons a pre => rw [hpre] at hone; simp at hone; omega
  have hspare : spare = [] := by
    rw [hused] at hone
    cases spare with
    | nil => rfl
    | cons a l => simp at hone; omega
  have hht : h = t := by
    have := R.used_head; rw [hused] at this; simpa using this.symm
  subst hht
  -- arithmetic of the growth
  have hpos : 1 ≤ (slotsAt nodes h).length := R.cap_pos h (List.mem_append_left _ R.t_mem)
  have hcap := R.cap_fst
  simp only at hcap
  have hfirst : c.firstSliceSize.toNat ≤ (slotsAt nodes h).length := Valid.first_le_cap j _ hcap hpos
  have hfac : 2 ≤ c.sliceGrowthFactor.toNat := by have := hc.growth (by omega); omega
  have hmk : (make (((slotsAt nodes h).length : Int) * c.sliceGrowthFactor) :
      Option (List (Option V))) =
      some (List.replicate ((slotsAt nodes h).length * c.sliceGrowthFactor.toNat) none) :=
    make_mul _ _ (by omega)
  have hmul : (slotsAt nodes h).length <
      (slotsAt nodes h).length * c.sliceGrowthFactor.toNat := by
    calc (slotsAt nodes h).length < (slotsAt nodes h).length * 2 := by omega
      _ ≤ (slotsAt nodes h).length * c.sliceGrowthFactor.toNat := Nat.mul_le_mul_left _ hfac
  -- the memory operations
  obtain ⟨nd, hnd, hndv, hndn⟩ := deref_spec nodes h R.t_lt
  have hcopy : copy (List.replicate ((slotsAt nodes h).length * c.sliceGrowthFactor.toNat) none) (slotsAt nodes h) =
      slotsAt nodes h ++
        List.replicate ((slotsAt nodes h).length * c.sliceGrowthFactor.toNat - (slotsAt nodes h).length)
          none := copy_make _ _ (Nat.le_of_lt hmul)
  generalize hnv : copy (List.replicate ((slotsAt nodes h).length * c.sliceGrowthFactor.toNat) none)
    (slotsAt nodes h) = nv at hcopy
  have hnvlen : nv.length = (slotsAt nodes h).length * c.sliceGrowthFactor.toNat := by
    rw [hcopy]; simp; omega
  obtain ⟨m1, hm1, hlen1, hsl1, hnx1⟩ := setV_spec nodes h nv R.t_lt
  have hsl1' : slotsAt m1 h = nv := by rw [hsl1]; simp
  obtain ⟨m2, hm2, hlen2, hsl2, hnx2⟩ :=
    storeV_spec m1 h tp x (by rw [hlen1]; exact R.t_lt) (by rw [hsl1', hnvlen]; omega)
  have hself : slotsAt m2 h = nv.set tp x := by rw [hsl2, hsl1']; simp
  have hother : ∀ a, a ≠ h → slotsAt m2 a = slotsAt nodes a := by
    intro a e; rw [hsl2, Function.update_noteq e, hsl1, Function.update_noteq e]
  have hhead := R.head_eq
  have htail := R.tail_eq
  have htp := R.tp_eq
  simp only at hhead htail htp
  have htake : (slotsAt m2 h).take (tp + 1) = (slotsAt nodes h).take tp ++ [x] := by
    rw [hself, take_succ_set _ _ _ (by rw [hnvlen]; omega), hcopy,
      List.take_append_of_le_length (by omega)]
  have hlive : live (slotsAt m2) used hp (tp + 1) = live (slotsAt nodes) used hp tp ++ [x] :=
    live_write_last hp tp x R.used_last R.nodup_used hother htake R.tp_le
      (fun _ => R.hp_le_tp rfl)
  refine ⟨⟨m2, { d with tp := d.tp + 1, hlp := (nv.length : Int) - 1, len := d.len + 1 }⟩,
    ?_, ?_, hlive⟩
  · have hlt : ¬ d.tp < ((slotsAt nodes h).length : Int) := by rw [htp, hfull]; simp
    have hlt2 : d.tp < c.maxFirstSliceSize := by rw [htp]; omega
    simp only [Push, pushSwitch, hhead, htail, hnd, hlt, hlt2, if_true, if_false, bind,
      Option.bind, pure, hndv, hmk, hnv, hm1]
    rw [htp, hm2]
  · subst hused hspare
    exact
      { head_eq := R.head_eq
        tail_eq := R.tail_eq
        used_head := R.used_head
        used_last := R.used_last
        nodup := R.nodup
        inHeap := by simpa [hlen1, hlen2] using R.inHeap
        cyc := by simpa [hnx1, hnx2] using R.cyc
        hp_eq := R.hp_eq
        tp_eq := by simp [htp]
        hlp_eq := by simp [hself]
        len_eq := by
          have := R.len_eq
          simp only at this
          simp [hlive, this]
        hp_lt := by
          have := R.hp_lt
          simp only [hself, List.length_set, hnvlen] at this ⊢
          omega
        tp_le := by simp only [hself, List.length_set, hnvlen]; omega
        hp_le_tp := fun e => Nat.le_succ_of_le (R.hp_le_tp e)
        tp_pos := fun _ => Nat.succ_le_succ (Nat.zero_le _)
        fst_mem := R.fst_mem
        cap_fst := by
          simp only [hself, List.length_set, hnvlen, hcap, pow_succ, Nat.mul_assoc]
        cap_low := fun _ => by
          simp only [Nat.add_sub_cancel, ← hcap]; omega
        cap_multi := fun e => by simp at e
        cap_rest := fun a ha e => by simp at ha; exact absurd ha e
        cap_pos := fun a ha => by
          simp at ha; subst ha
          simp only [hself, List.length_set, hnvlen]; omega
        nil_head := by
          simp only [hself]
          rw [take_set_le _ _ _ _ (R.hp_le_tp rfl), hcopy,
            List.take_append_of_le_length (by have := R.hp_lt; simp only at this; omega)]
          exact R.nil_head
        nil_tail := by
          simp only [hself]
          rw [List.drop_set_of_lt _ _ (Nat.lt_succ_self tp), hcopy]
          rw [List.drop_append_eq_append_drop, List.drop_of_length_le (by omega)]
          intro y hy
          exact List.eq_of_mem_replicate (List.mem_of_mem_drop (by simpa using hy))
        nil_spare := by simp }

section ringFacts

variable {c : Consts} {s : Mem V} {used spare : List Nat} {h t hp tp fst j : Nat}

/-- The tail segment links to the first spare segment, or to the head when none is spare. -/
theorem Ring.next_tail (R : Ring c s used spare h t hp tp fst j) :
    nextAt s.nodes t = some (spare.headD h) := by
  obtain ⟨pre, hpre⟩ := List.getLast?_eq_some_iff.1 R.used_last
  have := R.cyc
  rw [hpre, List.append_assoc, linked_append] at this
  exact this.2.1

theorem Ring.ne_of_spare (R : Ring c s used spare h t hp tp fst j) {a b : Nat}
    (ha : a ∈ used) (hb : b ∈ spare) : a ≠ b :=
  fun e => R.not_spare ha (e ▸ hb)

end ringFacts

theorem take_one_set {α : Type} (l : List α) (a : α) (h : 1 ≤ l.length) :
    (l.set 0 a).take 1 = [a] := by
  cases l with
  | nil => simp at h
  | cons b l => simp

theorem live_extend_last {sl sl' : Nat → List (Option V)} {used : List Nat} {t : Nat}
    (n hp tp : Nat) (x : Option V) (hl : used.getLast? = some t)
    (hsl : ∀ a ∈ used, sl' a = sl a) (htp : tp = (sl t).length)
    (hn : (sl' n).take 1 = [x]) :
    live sl' (used ++ [n]) hp 1 = live sl used hp tp ++ [x] := by
  obtain ⟨pre, rfl⟩ := List.getLast?_eq_some_iff.1 hl
  rw [live_extend pre t n hp tp 1 hsl htp, hn]

/-- Fourth branch of `Push`: the tail segment is full and a spare segment follows it. -/
theorem push_spare (c : Consts) (x : Option V) (s : Mem V)
    {used spare : List Nat} {h t hp tp fst j n : Nat}
    (R : Ring c s used (n :: spare) h t hp tp fst j)
    (hfull : tp = (slotsAt s.nodes t).length) (hhigh : c.maxFirstSliceSize.toNat ≤ tp) :
    ∃ s', Push c x s = some s' ∧ Ring c s' (used ++ [n]) spare h n hp 1 fst j ∧
      live (slotsAt s'.nodes) (used ++ [n]) hp 1 = live (slotsAt s.nodes) used hp tp ++ [x] := by
  obtain ⟨nodes, d⟩ := s
  simp only at hfull
  have hnmem : n ∈ used ++ n :: spare := by simp
  have hnlt : n < nodes.length := R.inHeap n hnmem
  have hnpos : 1 ≤ (slotsAt nodes n).length := R.cap_pos n hnmem
  have hnh : h ≠ n := R.ne_of_spare R.h_mem (List.mem_cons_self _ _)
  have hnext : nextAt nodes t = some n := by simpa using R.next_tail
  obtain ⟨nd, hnd, hndv, hndn⟩ := deref_spec nodes t R.t_lt
  obtain ⟨m1, hm1, hlen1, hsl1, hnx1⟩ := storeV_zero nodes n x hnlt hnpos
  have hself : slotsAt m1 n = (slotsAt nodes n).set 0 x := by rw [hsl1]; simp
  have hother : ∀ a, a ≠ n → slotsAt m1 a = slotsAt nodes a := by
    intro a e; rw [hsl1, Function.update_noteq e]
  have hlens : ∀ a, (slotsAt m1 a).length = (slotsAt nodes a).length := by
    intro a
    by_cases e : a = n
    · subst e; simp [hself]
    · rw [hother a e]
  have hused : ∀ a ∈ used, slotsAt m1 a = slotsAt nodes a :=
    fun a ha => hother a (R.ne_of_spare ha (List.mem_cons_self _ _))
  have hhead := R.head_eq
  have htail := R.tail_eq
  have htp := R.tp_eq
  simp only at hhead htail htp
  have hlive : live (slotsAt m1) (used ++ [n]) hp 1 = live (slotsAt nodes) used hp tp ++ [x] :=
    live_extend_last n hp tp x R.used_last hused hfull
      (by rw [hself]; exact take_one_set _ _ hnpos)
  have hne : used ≠ [] := List.ne_nil_of_mem R.h_mem
  refine ⟨⟨m1, { d with tail := some n, tp := 1, len := d.len + 1 }⟩, ?_, ?_, hlive⟩
  · have hlt : ¬ d.tp < ((slotsAt nodes t).length : Int) := by rw [htp, hfull]; simp
    have hlt2 : ¬ d.tp < c.maxFirstSliceSize := by rw [htp]; omega
    have hne' : ¬ (some n = some h) := by simpa using hnh.symm
    simp only [Push, pushSwitch, hhead, htail, hnd, hndv, hndn, hnext, hlt, hlt2, if_true,
      if_false, bind, Option.bind, pure, hm1, ne_eq, hne', not_false_eq_true]
  · exact
      { head_eq := R.head_eq
        tail_eq := rfl
        used_head := by rw [List.head?_append_of_ne_nil _ hne]; exact R.used_head
        used_last := List.getLast?_concat _
        nodup := by simpa using R.nodup
        inHeap := by simpa [hlen1] using R.inHeap
        cyc := by simpa [hnx1] using R.cyc
        hp_eq := R.hp_eq
        tp_eq := rfl
        hlp_eq := by simpa [hlens] using R.hlp_eq
        len_eq := by
          have := R.len_eq
          simp only at this
          simp [hlive, this]
        hp_lt := by simpa [hlens] using R.hp_lt
        tp_le := by simpa [hlens] using hnpos
        hp_le_tp := fun e => absurd e hnh
        tp_pos := fun _ => Nat.le_refl 1
        fst_mem := by simpa using R.fst_mem
        cap_fst := by simpa [hlens] using R.cap_fst
        cap_low := R.cap_low
        cap_multi := by simpa [hlens] using R.cap_multi
        cap_rest := by simpa [hlens] using R.cap_rest
        cap_pos := by simpa [hlens] using R.cap_pos
        nil_head := by
          simp only [hother h hnh]
          exact R.nil_head
        nil_tail := by
          simp only [hself]
          rw [List.drop_set_of_lt _ _ Nat.zero_lt_one]
          intro y hy
          exact R.nil_spare n (List.mem_cons_self _ _) y (List.mem_of_mem_drop hy)
        nil_spare := by
          intro a ha
          have hn := (List.nodup_append.1 R.nodup).2.1
          have : a ≠ n := fun e => (List.nodup_cons.1 hn).1 (e ▸ ha)
          rw [hother a this]
          exact R.nil_spare a (List.mem_cons_of_mem _ ha) }

/-- Redirecting the last link of a chain. -/
theorem linked_redirect {nx nx' : Nat → Option Nat} (pre : List Nat) (t z z' : Nat)
    (hpre : ∀ a ∈ pre, nx' a = nx a) (ht : nx' t = some z')
    (hl : linked nx (pre ++ [t]) z) : linked nx' (pre ++ [t]) z' := by
  rw [linked_append] at hl ⊢
  exact ⟨linked_congr hpre hl.1, by simpa [linked] using ht⟩

/-- Fifth branch of `Push`: the tail segment is full and no segment is spare. -/
theorem push_alloc (c : Consts) (hc : Valid c) (x : Option V) (s : Mem V)
    {used : List Nat} {h t hp tp fst j : Nat}
    (R : Ring c s used [] h t hp tp fst j)
    (hfull : tp = (slotsAt s.nodes t).length) (hhigh : c.maxFirstSliceSize.toNat ≤ tp) :
    ∃ s', Push c x s = some s' ∧
      Ring c s' (used ++ [s.nodes.length]) [] h s.nodes.length hp 1 fst j ∧
      live (slotsAt s'.nodes) (used ++ [s.nodes.length]) hp 1 =
        live (slotsAt s.nodes) used hp tp ++ [x] := by
  obtain ⟨nodes, d⟩ := s
  simp only at hfull ⊢
  have hin : ∀ a ∈ used, a < nodes.length := by simpa using R.inHeap
  have hnew : ∀ a ∈ used, a ≠ nodes.length := fun a ha => Nat.ne_of_lt (hin a ha)
  have hnext : nextAt nodes t = some h := by simpa using R.next_tail
  have hstd : 1 ≤ c.maxInternalSliceSize.toNat := by have := hc.internal_pos; omega
  have hmk : (make c.maxInternalSliceSize : Option (List (Option V))) =
      some (List.replicate c.maxInternalSliceSize.toNat none) :=
    make_nonneg _ (by have := hc.internal_pos; omega)
  obtain ⟨nd, hnd, hndv, hndn⟩ := deref_spec nodes t R.t_lt
  -- n := &node{...}; n.n = d.head
  obtain ⟨m2, hm2, hlen2, hsl2, hnx2⟩ :=
    setN_spec (nodes ++ [{ v := List.replicate c.maxInternalSliceSize.toNat none, n := none }]) nodes.length
      (some h) (by simp)
  rw [slotsAt_append] at hsl2
  rw [nextAt_append] at hnx2
  simp only [List.length_append, List.length_singleton] at hlen2
  -- d.tail.n = n
  obtain ⟨m3, hm3, hlen3, hsl3, hnx3⟩ :=
    setN_spec m2 t (some nodes.length) (by have := R.t_lt; simp only at this; omega)
  -- d.tail.v[0] = v
  have hsl3' : slotsAt m3 nodes.length = List.replicate c.maxInternalSliceSize.toNat none := by
    rw [hsl3, hsl2]; simp
  obtain ⟨m4, hm4, hlen4, hsl4, hnx4⟩ :=
    storeV_zero m3 nodes.length x (by omega) (by rw [hsl3']; simpa using hstd)
  have hself : slotsAt m4 nodes.length = (List.replicate c.maxInternalSliceSize.toNat none).set 0 x := by
    rw [hsl4, hsl3']; simp
  have hother : ∀ a, a ≠ nodes.length → slotsAt m4 a = slotsAt nodes a := by
    intro a e
    rw [hsl4, Function.update_noteq e, hsl3, hsl2, Function.update_noteq e]
  have hused : ∀ a ∈ used, slotsAt m4 a = slotsAt nodes a := fun a ha => hother a (hnew a ha)
  have hnxt : nextAt m4 t = some nodes.length := by rw [hnx4, hnx3]; simp
  have hnxn : nextAt m4 nodes.length = some h := by
    rw [hnx4, hnx3, Function.update_noteq (hnew t R.t_mem).symm, hnx2]; simp
  have hnxo : ∀ a, a ≠ t → a ≠ nodes.length → nextAt m4 a = nextAt nodes a := by
    intro a e1 e2
    rw [hnx4, hnx3, Function.update_noteq e1, hnx2, Function.update_noteq e2,
      Function.update_noteq e2]
  have hhead := R.head_eq
  have htail := R.tail_eq
  have htp := R.tp_eq
  simp only at hhead htail htp
  have hlive : live (slotsAt m4) (used ++ [nodes.length]) hp 1 =
      live (slotsAt nodes) used hp tp ++ [x] :=
    live_extend_last nodes.length hp tp x R.used_last hused hfull
      (by rw [hself]; exact take_one_set _ _ (by simpa using hstd))
  have hne : used ≠ [] := List.ne_nil_of_mem R.h_mem
  refine ⟨⟨m4, { d with tail := some nodes.length, tp := 1, len := d.len + 1 }⟩, ?_, ?_, hlive⟩
  · have hlt : ¬ d.tp < ((slotsAt nodes t).length : Int) := by rw [htp, hfull]; simp
    have hlt2 : ¬ d.tp < c.maxFirstSliceSize := by rw [htp]; omega
    simp only [Push, pushSwitch, hhead, htail, hnd, hndv, hndn, hnext, hlt, hlt2, if_true,
      if_false, bind, Option.bind, pure, hmk, hm2, hm3, hm4, ne_eq, not_true_eq_false]
  · exact
      { head_eq := R.head_eq
        tail_eq := rfl
        used_head := by rw [List.head?_append_of_ne_nil _ hne]; exact R.used_head
        used_last := List.getLast?_concat _
        nodup := by
          rw [List.append_nil]
          refine List.nodup_append.2 ⟨R.nodup_used, List.nodup_singleton _, ?_⟩
          intro a ha hb
          exact hnew a ha (by simpa using hb)
        inHeap := by
          intro a ha
          simp only [List.append_nil, List.mem_append, List.mem_singleton] at ha
          show a < m4.length
          rcases ha with ha | rfl
          · have := hin a ha; omega
          · omega
        cyc := by
          obtain ⟨pre, hpre⟩ := List.getLast?_eq_some_iff.1 R.used_last
          have hcyc := R.cyc
          simp only [List.append_nil] at hcyc ⊢
          rw [linked_append]
          refine ⟨?_, by simpa [linked] using hnxn⟩
          rw [hpre] at hcyc ⊢
          refine linked_redirect pre t h _ (fun a ha => hnxo a ?_ ?_) hnxt hcyc
          · rintro rfl
            have := R.nodup_used
            rw [hpre] at this
            exact (List.nodup_append.1 this).2.2 ha (by simp)
          · exact hnew a (by rw [hpre]; exact List.mem_append_left _ ha)
        hp_eq := R.hp_eq
        tp_eq := rfl
        hlp_eq := by
          rw [hused h R.h_mem]; exact R.hlp_eq
        len_eq := by
          have := R.len_eq
          simp only at this
          simp [hlive, this]
        hp_lt := by rw [hused h R.h_mem]; exact R.hp_lt
        tp_le := by simpa [hself] using hstd
        hp_le_tp := fun e => absurd e (hnew h R.h_mem)
        tp_pos := fun _ => Nat.le_refl 1
        fst_mem := by
          have := R.fst_mem
          simp only [List.append_nil] at this ⊢
          exact List.mem_append_left _ this
        cap_fst := by
          have := R.fst_mem
          simp only [List.append_nil] at this
          rw [hused fst this]; exact R.cap_fst
        cap_low := R.cap_low
        cap_multi := fun _ => by
          have hf := R.fst_mem
          simp only [List.append_nil] at hf
          rw [hused fst hf]
          by_cases e : fst = t
          · rw [e, ← hfull]; exact hhigh
          · refine R.cap_multi ?_
            simp only [List.append_nil]
            have hn := R.nodup_used
            have ht := R.t_mem
            match used, hf, ht, hn with
            | [], hf, _, _ => simp at hf
            | [a], hf, ht, _ =>
              simp only [List.mem_singleton] at hf ht
              exact absurd (hf.trans ht.symm) e
            | _ :: _ :: _, _, _, _ => simp
        cap_rest := by
          intro a ha e
          simp only [List.append_nil, List.mem_append, List.mem_singleton] at ha
          rcases ha with ha | rfl
          · rw [hused a ha]; exact R.cap_rest a (by simpa using ha) e
          · simp [hself]
        cap_pos := by
          intro a ha
          simp only [List.append_nil, List.mem_append, List.mem_singleton] at ha
          rcases ha with ha | rfl
          · rw [hused a ha]; exact R.cap_pos a (by simpa using ha)
          · simpa [hself] using hstd
        nil_head := by rw [hused h R.h_mem]; exact R.nil_head
        nil_tail := by
          simp only [hself]
          rw [List.drop_set_of_lt _ _ Nat.zero_lt_one]
          intro y hy
          exact List.eq_of_mem_replicate (List.mem_of_mem_drop hy)
        nil_spare := by simp }

/-- First branch of `Push`: the queue owns no segment yet. -/
theorem push_first (c : Consts) (hc : Valid c) (x : Option V) (s : Mem V) (hd : s.d = {}) :
    ∃ s', Push c x s = some s' ∧
      Ring c s' [s.nodes.length] [] s.nodes.length s.nodes.length 0 1 s.nodes.length 0 ∧
      live (slotsAt s'.nodes) [s.nodes.length] 0 1 = [x] := by
  obtain ⟨nodes, d⟩ := s
  simp only at hd
  subst hd
  obtain ⟨m2, hm2, hlen2, hsl2, hnx2⟩ :=
    setN_spec (nodes ++ [{ v := List.replicate c.firstSliceSize.toNat none, n := none }]) nodes.length
      (some nodes.length) (by simp)
  have hsl2' : slotsAt m2 nodes.length = List.replicate c.firstSliceSize.toNat none := by
    rw [hsl2, slotsAt_append]; simp
  have hfirst : 1 ≤ c.firstSliceSize.toNat := by have := hc.first_pos; omega
  have hmk : (make c.firstSliceSize : Option (List (Option V))) =
      some (List.replicate c.firstSliceSize.toNat none) :=
    make_nonneg _ (by have := hc.first_pos; omega)
  obtain ⟨m3, hm3, hlen3, hsl3, hnx3⟩ :=
    storeV_zero m2 nodes.length x (by rw [hlen2]; simp) (by rw [hsl2']; simpa using hfirst)
  have hsl3' : slotsAt m3 nodes.length = (List.replicate c.firstSliceSize.toNat none).set 0 x := by
    rw [hsl3, hsl2']; simp
  have hnx3' : nextAt m3 nodes.length = some nodes.length := by
    rw [hnx3, hnx2]; simp
  have hlive : live (slotsAt m3) [nodes.length] 0 1 = [x] := by
    rw [live_single, hsl3']
    simpa using take_one_set _ x (by simpa using hfirst)
  refine ⟨⟨m3, ⟨some nodes.length, some nodes.length, 0, c.firstSliceSize - 1, 1, 1⟩⟩,
    ?_, ?_, hlive⟩
  · simp only [Push, pushSwitch, hmk, hm2, hm3, bind, Option.bind, pure]
    rfl
  · have hnil : ∀ y ∈ ((List.replicate c.firstSliceSize.toNat none : List (Option V)).set 0 x).drop 1, y = none := by
      rw [List.drop_set_of_lt _ _ Nat.zero_lt_one]
      intro y hy
      exact List.eq_of_mem_replicate (List.mem_of_mem_drop hy)
    constructor
    case nil_tail => simpa [hsl3'] using hnil
    all_goals simp [hsl3', hlive, hnx3', linked, hlen3, hlen2]
    all_goals omega

/-- `Push` refines appending to the list of queued values. -/
theorem push_rep (c : Consts) (hc : Valid c) (x : Option V) (s : Mem V)
    (xs : List (Option V)) (hr : Rep c s xs) :
    ∃ s', Push c x s = some s' ∧ Rep c s' (xs ++ [x]) := by
  rcases hr with ⟨hd, rfl⟩ | ⟨used, spare, h, t, hp, tp, fst, j, R, rfl⟩
  · obtain ⟨s', hs', R', hl⟩ := push_first c hc x s hd
    exact ⟨s', hs', Or.inr ⟨_, _, _, _, _, _, _, _, R', by simp [hl]⟩⟩
  · by_cases hroom : tp < (slotsAt s.nodes t).length
    · obtain ⟨s', hs', R', hl⟩ := push_room c x s R hroom
      exact ⟨s', hs', Or.inr ⟨_, _, _, _, _, _, _, _, R', hl.symm⟩⟩
    · have hfull : tp = (slotsAt s.nodes t).length := Nat.le_antisymm R.tp_le (Nat.not_lt.1 hroom)
      by_cases hlow : tp < c.maxFirstSliceSize.toNat
      · obtain ⟨s', hs', R', hl⟩ := push_grow c hc x s R hfull hlow
        exact ⟨s', hs', Or.inr ⟨_, _, _, _, _, _, _, _, R', hl.symm⟩⟩
      · cases spare with
        | nil =>
          obtain ⟨s', hs', R', hl⟩ := push_alloc c hc x s R hfull (Nat.not_lt.1 hlow)
          exact ⟨s', hs', Or.inr ⟨_, _, _, _, _, _, _, _, R', hl.symm⟩⟩
        | cons n spare =>
          obtain ⟨s', hs', R', hl⟩ := push_spare c x s R hfull (Nat.not_lt.1 hlow)
          exact ⟨s', hs', Or.inr ⟨_, _, _, _, _, _, _, _, R', hl.symm⟩⟩

theorem nil_set_last {α : Type} (l : List (Option α)) (hp : Nat)
    (h1 : ∀ y ∈ l.take hp, y = none) (h2 : hp + 1 = l.length) :
    ∀ y ∈ l.set hp none, y = none := by
  intro y hy
  rw [List.set_eq_take_append_cons_drop, if_pos (by omega),
    List.drop_of_length_le (by omega)] at hy
  rcases List.mem_append.1 hy with h | h
  · exact h1 y h
  · simpa using h

section popFacts

variable {c : Consts} {nodes : List (node V)} {d : Queue} {used spare : List Nat}
  {h t hp tp fst j : Nat}

/-- What every non-empty `Pop` does first: read slot `hp` of the head, then clear it. -/
theorem pop_common (R : Ring c ⟨nodes, d⟩ used spare h t hp tp fst j) (x : Option V)
    (xs : List (Option V)) (hl : live (slotsAt nodes) used hp tp = x :: xs) :
    ∃ nd m1, deref nodes (some h) = some nd ∧ index nd.v d.hp = some x ∧
      storeV nodes (some h) d.hp none = some m1 ∧ m1.length = nodes.length ∧
      slotsAt m1 = Function.update (slotsAt nodes) h ((slotsAt nodes h).set hp none) ∧
      nextAt m1 = nextAt nodes ∧ xs = live (slotsAt m1) used (hp + 1) tp ∧
      (h = t → hp < tp) ∧ d.len ≠ 0 := by
  obtain ⟨nd, hnd, hndv, hndn⟩ := deref_spec nodes h R.h_lt
  have hlt := R.hp_lt
  have hhp := R.hp_eq
  simp only at hlt hhp
  obtain ⟨m1, hm1, hlen1, hsl1, hnx1⟩ := storeV_spec nodes h hp none R.h_lt hlt
  obtain ⟨rest, hrest⟩ := List.head?_eq_some_iff.1 R.used_head
  have hsingle : h = t → hp < tp := by
    intro e
    have hu := R.single e
    rw [hu, live_single] at hl
    have : 0 < (List.drop hp (List.take tp (slotsAt nodes t))).length := by rw [hl]; simp
    simp at this
    omega
  have hpop := @live_pop V (slotsAt nodes) (slotsAt m1) h rest hp tp hlt
    (fun a ha => by
      rw [hsl1, Function.update_noteq]
      rintro rfl
      have := R.nodup_used
      rw [hrest] at this
      exact (List.nodup_cons.1 this).1 ha)
    (by rw [hsl1]; simp)
    (fun e => hsingle (by
      have := R.used_last
      rw [hrest, e] at this
      simpa using this))
  rw [← hrest, hl] at hpop
  simp only [List.cons.injEq] at hpop
  refine ⟨nd, m1, hnd, ?_, by rw [hhp]; exact hm1, hlen1, hsl1, hnx1, hpop.2, hsingle, ?_⟩
  · rw [hndv, hhp, index_spec _ _ hlt, hpop.1]
  · have := R.len_eq
    simp only at this
    rw [this, hl]
    simp
    omega

end popFacts

section popFacts

variable {c : Consts} {nodes : List (node V)} {d : Queue} {used spare : List Nat}
  {h t hp tp fst j : Nat}

/-- First branch of `Pop`: the head cursor moves on inside the head segment. -/
theorem pop_advance (R : Ring c ⟨nodes, d⟩ used spare h t hp tp fst j) (x : Option V)
    (xs : List (Option V)) (hl : live (slotsAt nodes) used hp tp = x :: xs)
    (hin : hp + 1 < (slotsAt nodes h).length) :
    ∃ s', Pop ⟨nodes, d⟩ = some (s', x, true) ∧ Ring c s' used spare h t (hp + 1) tp fst j ∧
      live (slotsAt s'.nodes) used (hp + 1) tp = xs := by
  obtain ⟨nd, m1, hnd, hidx, hm1, hlen1, hsl1, hnx1, hxs, hsingle, hlen⟩ :=
    pop_common R x xs hl
  have hhead := R.head_eq
  have hhp := R.hp_eq
  have hhlp := R.hlp_eq
  simp only at hhead hhp hhlp
  have hself : slotsAt m1 h = (slotsAt nodes h).set hp none := by rw [hsl1]; simp
  have hother : ∀ a, a ≠ h → slotsAt m1 a = slotsAt nodes a := by
    intro a e; rw [hsl1, Function.update_noteq e]
  have hlens : ∀ a, (slotsAt m1 a).length = (slotsAt nodes a).length := by
    intro a
    by_cases e : a = h
    · subst e; simp [hself]
    · rw [hother a e]
  refine ⟨⟨m1, { d with len := d.len - 1, hp := d.hp + 1 }⟩, ?_, ?_, hxs.symm⟩
  · have hlt : d.hp < d.hlp := by rw [hhp, hhlp]; omega
    simp only [Pop, hlen, if_false, hhead, hnd, hidx, hm1, hlt, if_true, bind, Option.bind,
      pure]
  · exact
      { head_eq := R.head_eq
        tail_eq := R.tail_eq
        used_head := R.used_head
        used_last := R.used_last
        nodup := R.nodup
        inHeap := by simpa [hlen1] using R.inHeap
        cyc := by simpa [hnx1] using R.cyc
        hp_eq := by simp [hhp]
        tp_eq := R.tp_eq
        hlp_eq := by simpa [hlens] using R.hlp_eq
        len_eq := by
          have := R.len_eq
          simp only at this
          simp [← hxs, this, hl]
        hp_lt := by simpa [hlens] using hin
        tp_le := by simpa [hlens] using R.tp_le
        hp_le_tp := fun e => hsingle e
        tp_pos := R.tp_pos
        fst_mem := R.fst_mem
        cap_fst := by simpa [hlens] using R.cap_fst
        cap_low := R.cap_low
        cap_multi := by simpa [hlens] using R.cap_multi
        cap_rest := by simpa [hlens] using R.cap_rest
        cap_pos := by simpa [hlens] using R.cap_pos
        nil_head := by
          simp only [hself]
          rw [take_succ_set _ _ _ R.hp_lt]
          intro y hy
          rcases List.mem_append.1 hy with h1 | h1
          · exact R.nil_head y h1
          · simpa using h1
        nil_tail := by
          by_cases e : h = t
          · subst e
            simp only [hself]
            rw [List.drop_set_of_lt _ _ (hsingle rfl)]
            exact R.nil_tail
          · rw [hother t (Ne.symm e)]
            exact R.nil_tail
        nil_spare := by
          intro a ha
          rw [hother a (fun e => R.not_spare R.h_mem (e ▸ ha))]
          exact R.nil_spare a ha }

/-- Second branch of `Pop`: the only segment in use is drained at its last slot. -/
theorem pop_drain (R : Ring c ⟨nodes, d⟩ used spare h t hp tp fst j) (x : Option V)
    (xs : List (Option V)) (hl : live (slotsAt nodes) used hp tp = x :: xs)
    (hend : hp + 1 = (slotsAt nodes h).length) (e : h = t) :
    ∃ s', Pop ⟨nodes, d⟩ = some (s', x, true) ∧ Ring c s' used spare h t hp hp fst j ∧
      live (slotsAt s'.nodes) used hp hp = xs := by
  obtain ⟨nd, m1, hnd, hidx, hm1, hlen1, hsl1, hnx1, hxs, hsingle, hlen⟩ :=
    pop_common R x xs hl
  have hhead := R.head_eq
  have htail := R.tail_eq
  have hhp := R.hp_eq
  have hhlp := R.hlp_eq
  simp only at hhead htail hhp hhlp
  have hused := R.single e
  subst e
  have hself : slotsAt m1 h = (slotsAt nodes h).set hp none := by rw [hsl1]; simp
  have hother : ∀ a, a ≠ h → slotsAt m1 a = slotsAt nodes a := by
    intro a e; rw [hsl1, Function.update_noteq e]
  have hlens : ∀ a, (slotsAt m1 a).length = (slotsAt nodes a).length := by
    intro a
    by_cases e : a = h
    · subst e; simp [hself]
    · rw [hother a e]
  have hxs0 : xs = [] := by
    rw [hxs, hused, live_single]
    apply List.drop_of_length_le
    simp [hlens]; omega
  have hlive : live (slotsAt m1) used hp hp = xs := by
    rw [hxs0, hused, live_single]
    apply List.drop_of_length_le
    simp
  refine ⟨⟨m1, { d with len := d.len - 1, tp := d.hp }⟩, ?_, ?_, hlive⟩
  · have hlt : ¬ d.hp < d.hlp := by rw [hhp, hhlp]; omega
    simp only [Pop, hlen, if_false, hhead, htail, hnd, hidx, hm1, hlt, if_true, bind,
      Option.bind, pure]
  · exact
      { head_eq := R.head_eq
        tail_eq := R.tail_eq
        used_head := R.used_head
        used_last := R.used_last
        nodup := R.nodup
        inHeap := by simpa [hlen1] using R.inHeap
        cyc := by simpa [hnx1] using R.cyc
        hp_eq := R.hp_eq
        tp_eq := R.hp_eq
        hlp_eq := by simpa [hlens] using R.hlp_eq
        len_eq := by
          have := R.len_eq
          simp only at this
          simp [hlive, this, hl, hxs0]
        hp_lt := by simpa [hlens] using R.hp_lt
        tp_le := by simp only [hlens]; omega
        hp_le_tp := fun _ => Nat.le_refl _
        tp_pos := fun e => absurd rfl e
        fst_mem := R.fst_mem
        cap_fst := by simpa [hlens] using R.cap_fst
        cap_low := R.cap_low
        cap_multi := by simpa [hlens] using R.cap_multi
        cap_rest := by simpa [hlens] using R.cap_rest
        cap_pos := by simpa [hlens] using R.cap_pos
        nil_head := fun y hy =>
          nil_set_last _ hp R.nil_head hend y (by rw [← hself]; exact List.mem_of_mem_take hy)
        nil_tail := fun y hy =>
          nil_set_last _ hp R.nil_head hend y (by rw [← hself]; exact List.mem_of_mem_drop hy)
        nil_spare := by
          intro a ha
          rw [hother a (fun e => R.not_spare R.h_mem (e ▸ ha))]
          exact R.nil_spare a ha }

end popFacts

section popFacts

variable {c : Consts} {nodes : List (node V)} {d : Queue} {used spare : List Nat}
  {h t hp tp fst j : Nat}

/-- Third branch of `Pop`: the head segment is drained and the head moves to the next one. -/
theorem pop_rotate (R : Ring c ⟨nodes, d⟩ used spare h t hp tp fst j) (x : Option V)
    (xs : List (Option V)) (hl : live (slotsAt nodes) used hp tp = x :: xs)
    (hend : hp + 1 = (slotsAt nodes h).length) (e : h ≠ t) :
    ∃ s' b rest, used = h :: b :: rest ∧ Pop ⟨nodes, d⟩ = some (s', x, true) ∧
      Ring c s' (b :: rest) (spare ++ [h]) b t 0 tp fst j ∧
      live (slotsAt s'.nodes) (b :: rest) 0 tp = xs := by
  obtain ⟨nd, m1, hnd, hidx, hm1, hlen1, hsl1, hnx1, hxs, hsingle, hlen⟩ :=
    pop_common R x xs hl
  have hhead := R.head_eq
  have htail := R.tail_eq
  have hhp := R.hp_eq
  have hhlp := R.hlp_eq
  simp only at hhead htail hhp hhlp
  obtain ⟨mid, hused⟩ := R.multi e
  obtain ⟨b, rest, hbrest⟩ : ∃ b rest, mid ++ [t] = b :: rest := by
    cases mid with
    | nil => exact ⟨t, [], rfl⟩
    | cons a l => exact ⟨a, l ++ [t], rfl⟩
  rw [hbrest] at hused
  subst hused
  have hnd' := R.nodup
  have hnh : h ∉ b :: rest ++ spare := by
    simpa using (List.nodup_cons.1 hnd').1
  have hself : slotsAt m1 h = (slotsAt nodes h).set hp none := by rw [hsl1]; simp
  have hother : ∀ a, a ≠ h → slotsAt m1 a = slotsAt nodes a := by
    intro a e; rw [hsl1, Function.update_noteq e]
  have hlens : ∀ a, (slotsAt m1 a).length = (slotsAt nodes a).length := by
    intro a
    by_cases e : a = h
    · subst e; simp [hself]
    · rw [hother a e]
  have hbh : b ≠ h := by
    rintro rfl
    exact hnh (by simp)
  have hth : t ≠ h := Ne.symm e
  have hcyc := R.cyc
  simp only [List.cons_append, linked, List.headD_cons] at hcyc
  have hblt : b < nodes.length := R.inHeap b (by simp)
  obtain ⟨nd1, hnd1, hnd1v, hnd1n⟩ := deref_spec m1 h (by rw [hlen1]; exact R.h_lt)
  obtain ⟨nd2, hnd2, hnd2v, hnd2n⟩ := deref_spec m1 b (by rw [hlen1]; exact hblt)
  have hlive : live (slotsAt m1) (b :: rest) 0 tp = xs := by
    rw [hxs, live_cons _ h (List.cons_ne_nil b rest), hself,
      List.drop_of_length_le (by simp; omega), List.nil_append]
  have hlast : (b :: rest).getLast? = some t := by
    have := R.used_last
    rwa [List.getLast?_cons_cons] at this
  refine ⟨⟨m1, ⟨some b, d.tail, 0, ((slotsAt m1 b).length : Int) - 1, d.tp, d.len - 1⟩⟩,
    b, rest, rfl, ?_, ?_, hlive⟩
  · have hlt : ¬ d.hp < d.hlp := by rw [hhp, hhlp]; omega
    have hne : ¬ (some h = some t) := by simpa using e
    have hn1 : nd1.n = some b := by rw [hnd1n, hnx1]; exact hcyc.1
    simp only [Pop, hlen, if_false, hhead, htail, hnd, hidx, hm1, hlt, hne, bind, Option.bind,
      pure, hnd1, hn1, hnd2, hnd2v]
  · exact
      { head_eq := rfl
        tail_eq := R.tail_eq
        used_head := rfl
        used_last := hlast
        nodup := by
          have : (b :: rest ++ (spare ++ [h])).Perm (h :: (b :: rest ++ spare)) := by
            rw [← List.append_assoc]
            exact List.perm_append_singleton _ _
          exact this.nodup_iff.2 hnd'
        inHeap := by
          intro a ha
          show a < m1.length
          rw [hlen1]
          refine R.inHeap a ?_
          simp only [List.cons_append, List.mem_cons, List.mem_append, List.mem_singleton] at ha ⊢
          tauto
        cyc := by
          rw [← List.append_assoc, linked_append]
          simp only [hnx1]
          exact ⟨hcyc.2, by simpa [linked] using hcyc.1⟩
        hp_eq := rfl
        tp_eq := R.tp_eq
        hlp_eq := rfl
        len_eq := by
          have := R.len_eq
          simp only at this
          simp [hlive, this, hl]
        hp_lt := by
          have := R.cap_pos b (by simp)
          simp only at this
          simp only [hlens]; omega
        tp_le := by simpa [hlens] using R.tp_le
        hp_le_tp := fun _ => Nat.zero_le _
        tp_pos := fun _ => R.tp_pos e
        fst_mem := by
          have := R.fst_mem
          simp only [List.cons_append, List.mem_cons, List.mem_append, List.mem_singleton] at this ⊢
          tauto
        cap_fst := by simpa [hlens] using R.cap_fst
        cap_low := R.cap_low
        cap_multi := fun _ => by
          simp only [hlens]
          exact R.cap_multi (by simp)
        cap_rest := by
          intro a ha
          simp only [hlens]
          refine R.cap_rest a ?_
          simp only [List.cons_append, List.mem_cons, List.mem_append, List.mem_singleton] at ha ⊢
          tauto
        cap_pos := by
          intro a ha
          simp only [hlens]
          refine R.cap_pos a ?_
          simp only [List.cons_append, List.mem_cons, List.mem_append, List.mem_singleton] at ha ⊢
          tauto
        nil_head := by simp
        nil_tail := by
          rw [hother t hth]
          exact R.nil_tail
        nil_spare := by
          intro a ha
          rcases List.mem_append.1 ha with h1 | h1
          · rw [hother a (fun e => hnh (by rw [← e]; simp [h1]))]
            exact R.nil_spare a h1
          · simp only [List.mem_singleton] at h1
            subst h1
            rw [hself]
            exact nil_set_last _ hp R.nil_head hend }

end popFacts

/-- `Pop` on a memory that represents the empty list. -/
theorem pop_rep_nil (c : Consts) (s : Mem V) (hr : Rep c s []) :
    Pop s = some (s, none, false) := by
  have hlen : s.d.len = 0 := by
    rcases hr with ⟨hd, -⟩ | ⟨used, spare, h, t, hp, tp, fst, j, R, hl⟩
    · rw [hd]
    · rw [R.len_eq, ← hl]; rfl
  simp [Pop, hlen]

/-- `Pop` refines removing the front of the list of queued values. -/
theorem pop_rep_cons (c : Consts) (s : Mem V) (x : Option V) (xs : List (Option V))
    (hr : Rep c s (x :: xs)) : ∃ s', Pop s = some (s', x, true) ∧ Rep c s' xs := by
  rcases hr with ⟨-, hd⟩ | ⟨used, spare, h, t, hp, tp, fst, j, R, hl⟩
  · simp at hd
  · obtain ⟨nodes, d⟩ := s
    simp only at hl
    by_cases hin : hp + 1 < (slotsAt nodes h).length
    · obtain ⟨s', hs', R', hl'⟩ := pop_advance R x xs hl.symm hin
      exact ⟨s', hs', Or.inr ⟨_, _, _, _, _, _, _, _, R', hl'.symm⟩⟩
    · have hend : hp + 1 = (slotsAt nodes h).length := by
        have := R.hp_lt
        simp only at this
        omega
      by_cases e : h = t
      · obtain ⟨s', hs', R', hl'⟩ := pop_drain R x xs hl.symm hend e
        exact ⟨s', hs', Or.inr ⟨_, _, _, _, _, _, _, _, R', hl'.symm⟩⟩
      · obtain ⟨s', b, rest, -, hs', R', hl'⟩ := pop_rotate R x xs hl.symm hend e
        exact ⟨s', hs', Or.inr ⟨_, _, _, _, _, _, _, _, R', hl'.symm⟩⟩

/-- `Front` reads the front of the list of queued values and changes nothing. -/
theorem front_rep (c : Consts) (s : Mem V) (xs : List (Option V)) (hr : Rep c s xs) :
    Front s = some (s, xs.head?.getD none, !xs.isEmpty) := by
  cases xs with
  | nil =>
    have hlen : s.d.len = 0 := by
      rcases hr with ⟨hd, -⟩ | ⟨used, spare, h, t, hp, tp, fst, j, R, hl⟩
      · rw [hd]
      · rw [R.len_eq, ← hl]; rfl
    simp [Front, hlen]
  | cons x xs =>
    rcases hr with ⟨-, hd⟩ | ⟨used, spare, h, t, hp, tp, fst, j, R, hl⟩
    · simp at hd
    · obtain ⟨nodes, d⟩ := s
      obtain ⟨nd, m1, hnd, hidx, -, -, -, -, -, -, hlen⟩ := pop_common R x xs hl.symm
      have hhead := R.head_eq
      simp only at hhead
      simp [Front, hlen, hhead, hnd, hidx]

theorem len_rep (c : Consts) (s : Mem V) (xs : List (Option V)) (hr : Rep c s xs) :
    Len s = (xs.length : Int) := by
  rcases hr with ⟨hd, rfl⟩ | ⟨used, spare, h, t, hp, tp, fst, j, R, hl⟩
  · simp [Len, hd]
  · rw [hl]; exact R.len_eq

theorem init_rep (c : Consts) (s : Mem V) : Rep c (Init s) [] := Or.inl ⟨rfl, rfl⟩

theorem new_rep (c : Consts) : Rep c (New : Mem V) [] := Or.inl ⟨rfl, rfl⟩

/-- One call refines one step of the list model. -/
theorem step_rep (c : Consts) (hc : Valid c) (op : Op V) (s : Mem V) (xs : List (Option V))
    (hr : Rep c s xs) :
    ∃ s', step c op s = some (s', (specStep op xs).2) ∧ Rep c s' (specStep op xs).1 := by
  cases op with
  | Init => exact ⟨Init s, rfl, init_rep c s⟩
  | Len => exact ⟨s, by simp [step, specStep, len_rep c s xs hr], hr⟩
  | Front =>
    refine ⟨s, ?_, by cases xs <;> exact hr⟩
    simp only [step, front_rep c s xs hr]
    cases xs <;> rfl
  | Push x =>
    obtain ⟨s', hs', hr'⟩ := push_rep c hc x s xs hr
    exact ⟨s', by simp [step, hs', specStep], hr'⟩
  | Pop =>
    cases xs with
    | nil => exact ⟨s, by simp [step, pop_rep_nil c s hr, specStep], hr⟩
    | cons x xs =>
      obtain ⟨s', hs', hr'⟩ := pop_rep_cons c s x xs hr
      exact ⟨s', by simp [step, hs', specStep], hr'⟩

/-- A sequence of calls refines the list model. -/
theorem run_rep (c : Consts) (hc : Valid c) (ops : List (Op V)) (s : Mem V)
    (xs : List (Option V)) (hr : Rep c s xs) :
    ∃ s', run c ops s = some (s', (specRun ops xs).2) ∧ Rep c s' (specRun ops xs).1 := by
  induction ops generalizing s xs with
  | nil => exact ⟨s, rfl, hr⟩
  | cons op ops ih =>
    obtain ⟨s1, h1, hr1⟩ := step_rep c hc op s xs hr
    obtain ⟨s2, h2, hr2⟩ := ih s1 _ hr1
    exact ⟨s2, by simp [run, h1, h2, specRun], hr2⟩

/-- What a run from a represented state ends in. -/
theorem run_rep_eq (c : Consts) (hc : Valid c) (ops : List (Op V)) (s s' : Mem V)
    (xs : List (Option V)) (rs : List (Ret V)) (hr : Rep c s xs)
    (hrun : run c ops s = some (s', rs)) :
    rs = (specRun ops xs).2 ∧ Rep c s' (specRun ops xs).1 := by
  obtain ⟨s2, h2, hr2⟩ := run_rep c hc ops s xs hr
  rw [h2] at hrun
  simp only [Option.some.injEq, Prod.mk.injEq] at hrun
  obtain ⟨rfl, rfl⟩ := hrun
  exact ⟨rfl, hr2⟩

/-- Every reachable state represents some list of queued values. -/
theorem Reachable.rep {c : Consts} (hc : Valid c) {s : Mem V} (hs : Reachable c s) :
    ∃ xs, Rep c s xs := by
  obtain ⟨ops, rs, hrun⟩ := hs
  exact ⟨_, (run_rep_eq c hc ops New s [] rs (new_rep c) hrun).2⟩

theorem specRun_append (ops1 ops2 : List (Op V)) (xs : List (Option V)) :
    specRun (ops1 ++ ops2) xs =
      ((specRun ops2 (specRun ops1 xs).1).1,
        (specRun ops1 xs).2 ++ (specRun ops2 (specRun ops1 xs).1).2) := by
  induction ops1 generalizing xs with
  | nil => rfl
  | cons op ops ih => simp [specRun, ih]

theorem specRun_pushes (xs ys : List (Option V)) :
    specRun (xs.map Op.Push) ys = (ys ++ xs, List.replicate xs.length Ret.unit) := by
  induction xs generalizing ys with
  | nil => simp [specRun]
  | cons x xs ih => simp [specRun, specStep, ih, List.replicate_succ]

theorem specRun_pops (xs : List (Option V)) :
    specRun (List.replicate xs.length (Op.Pop : Op V)) xs =
      ([], xs.map (fun x => Ret.val x true)) := by
  induction xs with
  | nil => rfl
  | cons x xs ih => simp [specRun, specStep, ih, List.replicate_succ]

/-- On the list model the length is the number of pushes minus the number of found pops. -/
theorem specRun_length (ops : List (Op V)) (xs : List (Option V))
    (hops : ∀ op ∈ ops, op.isPushPop = true) :
    (((specRun ops xs).1.length : Nat) : Int) =
      (xs.length : Int) + (pushCount ops : Int) - (popFoundCount ops (specRun ops xs).2 : Int) := by
  induction ops generalizing xs with
  | nil => simp [specRun, pushCount, popFoundCount]
  | cons op ops ih =>
    have h1 := fun ys => ih ys (fun o ho => hops o (List.mem_cons_of_mem _ ho))
    have h0 := hops op (List.mem_cons_self _ _)
    cases op with
    | Init => simp [Op.isPushPop] at h0
    | Len => simp [Op.isPushPop] at h0
    | Front => simp [Op.isPushPop] at h0
    | Push x =>
      simp only [specRun, specStep, pushCount, popFoundCount, h1]
      simp
      omega
    | Pop =>
      cases xs with
      | nil =>
        simp only [specRun, specStep, pushCount, popFoundCount, h1]
      | cons y ys =>
        simp only [specRun, specStep, pushCount, popFoundCount, h1]
        simp
        omega

/-- C1. FIFO refinement: every sequence of `Push` and `Pop` calls on a new (zero-value) queue
runs to completion, and each call returns exactly what the same call returns on the plain
list model, where `Push` appends at the back and `Pop` removes and returns the front with
found, or returns nil and not found on the empty list. -/
theorem fifo_refinement (ops : List (Op V)) (_hops : ∀ op ∈ ops, op.isPushPop = true) :
    ∃ s, run defaults ops New = some (s, (specRun ops []).2) := by
  obtain ⟨s, hs, -⟩ := run_rep defaults valid_defaults ops New [] (new_rep _)
  exact ⟨s, hs⟩

theorem fifo_refinement_witness :
    (∀ op ∈ [Op.Push (some 7), Op.Pop, Op.Pop, Op.Push none, Op.Push (some 9), Op.Pop],
        op.isPushPop = true) ∧
      ∃ s, run defaults [Op.Push (some 7), Op.Pop, Op.Pop, Op.Push none, Op.Push (some 9), Op.Pop]
        (New : Mem Nat) = some (s, (specRun
          [Op.Push (some 7), Op.Pop, Op.Pop, Op.Push none, Op.Push (some 9), Op.Pop] []).2) :=
  ⟨by decide, fifo_refinement _ (by decide)⟩

/-- C2. Length accounting: every sequence of `Push` and `Pop` calls on a new queue runs to a
state in which `Len()` is the number of `Push` calls minus the number of `Pop` calls that
returned found, and is not negative; from that state each `Push` succeeds and raises `Len()`
by exactly one, a `Pop` that returns found lowers it by exactly one, and a `Pop` that returns
not found leaves it unchanged. -/
theorem len_accounting (ops : List (Op V)) (hops : ∀ op ∈ ops, op.isPushPop = true) :
    ∃ s rs, run defaults ops New = some (s, rs) ∧
      Len s = (pushCount ops : Int) - (popFoundCount ops rs : Int) ∧
      0 ≤ Len s ∧
      (∀ x, ∃ s', Push defaults x s = some s' ∧ Len s' = Len s + 1) ∧
      (∀ s' x, Pop s = some (s', x, true) → Len s' = Len s - 1) ∧
      (∀ s' x, Pop s = some (s', x, false) → Len s' = Len s) := by
  obtain ⟨s, hs, hr⟩ := run_rep defaults valid_defaults ops New [] (new_rep _)
  have hlen := len_rep _ _ _ hr
  refine ⟨s, _, hs, ?_, ?_, ?_, ?_, ?_⟩
  · rw [hlen, specRun_length ops [] hops]; simp
  · rw [hlen]; exact Int.natCast_nonneg _
  · intro x
    obtain ⟨s', hs', hr'⟩ := push_rep defaults valid_defaults x s _ hr
    refine ⟨s', hs', ?_⟩
    rw [len_rep _ _ _ hr', hlen]; simp
  · intro s' x hpop
    cases hxs : (specRun ops ([] : List (Option V))).1 with
    | nil =>
      rw [hxs] at hr
      rw [pop_rep_nil _ _ hr] at hpop
      simp at hpop
    | cons y ys =>
      rw [hxs] at hr hlen
      obtain ⟨s2, hs2, hr2⟩ := pop_rep_cons _ _ y ys hr
      rw [hs2] at hpop
      simp only [Option.some.injEq, Prod.mk.injEq] at hpop
      obtain ⟨rfl, -⟩ := hpop
      rw [len_rep _ _ _ hr2, hlen]; simp
  · intro s' x hpop
    cases hxs : (specRun ops ([] : List (Option V))).1 with
    | nil =>
      rw [hxs] at hr
      rw [pop_rep_nil _ _ hr] at hpop
      simp only [Option.some.injEq, Prod.mk.injEq] at hpop
      rw [← hpop.1]
    | cons y ys =>
      rw [hxs] at hr
      obtain ⟨s2, hs2, hr2⟩ := pop_rep_cons _ _ y ys hr
      rw [hs2] at hpop
      simp at hpop

theorem len_accounting_witness :
    (∀ op ∈ [Op.Push (some 7), Op.Pop, Op.Pop, Op.Push none, Op.Push (some 9)],
        op.isPushPop = true) ∧
      ∃ s rs, run defaults [Op.Push (some 7), Op.Pop, Op.Pop, Op.Push none, Op.Push (some 9)]
          (New : Mem Nat) = some (s, rs) ∧
        Len s = (pushCount [Op.Push (some 7), Op.Pop, Op.Pop, Op.Push none, Op.Push (some 9)] : Int)
          - (popFoundCount [Op.Push (some 7), Op.Pop, Op.Pop, Op.Push none, Op.Push (some 9)] rs
              : Int) ∧
        0 ≤ Len s ∧
        (∀ x, ∃ s', Push defaults x s = some s' ∧ Len s' = Len s + 1) ∧
        (∀ s' x, Pop s = some (s', x, true) → Len s' = Len s - 1) ∧
        (∀ s' x, Pop s = some (s', x, false) → Len s' = Len s) :=
  ⟨by decide, len_accounting _ (by decide)⟩

/-- C3. Round trip: for every list `xs` of values, nil entries included, pushing all of `xs`
in order onto a new queue and then calling `Pop` as many times as `xs` is long returns the
elements of `xs` in order, each with found; afterwards `Len()` is zero and one more `Pop`
returns nil and not found. -/
theorem push_pop_round_trip (xs : List (Option V)) :
    ∃ s, run defaults (xs.map Op.Push ++ List.replicate xs.length Op.Pop) New =
        some (s, List.replicate xs.length Ret.unit ++ xs.map (fun x => Ret.val x true)) ∧
      Len s = 0 ∧ Pop s = some (s, none, false) := by
  obtain ⟨s, hs, hr⟩ := run_rep defaults valid_defaults
    (xs.map Op.Push ++ List.replicate xs.length Op.Pop) New [] (new_rep _)
  have hspec : specRun (xs.map Op.Push ++ List.replicate xs.length (Op.Pop : Op V)) [] =
      ([], List.replicate xs.length Ret.unit ++ xs.map (fun x => Ret.val x true)) := by
    rw [specRun_append, specRun_pushes, List.nil_append, specRun_pops]
  rw [hspec] at hs hr
  exact ⟨s, hs, by simpa using len_rep _ _ _ hr, pop_rep_nil _ _ hr⟩

theorem specRun_pending (ops : List (Op V)) (xs : List (Option V)) :
    (specRun ops xs).1.length = pending ops xs.length := by
  induction ops generalizing xs with
  | nil => rfl
  | cons op ops ih =>
    cases op with
    | Init => simp [specRun, specStep, pending, ih]
    | Len => simp [specRun, specStep, pending, ih]
    | Front => cases xs <;> simp [specRun, specStep, pending, ih]
    | Push x => simp [specRun, specStep, pending, ih]
    | Pop => cases xs <;> simp [specRun, specStep, pending, ih]

/-- `Pop` returns what the list model returns. -/
theorem pop_rep (c : Consts) (s : Mem V) (xs : List (Option V)) (hr : Rep c s xs) :
    ∃ s', Pop s = some (s', xs.head?.getD none, !xs.isEmpty) ∧ Rep c s' xs.tail := by
  cases xs with
  | nil => exact ⟨s, pop_rep_nil c s hr, hr⟩
  | cons x xs => exact pop_rep_cons c s x xs hr

/-- C4. Front agrees with Pop and is read-only: in the state `s` that a sequence of calls on
a new queue ends in, `Front()` returns a pair of a value and a found flag and leaves the
memory (every field of the queue and every slot of every segment) unchanged; an immediately
following `Pop()` returns the same pair; the pair is the front of the list model (the oldest
value not yet popped) with found, or nil with not found when nothing is queued. -/
theorem front_agrees_with_pop (ops : List (Op V)) (s : Mem V) (rs : List (Ret V))
    (hrun : run defaults ops New = some (s, rs)) :
    ∃ x ok, Front s = some (s, x, ok) ∧ (∃ s', Pop s = some (s', x, ok)) ∧
      Ret.val x ok = (specStep Op.Front (specRun ops []).1).2 ∧
      (ok = false → x = none) ∧
      (∀ y, (∃ s', Front s = some (s', y, true)) ↔ ∃ s', Pop s = some (s', y, true)) := by
  have hr := (run_rep_eq defaults valid_defaults ops New s [] rs (new_rep _) hrun).2
  have hf := front_rep _ _ _ hr
  obtain ⟨s', hp, -⟩ := pop_rep _ _ _ hr
  refine ⟨_, _, hf, ⟨s', hp⟩, ?_, ?_, ?_⟩
  · cases (specRun ops ([] : List (Option V))).1 <;> rfl
  · cases (specRun ops ([] : List (Option V))).1 <;> simp
  · intro y
    rw [hf, hp]
    simp

theorem front_agrees_with_pop_witness :
    run defaults sampleOps New = some (sampleMem, sampleRets) ∧
      ∃ x ok, Front sampleMem = some (sampleMem, x, ok) ∧
        (∃ s', Pop sampleMem = some (s', x, ok)) ∧
        Ret.val x ok = (specStep Op.Front (specRun sampleOps []).1).2 ∧
        (ok = false → x = none) ∧
        (∀ y, (∃ s', Front sampleMem = some (s', y, true)) ↔
          ∃ s', Pop sampleMem = some (s', y, true)) :=
  ⟨by decide, front_agrees_with_pop sampleOps sampleMem sampleRets (by decide)⟩

/-- C5. Pop on an empty queue is atomic: in every state with `Len() == 0`, reachable or not,
`Pop()` returns nil and not found and the memory it leaves is the memory it was called
on. -/
theorem pop_empty_atomic (s : Mem V) (hlen : Len s = 0) : Pop s = some (s, none, false) := by
  unfold Len at hlen
  simp [Pop, hlen]

theorem pop_empty_atomic_witness :
    Len drainedMem = 0 ∧ Pop drainedMem = some (drainedMem, none, false) :=
  ⟨by decide, pop_empty_atomic drainedMem (by decide)⟩

/-- C6. Emptiness agreement: in the state `s` that a sequence of calls on a new queue ends
in, `Len() == 0`, `Front()` reporting not found and `Pop()` reporting not found are each
equivalent to the number of values pushed and not yet popped since the last `Init` being
zero. -/
theorem emptiness_agreement (ops : List (Op V)) (s : Mem V) (rs : List (Ret V))
    (hrun : run defaults ops New = some (s, rs)) :
    (Len s = 0 ↔ pending ops 0 = 0) ∧
      ((∃ s' x, Front s = some (s', x, false)) ↔ pending ops 0 = 0) ∧
      ((∃ s' x, Pop s = some (s', x, false)) ↔ pending ops 0 = 0) := by
  have hr := (run_rep_eq defaults valid_defaults ops New s [] rs (new_rep _) hrun).2
  have hf := front_rep _ _ _ hr
  obtain ⟨s', hp, -⟩ := pop_rep _ _ _ hr
  have hl := len_rep _ _ _ hr
  have hpend := specRun_pending ops ([] : List (Option V))
  rw [List.length_nil] at hpend
  rw [← hpend, hl, hf, hp]
  cases (specRun ops ([] : List (Option V))).1 with
  | nil => simp
  | cons y ys =>
    simp only [List.length_cons, List.isEmpty_cons, Bool.not_false]
    refine ⟨by omega, ?_, ?_⟩ <;> simp

theorem emptiness_agreement_witness :
    run defaults [Op.Push (some 7), Op.Pop] New =
        some (drainedMem, [Ret.unit, Ret.val (some 7) true]) ∧
      (Len drainedMem = 0 ↔ pending [Op.Push (some 7), Op.Pop] 0 = 0) ∧
      ((∃ s' x, Front drainedMem = some (s', x, false)) ↔
        pending [Op.Push (some 7), Op.Pop] 0 = 0) ∧
      ((∃ s' x, Pop drainedMem = some (s', x, false)) ↔
        pending [Op.Push (some 7), Op.Pop] 0 = 0) :=
  ⟨by decide, emptiness_agreement [Op.Push (some 7), Op.Pop] drainedMem
    [Ret.unit, Ret.val (some 7) true] (by decide)⟩

/-- C7. Init resets to empty from any state and is idempotent: `Init` applied to any memory
leaves the zero-value `Queue` in an untouched node heap, so that `Len()` is zero, `Front()`
and `Pop()` return nil and not found, and every later sequence of calls returns what it
returns on a new queue; `Init` applied twice is `Init` applied once; and the call returns
its receiver. -/
theorem init_resets (s : Mem V) :
    (Init s).d = ({} : Queue) ∧ (Init s).nodes = s.nodes ∧ Len (Init s) = 0 ∧
      Front (Init s) = some (Init s, none, false) ∧
      Pop (Init s) = some (Init s, none, false) ∧
      (∀ ops, ∃ s1 s2 rs, run defaults ops (Init s) = some (s1, rs) ∧
        run defaults ops New = some (s2, rs)) ∧
      Init (Init s) = Init s ∧ step defaults Op.Init s = some (Init s, Ret.recv) := by
  refine ⟨rfl, rfl, rfl, rfl, rfl, ?_, rfl, rfl⟩
  intro ops
  obtain ⟨s1, h1, -⟩ := run_rep defaults valid_defaults ops (Init s) [] (init_rep _ s)
  obtain ⟨s2, h2, -⟩ := run_rep defaults valid_defaults ops (New : Mem V) [] (new_rep _)
  exact ⟨s1, s2, _, h1, h2⟩

/-- C8. Zero-value readiness: the queue that `New()` returns is the zero-value `Queue`, and
every sequence of `Push`, `Pop`, `Front`, `Len` and `Init` calls returns, call by call, the
same results on it as on a zero-value `Queue` declared in any node heap. -/
theorem new_is_zero_value (nodes : List (node V)) (ops : List (Op V)) :
    (New : Mem V).d = ({} : Queue) ∧
      ∃ s1 s2 rs, run defaults ops New = some (s1, rs) ∧
        run defaults ops ({ nodes := nodes, d := {} } : Mem V) = some (s2, rs) := by
  refine ⟨rfl, ?_⟩
  obtain ⟨s1, h1, -⟩ := run_rep defaults valid_defaults ops (New : Mem V) [] (new_rep _)
  obtain ⟨s2, h2, -⟩ := run_rep defaults valid_defaults ops
    ({ nodes := nodes, d := {} } : Mem V) [] (Or.inl ⟨rfl, rfl⟩)
  exact ⟨s1, s2, _, h1, h2⟩

/-- The youngest queued value sits in slot `tp - 1` of the tail segment. -/
theorem live_getLast (sl : Nat → List (Option V)) (pre : List Nat) (t hp tp : Nat)
    (htp : 1 ≤ tp) (hle : tp ≤ (sl t).length) (hhp : pre = [] → hp < tp) :
    (live sl (pre ++ [t]) hp tp).getLast? = (sl t)[tp - 1]? := by
  induction pre generalizing hp with
  | nil =>
    have := hhp rfl
    rw [List.nil_append, live_single, List.getLast?_eq_getElem?, List.getElem?_drop,
      List.length_drop, List.length_take, Nat.min_eq_left hle,
      List.getElem?_take_of_lt (by omega)]
    congr 1
    omega
  | cons a l ih =>
    have h1 := ih 0 (fun _ => htp)
    have hlt : tp - 1 < (sl t).length := by omega
    rw [List.cons_append, live_cons sl a (by simp), List.getLast?_append, h1,
      List.getElem?_eq_getElem hlt]
    rfl

/-- After a push the tail cursor is at least one and inside the tail segment, and the slot
before it holds the youngest queued value. -/
theorem Ring.last_slot {c : Consts} {s : Mem V} {used spare : List Nat}
    {h t hp tp fst j : Nat} (R : Ring c s used spare h t hp tp fst j)
    (xs : List (Option V)) (x : Option V)
    (hl : live (slotsAt s.nodes) used hp tp = xs ++ [x]) :
    1 ≤ tp ∧ tp ≤ (slotsAt s.nodes t).length ∧ (slotsAt s.nodes t)[tp - 1]? = some x := by
  obtain ⟨pre, hpre⟩ := List.getLast?_eq_some_iff.1 R.used_last
  have hsingle : pre = [] → hp < tp := by
    intro e
    rw [hpre, e, List.nil_append, live_single] at hl
    have : 0 < (List.drop hp (List.take tp (slotsAt s.nodes t))).length := by rw [hl]; simp
    simp at this
    omega
  have htp : 1 ≤ tp := by
    by_cases e : h = t
    · have hu := R.single e
      rw [hpre] at hu
      have : pre = [] := by
        cases pre with
        | nil => rfl
        | cons a l => simp at hu
      have := hsingle this
      omega
    · exact R.tp_pos e
  refine ⟨htp, R.tp_le, ?_⟩
  rw [← live_getLast (slotsAt s.nodes) pre t hp tp htp R.tp_le hsingle, ← hpre, hl]
  simp

/-- C9. No operation can fault: in every state reachable from a new queue by `Init`, `Push`,
`Pop`, `Front` and `Len` calls, each of the five calls runs to completion (no nil pointer is
dereferenced and no slot array is indexed out of range); whenever `len > 0` the head pointer
refers to a node and `0 <= hp < len(head.v)`; and after each `Push` the tail pointer refers
to a node whose slot array contains the index `tp - 1` that was written, which holds the
pushed value. -/
theorem no_fault (s : Mem V) (hs : Reachable defaults s) :
    (∀ op, ∃ s' r, step defaults op s = some (s', r)) ∧
      (0 < s.d.len → ∃ nd, deref s.nodes s.d.head = some nd ∧ 0 ≤ s.d.hp ∧
        s.d.hp < (nd.v.length : Int)) ∧
      (∀ x s', Push defaults x s = some s' → ∃ nd, deref s'.nodes s'.d.tail = some nd ∧
        1 ≤ s'.d.tp ∧ s'.d.tp ≤ (nd.v.length : Int) ∧ index nd.v (s'.d.tp - 1) = some x) := by
  obtain ⟨xs, hr⟩ := hs.rep valid_defaults
  refine ⟨?_, ?_, ?_⟩
  · intro op
    obtain ⟨s', hs', -⟩ := step_rep defaults valid_defaults op s xs hr
    exact ⟨s', _, hs'⟩
  · intro hlen
    rcases hr with ⟨hd, -⟩ | ⟨used, spare, h, t, hp, tp, fst, j, R, -⟩
    · rw [hd] at hlen; exact absurd hlen (by decide)
    · obtain ⟨nd, hnd, hndv, -⟩ := deref_spec s.nodes h R.h_lt
      refine ⟨nd, by rw [R.head_eq]; exact hnd, ?_, ?_⟩
      · rw [R.hp_eq]; exact Int.natCast_nonneg _
      · rw [R.hp_eq, hndv]; exact_mod_cast R.hp_lt
  · intro x s' hpush
    obtain ⟨s2, hs2, hr2⟩ := push_rep defaults valid_defaults x s xs hr
    rw [hs2] at hpush
    simp only [Option.some.injEq] at hpush
    subst hpush
    rcases hr2 with ⟨-, hd⟩ | ⟨used, spare, h, t, hp, tp, fst, j, R, hl⟩
    · simp at hd
    · obtain ⟨h1, h2, h3⟩ := R.last_slot xs x hl.symm
      obtain ⟨nd, hnd, hndv, -⟩ := deref_spec s2.nodes t R.t_lt
      refine ⟨nd, by rw [R.tail_eq]; exact hnd, ?_, ?_, ?_⟩
      · rw [R.tp_eq]; exact_mod_cast h1
      · rw [R.tp_eq, hndv]; exact_mod_cast h2
      · rw [R.tp_eq, hndv]
        have : ((tp : Int) - 1) = ((tp - 1 : Nat) : Int) := by omega
        rw [this]
        simp only [index, Int.natCast_nonneg, if_true, Int.toNat_ofNat]
        exact h3

theorem no_fault_witness :
    Reachable defaults sampleMem ∧
      (∀ op, ∃ s' r, step defaults op sampleMem = some (s', r)) ∧
      (0 < sampleMem.d.len → ∃ nd, deref sampleMem.nodes sampleMem.d.head = some nd ∧
        0 ≤ sampleMem.d.hp ∧ sampleMem.d.hp < (nd.v.length : Int)) ∧
      (∀ x s', Push defaults x sampleMem = some s' →
        ∃ nd, deref s'.nodes s'.d.tail = some nd ∧ 1 ≤ s'.d.tp ∧
          s'.d.tp ≤ (nd.v.length : Int) ∧ index nd.v (s'.d.tp - 1) = some x) :=
  ⟨⟨sampleOps, sampleRets, by decide⟩, no_fault sampleMem ⟨sampleOps, sampleRets, by decide⟩⟩

theorem follow_add (nodes : List (node V)) (k1 k2 a b z : Nat)
    (h1 : follow nodes k1 a = some b) (h2 : follow nodes k2 b = some z) :
    follow nodes (k1 + k2) a = some z := by
  induction k1 generalizing a with
  | zero =>
    simp only [follow, Option.some.injEq] at h1
    subst h1
    simpa using h2
  | succ k ih =>
    rw [Nat.add_right_comm]
    simp only [follow] at h1 ⊢
    cases hn : nextAt nodes a with
    | none => rw [hn] at h1; simp at h1
    | some a' =>
      rw [hn] at h1
      exact ih a' h1

/-- Along a chain, the link leads from the first address to the target of the last. -/
theorem linked_follow (nodes : List (node V)) (a : Nat) (l : List Nat) (z : Nat)
    (hl : linked (nextAt nodes) (a :: l) z) : follow nodes (l.length + 1) a = some z := by
  induction l generalizing a with
  | nil =>
    simp only [linked, List.headD_nil] at hl
    simp [follow, hl.1]
  | cons b l ih =>
    have h1 := ih b hl.2
    have h2 : nextAt nodes a = some b := by simpa using hl.1
    rw [List.length_cons]
    simp only [follow, h2] at h1 ⊢
    exact h1

/-- A chain that ends in a member of itself is closed under the link. -/
theorem linked_closed (nodes : List (node V)) (l : List Nat) (z : Nat)
    (hl : linked (nextAt nodes) l z) (hz : z ∈ l) (k a b : Nat) (ha : a ∈ l)
    (hf : follow nodes k a = some b) : b ∈ l := by
  induction k generalizing a with
  | zero =>
    simp only [follow, Option.some.injEq] at hf
    exact hf ▸ ha
  | succ k ih =>
    obtain ⟨a', hn, hm⟩ := linked_mem hl ha
    simp only [follow, hn] at hf
    exact ih a' (hm.elim id (fun e => e ▸ hz)) hf

/-- In a ring every segment leads to the head and the head leads to every segment. -/
theorem ring_cycle (nodes : List (node V)) (h : Nat) (l : List Nat)
    (hl : linked (nextAt nodes) (h :: l) h) (a : Nat) (ha : a ∈ h :: l) :
    (∃ k, 0 < k ∧ follow nodes k a = some h) ∧ (∃ k, follow nodes k h = some a) := by
  obtain ⟨l1, l2, hsplit⟩ := List.append_of_mem ha
  constructor
  · rw [hsplit, linked_append] at hl
    exact ⟨l2.length + 1, Nat.succ_pos _, linked_follow nodes a l2 h hl.2⟩
  · cases l1 with
    | nil =>
      simp only [List.nil_append, List.cons.injEq] at hsplit
      exact ⟨0, by rw [hsplit.1]; rfl⟩
    | cons b l1 =>
      simp only [List.cons_append, List.cons.injEq] at hsplit
      obtain ⟨rfl, rfl⟩ := hsplit
      rw [← List.cons_append, linked_append] at hl
      exact ⟨l1.length + 1, linked_follow nodes h l1 a (by simpa using hl.1)⟩

/-- C10. Ring invariant: in every state reachable from a new queue in which head is non-nil,
tail is non-nil and is reached from head by following the link `n`; every segment reached
from head returns to itself after a positive number of links and leads back to head, so head,
tail and all segments lie on one cycle; and when head is the only segment reached from head,
it is linked to itself. -/
theorem ring_invariant (s : Mem V) (hs : Reachable defaults s) (h : Nat)
    (hh : s.d.head = some h) :
    (∃ t, s.d.tail = some t ∧ ∃ k, follow s.nodes k h = some t) ∧
      (∀ a, (∃ k, follow s.nodes k h = some a) →
        (∃ k, 0 < k ∧ follow s.nodes k a = some a) ∧ ∃ k, follow s.nodes k a = some h) ∧
      ((∀ a, (∃ k, follow s.nodes k h = some a) → a = h) → nextAt s.nodes h = some h) := by
  obtain ⟨xs, hr⟩ := hs.rep valid_defaults
  rcases hr with ⟨hd, -⟩ | ⟨used, spare, h', t, hp, tp, fst, j, R, -⟩
  · rw [hd] at hh; simp at hh
  · have e : h' = h := by
      have := R.head_eq
      rw [hh] at this
      exact (Option.some.inj this).symm
    subst e
    obtain ⟨rest, hrest⟩ := List.head?_eq_some_iff.1 R.used_head
    have hcyc := R.cyc
    rw [hrest, List.cons_append] at hcyc
    have hmem : ∀ a, (∃ k, follow s.nodes k h' = some a) → a ∈ h' :: (rest ++ spare) :=
      fun a ⟨k, hk⟩ =>
        linked_closed s.nodes _ h' hcyc (List.mem_cons_self _ _) k h' a
          (List.mem_cons_self _ _) hk
    refine ⟨⟨t, R.tail_eq, ?_⟩, ?_, ?_⟩
    · refine (ring_cycle s.nodes h' _ hcyc t ?_).2
      have := R.t_mem
      rw [hrest] at this
      simp only [List.mem_cons, List.mem_append] at this ⊢
      tauto
    · intro a ha
      obtain ⟨⟨k1, hk1, hf1⟩, ⟨k2, hf2⟩⟩ := ring_cycle s.nodes h' _ hcyc a (hmem a ha)
      exact ⟨⟨k1 + k2, by omega, follow_add s.nodes k1 k2 a h' a hf1 hf2⟩, ⟨k1, hf1⟩⟩
    · intro hone
      obtain ⟨b, hb, -⟩ := linked_mem hcyc (List.mem_cons_self _ _)
      have : b = h' := hone b ⟨1, by simp [follow, hb]⟩
      rw [hb, this]

theorem ring_invariant_witness :
    Reachable defaults sampleMem ∧ sampleMem.d.head = some 0 ∧
      (∃ t, sampleMem.d.tail = some t ∧ ∃ k, follow sampleMem.nodes k 0 = some t) ∧
      (∀ a, (∃ k, follow sampleMem.nodes k 0 = some a) →
        (∃ k, 0 < k ∧ follow sampleMem.nodes k a = some a) ∧
          ∃ k, follow sampleMem.nodes k a = some 0) ∧
      ((∀ a, (∃ k, follow sampleMem.nodes k 0 = some a) → a = 0) →
        nextAt sampleMem.nodes 0 = some 0) :=
  ⟨⟨sampleOps, sampleRets, by decide⟩, by decide,
    ring_invariant sampleMem ⟨sampleOps, sampleRets, by decide⟩ 0 (by decide)⟩

/-- Following a chain collects exactly the chain when `stop` first holds at its end. -/
theorem walk_linked (nodes : List (node V)) (stop : Nat → Bool) (l : List Nat) (a z : Nat)
    (fuel : Nat) (hl : linked (nextAt nodes) (a :: l) z)
    (hstop : ∀ b ∈ (a :: l).dropLast, stop b = false)
    (hlast : ∀ b, (a :: l).getLast? = some b → stop b = true) (hfuel : l.length < fuel) :
    walk nodes stop fuel a = a :: l := by
  induction l generalizing a fuel with
  | nil =>
    obtain ⟨k, rfl⟩ : ∃ k, fuel = k + 1 := ⟨fuel - 1, by omega⟩
    simp [walk, hlast a rfl]
  | cons b l ih =>
    obtain ⟨k, rfl⟩ : ∃ k, fuel = k + 1 := ⟨fuel - 1, by simp at hfuel; omega⟩
    have h1 : stop a = false := hstop a (by simp)
    have h2 : nextAt nodes a = some b := by simpa using hl.1
    have h3 := ih b k hl.2 (fun e he => hstop e (by simp [List.dropLast_cons_of_ne_nil, he]))
      (fun e he => hlast e (by rwa [List.getLast?_cons_cons])) (by simp at hfuel; omega)
    simp [walk, h1, h2, h3]

theorem nodup_length_le (l : List Nat) (n : Nat) (hn : l.Nodup) (hlt : ∀ a ∈ l, a < n) :
    l.length ≤ n := by
  have h := (List.subperm_of_subset hn (fun a ha => List.mem_range.2 (hlt a ha))).length_le
  simpa using h

theorem linked_next_mem {nx : Nat → Option Nat} {l : List Nat} {z b : Nat}
    (hl : linked nx l z) (hb : b ∈ l.dropLast) : ∃ e, nx b = some e ∧ e ∈ l.tail := by
  induction l with
  | nil => simp at hb
  | cons a l ih =>
    cases l with
    | nil => simp at hb
    | cons a' l' =>
      rw [List.dropLast_cons_of_ne_nil (List.cons_ne_nil _ _)] at hb
      rcases List.mem_cons.1 hb with rfl | hb
      · exact ⟨a', by simpa using hl.1, by simp⟩
      · obtain ⟨e, he, hm⟩ := ih hl.2 hb
        exact ⟨e, he, List.mem_cons_of_mem _ hm⟩

theorem linked_last {nx : Nat → Option Nat} {l : List Nat} {z b : Nat}
    (hl : linked nx l z) (hb : l.getLast? = some b) : nx b = some z := by
  induction l with
  | nil => simp at hb
  | cons a l ih =>
    cases l with
    | nil =>
      simp only [List.getLast?_singleton, Option.some.injEq] at hb
      subst hb
      simpa using hl.1
    | cons a' l' =>
      rw [List.getLast?_cons_cons] at hb
      exact ih hl.2 hb

section ringFacts

variable {c : Consts} {s : Mem V} {used spare : List Nat} {h t hp tp fst j : Nat}

theorem Ring.length_le (R : Ring c s used spare h t hp tp fst j) :
    (used ++ spare).length ≤ s.nodes.length :=
  nodup_length_le _ _ R.nodup R.inHeap

/-- The ring read off the memory is the ghost ring. -/
theorem Ring.segments_eq (R : Ring c s used spare h t hp tp fst j) :
    segments s = used ++ spare := by
  obtain ⟨rest, hrest⟩ := List.head?_eq_some_iff.1 R.used_head
  have hcyc := R.cyc
  have hnd := R.nodup
  have hlen := R.length_le
  rw [hrest, List.cons_append] at hcyc hnd hlen ⊢
  have hnh : h ∉ rest ++ spare := (List.nodup_cons.1 hnd).1
  simp only [segments, R.head_eq]
  refine walk_linked s.nodes _ (rest ++ spare) h h _ hcyc ?_ ?_ (by simpa using hlen)
  · intro b hb
    obtain ⟨e, he, hm⟩ := linked_next_mem hcyc hb
    simp only [List.tail_cons] at hm
    simp only [he, Option.some.injEq, decide_eq_false_iff_not]
    rintro rfl
    exact hnh hm
  · intro b hb
    simp [linked_last hcyc hb]

/-- The segments in use read off the memory are the ghost list `used`. -/
theorem Ring.usedSegments_eq (R : Ring c s used spare h t hp tp fst j) :
    usedSegments s = used := by
  obtain ⟨rest, hrest⟩ := List.head?_eq_some_iff.1 R.used_head
  have hcyc := R.cyc
  rw [linked_append] at hcyc
  have hlen : used.length ≤ s.nodes.length := by
    have := R.length_le
    simp only [List.length_append] at this
    omega
  have hnd := R.nodup_used
  have hlast := R.used_last
  rw [hrest] at hcyc hlen hnd hlast ⊢
  simp only [usedSegments, R.head_eq, R.tail_eq]
  refine walk_linked s.nodes _ rest h _ _ hcyc.1 ?_ ?_ (by simpa using hlen)
  · intro b hb
    simp only [decide_eq_false_iff_not]
    rintro rfl
    obtain ⟨pre, hpre⟩ := List.getLast?_eq_some_iff.1 hlast
    rw [hpre] at hb hnd
    simp only [List.dropLast_concat] at hb
    exact (List.nodup_append.1 hnd).2.2 hb (by simp) 
  · intro b hb
    rw [hlast] at hb
    simpa using hb.symm

end ringFacts

/-- The queued values are the values held segment by segment. -/
theorem live_eq_flatMap (sl : Nat → List (Option V)) (lo hi : Nat → Nat) (l : List Nat)
    (t hp tp : Nat) (hl : l.getLast? = some t) (hn : l.Nodup)
    (hlo0 : ∀ a, l.head? = some a → lo a = hp) (hlo : ∀ a ∈ l.tail, lo a = 0)
    (hhit : hi t = tp) (hhi : ∀ a ∈ l, a ≠ t → hi a = (sl a).length) :
    live sl l hp tp = l.flatMap (fun a => ((sl a).take (hi a)).drop (lo a)) := by
  induction l generalizing hp with
  | nil => simp at hl
  | cons a l ih =>
    cases l with
    | nil =>
      simp only [List.getLast?_singleton, Option.some.injEq] at hl
      subst hl
      simp [live_single, hlo0 a rfl, hhit]
    | cons b l =>
      rw [List.getLast?_cons_cons] at hl
      have hat : a ≠ t := by
        rintro rfl
        exact (List.nodup_cons.1 hn).1 (List.mem_of_getLast?_eq_some hl)
      have h1 := ih 0 hl (List.nodup_cons.1 hn).2
        (fun e he => hlo e (by simp only [List.head?_cons, Option.some.injEq] at he; simp [he]))
        (fun e he => hlo e (by simp only [List.tail_cons] at he ⊢; exact List.mem_cons_of_mem _ he))
        (fun e he => hhi e (List.mem_cons_of_mem _ he))
      rw [live_cons sl a (List.cons_ne_nil _ _), h1]
      simp only [List.flatMap_cons, hlo0 a rfl, hhi a (List.mem_cons_self _ _) hat,
        List.take_length]

section ringFacts

variable {c : Consts} {s : Mem V} {used spare : List Nat} {h t hp tp fst j : Nat}

theorem Ring.liveRange_used (R : Ring c s used spare h t hp tp fst j) (a : Nat)
    (ha : a ∈ used) :
    liveRange s a =
      (if a = h then hp else 0, if a = t then tp else (slotsAt s.nodes a).length) := by
  simp only [liveRange, R.usedSegments_eq, ha, if_true, R.head_eq, R.tail_eq, R.hp_eq,
    R.tp_eq, Int.toNat_ofNat, Option.some.injEq]
  congr 1
  · by_cases e : a = h
    · simp [e]
    · simp [e, Ne.symm e]
  · by_cases e : a = t
    · simp [e]
    · simp [e, Ne.symm e]

theorem Ring.liveRange_spare (R : Ring c s used spare h t hp tp fst j) (a : Nat)
    (ha : a ∉ used) : liveRange s a = (0, 0) := by
  simp [liveRange, R.usedSegments_eq, ha]

/-- The queued values read off the memory are the ghost list of live values. -/
theorem Ring.queued_eq (R : Ring c s used spare h t hp tp fst j) :
    queued s = live (slotsAt s.nodes) used hp tp := by
  obtain ⟨rest, hrest⟩ := List.head?_eq_some_iff.1 R.used_head
  have hnd := R.nodup_used
  rw [live_eq_flatMap (slotsAt s.nodes) (fun a => (liveRange s a).1)
    (fun a => (liveRange s a).2) used t hp tp R.used_last hnd]
  · simp only [queued, R.usedSegments_eq]
    rfl
  · intro a ha
    rw [R.used_head] at ha
    simp only [Option.some.injEq] at ha
    subst ha
    simp [R.liveRange_used _ R.h_mem]
  · intro a ha
    have hmem : a ∈ used := List.mem_of_mem_tail ha
    rw [hrest] at ha hnd
    have : a ≠ h := fun e => (List.nodup_cons.1 hnd).1 (e ▸ ha)
    simp [R.liveRange_used a hmem, this]
  · simp [R.liveRange_used _ R.t_mem]
  · intro a ha hat
    simp [R.liveRange_used a ha, hat]

/-- Which case of its `switch` `Push` takes, in terms of the ghost state. -/
theorem Ring.pushCase_eq (R : Ring c s used spare h t hp tp fst j) :
    pushCase c s = some
      (if tp < (slotsAt s.nodes t).length then PushCase.room
       else if tp < c.maxFirstSliceSize.toNat then PushCase.grow
       else if spare = [] then PushCase.alloc else PushCase.spare) := by
  obtain ⟨nd, hnd, hndv, hndn⟩ := deref_spec s.nodes t R.t_lt
  have hnext := R.next_tail
  simp only [pushCase, R.head_eq, R.tail_eq, hnd, hndv, hndn, R.tp_eq, hnext, Nat.cast_lt]
  by_cases h1 : tp < (slotsAt s.nodes t).length
  · simp [h1]
  · by_cases h2 : tp < c.maxFirstSliceSize.toNat
    · have h2' : (tp : Int) < c.maxFirstSliceSize := by omega
      simp [h1, h2, h2']
    · have h2' : ¬ (tp : Int) < c.maxFirstSliceSize := by omega
      cases spare with
      | nil => simp [h1, h2, h2']
      | cons n sp =>
        have : n ≠ h := (R.ne_of_spare R.h_mem (List.mem_cons_self _ _)).symm
        simp [h1, h2, h2', this]

/-- Which path `Pop` takes, in terms of the ghost state. -/
theorem Ring.popCase_eq (R : Ring c s used spare h t hp tp fst j) :
    popCase s =
      (if s.d.len = 0 then PopCase.empty
       else if hp + 1 < (slotsAt s.nodes h).length then PopCase.advance
       else if h = t then PopCase.drain else PopCase.rotate) := by
  have hadv : s.d.hp < s.d.hlp ↔ hp + 1 < (slotsAt s.nodes h).length := by
    rw [R.hp_eq, R.hlp_eq]
    omega
  simp only [popCase, hadv, R.head_eq, R.tail_eq, Option.some.injEq]

end ringFacts

section frames

variable {c : Consts} {s : Mem V} {used spare : List Nat} {h t hp tp fst j : Nat}

/-- What the first branch of `Push` writes. -/
theorem push_first_frame (hc : Valid c) (x : Option V) (hd : s.d = {}) :
    ∃ s', Push c x s = some s' ∧ s'.nodes.length = s.nodes.length + 1 ∧
      slotsAt s'.nodes =
        Function.update (slotsAt s.nodes) s.nodes.length ((List.replicate c.firstSliceSize.toNat none).set 0 x) ∧
      nextAt s'.nodes = Function.update (nextAt s.nodes) s.nodes.length (some s.nodes.length) ∧
      s'.d = ⟨some s.nodes.length, some s.nodes.length, 0, c.firstSliceSize - 1, 1, 1⟩ := by
  obtain ⟨nodes, d⟩ := s
  simp only at hd
  subst hd
  obtain ⟨m2, hm2, hlen2, hsl2, hnx2⟩ :=
    setN_spec (nodes ++ [{ v := List.replicate c.firstSliceSize.toNat none, n := none }]) nodes.length
      (some nodes.length) (by simp)
  have hsl2' : slotsAt m2 nodes.length = List.replicate c.firstSliceSize.toNat none := by
    rw [hsl2, slotsAt_append]; simp
  have hfirst : 1 ≤ c.firstSliceSize.toNat := by have := hc.first_pos; omega
  have hmk : (make c.firstSliceSize : Option (List (Option V))) =
      some (List.replicate c.firstSliceSize.toNat none) :=
    make_nonneg _ (by have := hc.first_pos; omega)
  obtain ⟨m3, hm3, hlen3, hsl3, hnx3⟩ :=
    storeV_zero m2 nodes.length x (by rw [hlen2]; simp) (by rw [hsl2']; simpa using hfirst)
  refine ⟨⟨m3, ⟨some nodes.length, some nodes.length, 0, c.firstSliceSize - 1, 1, 1⟩⟩,
    ?_, ?_, ?_, ?_, rfl⟩
  · simp only [Push, pushSwitch, hmk, hm2, hm3, bind, Option.bind, pure]
    rfl
  · simp [hlen3, hlen2]
  · rw [hsl3, hsl2', hsl2, slotsAt_append]
    simp
  · rw [hnx3, hnx2, nextAt_append]
    simp

/-- What the second branch of `Push` writes. -/
theorem push_room_frame (R : Ring c s used spare h t hp tp fst j) (x : Option V)
    (hroom : tp < (slotsAt s.nodes t).length) :
    ∃ s', Push c x s = some s' ∧ s'.nodes.length = s.nodes.length ∧
      slotsAt s'.nodes = Function.update (slotsAt s.nodes) t ((slotsAt s.nodes t).set tp x) ∧
      nextAt s'.nodes = nextAt s.nodes ∧
      s'.d = { s.d with tp := s.d.tp + 1, len := s.d.len + 1 } := by
  obtain ⟨nodes, d⟩ := s
  obtain ⟨nd, hnd, hndv, hndn⟩ := deref_spec nodes t R.t_lt
  obtain ⟨m1, hm1, hlen1, hsl1, hnx1⟩ := storeV_spec nodes t tp x R.t_lt hroom
  have hhead := R.head_eq
  have htail := R.tail_eq
  have htp := R.tp_eq
  simp only at hhead htail htp hroom
  refine ⟨⟨m1, { d with tp := d.tp + 1, len := d.len + 1 }⟩, ?_, hlen1, hsl1, hnx1, rfl⟩
  have hlt : d.tp < (nd.v.length : Int) := by rw [hndv, htp]; exact_mod_cast hroom
  simp only [Push, pushSwitch, hhead, htail, hnd, hlt, if_true, bind, Option.bind, pure]
  rw [htp, hm1]

/-- What the third branch of `Push` writes. -/
theorem push_grow_frame (hc : Valid c) (R : Ring c s used spare h t hp tp fst j)
    (x : Option V) (hfull : tp = (slotsAt s.nodes t).length)
    (hlow : tp < c.maxFirstSliceSize.toNat) :
    ∃ s', Push c x s = some s' ∧ s'.nodes.length = s.nodes.length ∧
      slotsAt s'.nodes = Function.update (slotsAt s.nodes) t
        ((slotsAt s.nodes t ++ List.replicate
          ((slotsAt s.nodes t).length * c.sliceGrowthFactor.toNat - (slotsAt s.nodes t).length)
            none).set tp x) ∧
      nextAt s'.nodes = nextAt s.nodes ∧
      (slotsAt s.nodes t).length < (slotsAt s.nodes t).length * c.sliceGrowthFactor.toNat ∧
      s'.d = { s.d with tp := s.d.tp + 1,
                        hlp := (((slotsAt s.nodes t).length * c.sliceGrowthFactor.toNat : Nat) : Int) - 1,
                        len := s.d.len + 1 } := by
  obtain ⟨nodes, d⟩ := s
  simp only at hfull
  have hfst : t = fst := by
    by_contra e
    have := R.cap_rest t (List.mem_append_left _ R.t_mem) e
    have := hc.ceiling_le
    simp only at *
    omega
  subst hfst
  have hpos : 1 ≤ (slotsAt nodes t).length := R.cap_pos t (List.mem_append_left _ R.t_mem)
  have hcap := R.cap_fst
  simp only at hcap
  have hfirst : c.firstSliceSize.toNat ≤ (slotsAt nodes t).length := Valid.first_le_cap j _ hcap hpos
  have hfac : 2 ≤ c.sliceGrowthFactor.toNat := by have := hc.growth (by omega); omega
  have hmk : (make (((slotsAt nodes t).length : Int) * c.sliceGrowthFactor) :
      Option (List (Option V))) =
      some (List.replicate ((slotsAt nodes t).length * c.sliceGrowthFactor.toNat) none) :=
    make_mul _ _ (by omega)
  have hmul : (slotsAt nodes t).length <
      (slotsAt nodes t).length * c.sliceGrowthFactor.toNat := by
    calc (slotsAt nodes t).length < (slotsAt nodes t).length * 2 := by omega
      _ ≤ (slotsAt nodes t).length * c.sliceGrowthFactor.toNat := Nat.mul_le_mul_left _ hfac
  obtain ⟨nd, hnd, hndv, hndn⟩ := deref_spec nodes t R.t_lt
  have hcopy : copy (List.replicate ((slotsAt nodes t).length * c.sliceGrowthFactor.toNat) none) (slotsAt nodes t) =
      slotsAt nodes t ++
        List.replicate ((slotsAt nodes t).length * c.sliceGrowthFactor.toNat - (slotsAt nodes t).length)
          none := copy_make _ _ (Nat.le_of_lt hmul)
  generalize hnv : copy (List.replicate ((slotsAt nodes t).length * c.sliceGrowthFactor.toNat) none)
    (slotsAt nodes t) = nv at hcopy
  have hnvlen : nv.length = (slotsAt nodes t).length * c.sliceGrowthFactor.toNat := by
    rw [hcopy]; simp; omega
  obtain ⟨m1, hm1, hlen1, hsl1, hnx1⟩ := setV_spec nodes t nv R.t_lt
  have hsl1' : slotsAt m1 t = nv := by rw [hsl1]; simp
  obtain ⟨m2, hm2, hlen2, hsl2, hnx2⟩ :=
    storeV_spec m1 t tp x (by rw [hlen1]; exact R.t_lt) (by rw [hsl1', hnvlen]; omega)
  have hhead := R.head_eq
  have htail := R.tail_eq
  have htp := R.tp_eq
  simp only at hhead htail htp
  refine ⟨⟨m2, { d with tp := d.tp + 1, hlp := (nv.length : Int) - 1, len := d.len + 1 }⟩,
    ?_, by rw [hlen2, hlen1], ?_, by rw [hnx2, hnx1], hmul, by rw [hnvlen]⟩
  · have hlt : ¬ d.tp < ((slotsAt nodes t).length : Int) := by rw [htp, hfull]; simp
    have hlt2 : d.tp < c.maxFirstSliceSize := by rw [htp]; omega
    simp only [Push, pushSwitch, hhead, htail, hnd, hlt, hlt2, if_true, if_false, bind,
      Option.bind, pure, hndv, hmk, hnv, hm1]
    rw [htp, hm2]
  · rw [hsl2, hsl1', hsl1, ← hcopy]
    simp

/-- What the fourth branch of `Push` writes. -/
theorem push_spare_frame {n : Nat} (R : Ring c s used (n :: spare) h t hp tp fst j)
    (x : Option V) (hfull : tp = (slotsAt s.nodes t).length)
    (hhigh : c.maxFirstSliceSize.toNat ≤ tp) :
    ∃ s', Push c x s = some s' ∧ s'.nodes.length = s.nodes.length ∧
      slotsAt s'.nodes = Function.update (slotsAt s.nodes) n ((slotsAt s.nodes n).set 0 x) ∧
      nextAt s'.nodes = nextAt s.nodes ∧
      s'.d = { s.d with tail := some n, tp := 1, len := s.d.len + 1 } := by
  obtain ⟨nodes, d⟩ := s
  simp only at hfull
  have hnmem : n ∈ used ++ n :: spare := by simp
  have hnlt : n < nodes.length := R.inHeap n hnmem
  have hnpos : 1 ≤ (slotsAt nodes n).length := R.cap_pos n hnmem
  have hnh : h ≠ n := R.ne_of_spare R.h_mem (List.mem_cons_self _ _)
  have hnext : nextAt nodes t = some n := by simpa using R.next_tail
  obtain ⟨nd, hnd, hndv, hndn⟩ := deref_spec nodes t R.t_lt
  obtain ⟨m1, hm1, hlen1, hsl1, hnx1⟩ := storeV_zero nodes n x hnlt hnpos
  have hhead := R.head_eq
  have htail := R.tail_eq
  have htp := R.tp_eq
  simp only at hhead htail htp
  refine ⟨⟨m1, { d with tail := some n, tp := 1, len := d.len + 1 }⟩, ?_, hlen1, hsl1, hnx1,
    rfl⟩
  have hlt : ¬ d.tp < ((slotsAt nodes t).length : Int) := by rw [htp, hfull]; simp
  have hlt2 : ¬ d.tp < c.maxFirstSliceSize := by rw [htp]; omega
  have hne' : ¬ (some n = some h) := by simpa using hnh.symm
  simp only [Push, pushSwitch, hhead, htail, hnd, hndv, hndn, hnext, hlt, hlt2, if_true,
    if_false, bind, Option.bind, pure, hm1, ne_eq, hne', not_false_eq_true]

/-- What the fifth branch of `Push` writes. -/
theorem push_alloc_frame (hc : Valid c) (R : Ring c s used [] h t hp tp fst j)
    (x : Option V) (hfull : tp = (slotsAt s.nodes t).length)
    (hhigh : c.maxFirstSliceSize.toNat ≤ tp) :
    ∃ s', Push c x s = some s' ∧ s'.nodes.length = s.nodes.length + 1 ∧
      slotsAt s'.nodes = Function.update (slotsAt s.nodes) s.nodes.length
        ((List.replicate c.maxInternalSliceSize.toNat none).set 0 x) ∧
      nextAt s'.nodes = Function.update
        (Function.update (nextAt s.nodes) s.nodes.length (some h)) t (some s.nodes.length) ∧
      s'.d = { s.d with tail := some s.nodes.length, tp := 1, len := s.d.len + 1 } := by
  obtain ⟨nodes, d⟩ := s
  simp only at hfull ⊢
  have hnext : nextAt nodes t = some h := by simpa using R.next_tail
  have hstd : 1 ≤ c.maxInternalSliceSize.toNat := by have := hc.internal_pos; omega
  have hmk : (make c.maxInternalSliceSize : Option (List (Option V))) =
      some (List.replicate c.maxInternalSliceSize.toNat none) :=
    make_nonneg _ (by have := hc.internal_pos; omega)
  obtain ⟨nd, hnd, hndv, hndn⟩ := deref_spec nodes t R.t_lt
  obtain ⟨m2, hm2, hlen2, hsl2, hnx2⟩ :=
    setN_spec (nodes ++ [{ v := List.replicate c.maxInternalSliceSize.toNat none, n := none }]) nodes.length
      (some h) (by simp)
  rw [slotsAt_append] at hsl2
  rw [nextAt_append] at hnx2
  simp only [List.length_append, List.length_singleton] at hlen2
  obtain ⟨m3, hm3, hlen3, hsl3, hnx3⟩ :=
    setN_spec m2 t (some nodes.length) (by have := R.t_lt; simp only at this; omega)
  have hsl3' : slotsAt m3 nodes.length = List.replicate c.maxInternalSliceSize.toNat none := by
    rw [hsl3, hsl2]; simp
  obtain ⟨m4, hm4, hlen4, hsl4, hnx4⟩ :=
    storeV_zero m3 nodes.length x (by omega) (by rw [hsl3']; simpa using hstd)
  have hhead := R.head_eq
  have htail := R.tail_eq
  have htp := R.tp_eq
  simp only at hhead htail htp
  have hlen4' : m4.length = nodes.length + 1 := by omega
  refine ⟨⟨m4, { d with tail := some nodes.length, tp := 1, len := d.len + 1 }⟩, ?_,
    hlen4', ?_, ?_, rfl⟩
  · have hlt : ¬ d.tp < ((slotsAt nodes t).length : Int) := by rw [htp, hfull]; simp
    have hlt2 : ¬ d.tp < c.maxFirstSliceSize := by rw [htp]; omega
    simp only [Push, pushSwitch, hhead, htail, hnd, hndv, hndn, hnext, hlt, hlt2, if_true,
      if_false, bind, Option.bind, pure, hmk, hm2, hm3, hm4, ne_eq, not_true_eq_false]
  · rw [hsl4, hsl3', hsl3, hsl2]
    simp
  · rw [hnx4, hnx3, hnx2]
    simp

end frames

theorem length_update_set (sl : Nat → List (Option V)) (a b i : Nat) (x : Option V) :
    (Function.update sl a ((sl a).set i x) b).length = (sl b).length := by
  by_cases e : b = a
  · subst e; simp
  · rw [Function.update_noteq e]

section frames

variable {c : Consts} {s : Mem V} {used spare : List Nat} {h t hp tp fst j : Nat}

/-- What a `Pop` that finds a value writes: it clears slot `hp` of the head segment, takes
one off `len`, and moves `hp`, or `tp`, or head together with `hp` and `hlp`. -/
theorem pop_frame (R : Ring c s used spare h t hp tp fst j) (x : Option V)
    (xs : List (Option V)) (hl : live (slotsAt s.nodes) used hp tp = x :: xs) :
    ∃ s' used' spare' h' hp' tp', Pop s = some (s', x, true) ∧
      Ring c s' used' spare' h' t hp' tp' fst j ∧
      live (slotsAt s'.nodes) used' hp' tp' = xs ∧
      (used' ++ spare').Perm (used ++ spare) ∧
      (used' ++ spare' = used ++ spare ∨
        ∃ rest, used ++ spare = h :: rest ∧ used' ++ spare' = rest ++ [h]) ∧
      s'.nodes.length = s.nodes.length ∧
      slotsAt s'.nodes = Function.update (slotsAt s.nodes) h ((slotsAt s.nodes h).set hp none) ∧
      nextAt s'.nodes = nextAt s.nodes ∧ s'.d.tail = s.d.tail ∧ s'.d.len = s.d.len - 1 ∧
      (s'.d.tp = s.d.tp ∨ (popCase s = PopCase.drain ∧ s'.d.tp = s.d.hp)) := by
  obtain ⟨nodes, d⟩ := s
  simp only at hl
  obtain ⟨nd, m1, hnd, hidx, hm1, hlen1, hsl1, hnx1, hxs, hsingle, hlen⟩ :=
    pop_common R x xs hl
  have hcase := R.popCase_eq
  simp only [hlen, if_false] at hcase
  by_cases hin : hp + 1 < (slotsAt nodes h).length
  · obtain ⟨s', hs', R', hl'⟩ := pop_advance R x xs hl hin
    have hhp := R.hp_eq
    have hhlp := R.hlp_eq
    have hhead := R.head_eq
    simp only at hhp hhlp hhead
    have hlt : d.hp < d.hlp := by rw [hhp, hhlp]; omega
    have hs2 : Pop ⟨nodes, d⟩ =
        some (⟨m1, { d with len := d.len - 1, hp := d.hp + 1 }⟩, x, true) := by
      simp only [Pop, hlen, if_false, hhead, hnd, hidx, hm1, hlt, if_true, bind, Option.bind,
        pure]
    rw [hs2] at hs'
    simp only [Option.some.injEq, Prod.mk.injEq, and_true] at hs'
    subst hs'
    exact ⟨_, used, spare, h, hp + 1, tp, hs2, R', hl', List.Perm.refl _, Or.inl rfl, hlen1,
      hsl1, hnx1, rfl, rfl, Or.inl rfl⟩
  · have hend : hp + 1 = (slotsAt nodes h).length := by
      have := R.hp_lt
      simp only at this
      omega
    have hhp := R.hp_eq
    have hhlp := R.hlp_eq
    have hhead := R.head_eq
    have htail := R.tail_eq
    simp only at hhp hhlp hhead htail
    have hlt : ¬ d.hp < d.hlp := by rw [hhp, hhlp]; omega
    by_cases e : h = t
    · obtain ⟨s', hs', R', hl'⟩ := pop_drain R x xs hl hend e
      subst e
      have hs2 : Pop ⟨nodes, d⟩ =
          some (⟨m1, { d with len := d.len - 1, tp := d.hp }⟩, x, true) := by
        simp only [Pop, hlen, if_false, hhead, htail, hnd, hidx, hm1, hlt, if_true, bind,
          Option.bind, pure]
      rw [hs2] at hs'
      simp only [Option.some.injEq, Prod.mk.injEq, and_true] at hs'
      subst hs'
      refine ⟨_, used, spare, h, hp, hp, hs2, R', hl', List.Perm.refl _, Or.inl rfl, hlen1,
        hsl1, hnx1, rfl, rfl, Or.inr ⟨?_, rfl⟩⟩
      simp only [hcase, hin, if_true, if_false]
    · obtain ⟨s', b, rest, hused, hs', R', hl'⟩ := pop_rotate R x xs hl hend e
      have h1 : Pop ⟨nodes, d⟩ = some (s', x, true) := hs'
      simp only [Pop, hlen, if_false, hhead, htail, hnd, hidx, hm1, hlt, bind, Option.bind,
        pure] at hs'
      have hne : ¬ (some h = some t) := by simpa using e
      simp only [hne, if_false] at hs'
      obtain ⟨nd1, hnd1, -, -⟩ := deref_spec m1 h (by rw [hlen1]; exact R.h_lt)
      simp only [hnd1] at hs'
      cases hnd2 : deref m1 nd1.n with
      | none => simp [hnd2] at hs'
      | some nd2 =>
        simp only [hnd2, Option.some.injEq, Prod.mk.injEq, and_true] at hs'
        subst hs'
        refine ⟨_, b :: rest, spare ++ [h], b, 0, tp, h1, R', hl', ?_, Or.inr ⟨b :: rest ++ spare,
          by rw [hused]; rfl, by simp⟩, hlen1, hsl1, hnx1, htail.symm, rfl, Or.inl rfl⟩
        rw [hused, ← List.append_assoc]
        exact List.perm_append_singleton _ _

end frames

theorem slotsAt_of_le (nodes : List (node V)) (a : Nat) (h : nodes.length ≤ a) :
    slotsAt nodes a = [] := by
  simp [slotsAt, List.getElem?_eq_none h]

section frames

variable {c : Consts} {s : Mem V} {used spare : List Nat} {h t hp tp fst j : Nat}

/-- One `Push` on a queue that owns segments: the ghost state after it, and what it leaves
alone. The ring keeps its segments in order and gains at most the newly allocated node; no
slot array gets shorter, and only the first segment, in the grow case, gets longer. -/
theorem push_step (hc : Valid c) (R : Ring c s used spare h t hp tp fst j) (x : Option V) :
    ∃ s' used' spare' t' tp' j', Push c x s = some s' ∧
      Ring c s' used' spare' h t' hp tp' fst j' ∧
      live (slotsAt s'.nodes) used' hp tp' = live (slotsAt s.nodes) used hp tp ++ [x] ∧
      (used' ++ spare' = used ++ spare ∨ used' ++ spare' = used ++ spare ++ [s.nodes.length]) ∧
      s.nodes.length ≤ s'.nodes.length ∧
      (∀ a, (slotsAt s.nodes a).length ≤ (slotsAt s'.nodes a).length) ∧
      (∀ a, a < s.nodes.length →
        (slotsAt s'.nodes a).length ≠ (slotsAt s.nodes a).length →
          a = fst ∧ pushCase c s = some PushCase.grow) := by
  have hcase := R.pushCase_eq
  by_cases hroom : tp < (slotsAt s.nodes t).length
  · obtain ⟨s', hs', R', hl⟩ := push_room c x s R hroom
    obtain ⟨s2, hs2, hlen, hsl, -, -⟩ := push_room_frame R x hroom
    obtain rfl : s2 = s' := Option.some.inj (hs2.symm.trans hs')
    have hlens : ∀ a, (slotsAt s2.nodes a).length = (slotsAt s.nodes a).length := by
      intro a; rw [hsl]; exact length_update_set _ _ _ _ _
    exact ⟨s2, _, _, _, _, _, hs', R', hl, Or.inl rfl, by omega,
      fun a => by rw [hlens], fun a _ hne => absurd (hlens a) hne⟩
  · have hfull : tp = (slotsAt s.nodes t).length := Nat.le_antisymm R.tp_le (Nat.not_lt.1 hroom)
    by_cases hlow : tp < c.maxFirstSliceSize.toNat
    · obtain ⟨s', hs', R', hl⟩ := push_grow c hc x s R hfull hlow
      obtain ⟨s2, hs2, hlen, hsl, -, hmul, -⟩ := push_grow_frame hc R x hfull hlow
      obtain rfl : s2 = s' := Option.some.inj (hs2.symm.trans hs')
      have hfst : t = fst := by
        by_contra e
        have := R.cap_rest t (List.mem_append_left _ R.t_mem) e
        have := hc.ceiling_le
        omega
      have hother : ∀ a, a ≠ t → slotsAt s2.nodes a = slotsAt s.nodes a := by
        intro a e; rw [hsl, Function.update_noteq e]
      have hself : (slotsAt s2.nodes t).length =
          (slotsAt s.nodes t).length * c.sliceGrowthFactor.toNat := by
        rw [hsl]; simp; omega
      refine ⟨s2, _, _, _, _, _, hs', R', hl, Or.inl rfl, by omega, ?_, ?_⟩
      · intro a
        by_cases e : a = t
        · subst e; omega
        · rw [hother a e]
      · intro a _ hne
        by_cases e : a = t
        · subst e
          exact ⟨hfst, by simp [hcase, hroom, hlow]⟩
        · exact absurd (by rw [hother a e]) hne
    · cases spare with
      | nil =>
        obtain ⟨s', hs', R', hl⟩ := push_alloc c hc x s R hfull (Nat.not_lt.1 hlow)
        obtain ⟨s2, hs2, hlen, hsl, -, -⟩ := push_alloc_frame hc R x hfull (Nat.not_lt.1 hlow)
        obtain rfl : s2 = s' := Option.some.inj (hs2.symm.trans hs')
        have hother : ∀ a, a ≠ s.nodes.length → slotsAt s2.nodes a = slotsAt s.nodes a := by
          intro a e; rw [hsl, Function.update_noteq e]
        refine ⟨s2, _, _, _, _, _, hs', R', hl, Or.inr (by simp), by omega, ?_, ?_⟩
        · intro a
          by_cases e : a = s.nodes.length
          · subst e; simp [slotsAt_of_le s.nodes _ (Nat.le_refl _)]
          · rw [hother a e]
        · intro a ha hne
          exact absurd (by rw [hother a (Nat.ne_of_lt ha)]) hne
      | cons n spare =>
        obtain ⟨s', hs', R', hl⟩ := push_spare c x s R hfull (Nat.not_lt.1 hlow)
        obtain ⟨s2, hs2, hlen, hsl, -, -⟩ := push_spare_frame R x hfull (Nat.not_lt.1 hlow)
        obtain rfl : s2 = s' := Option.some.inj (hs2.symm.trans hs')
        have hlens : ∀ a, (slotsAt s2.nodes a).length = (slotsAt s.nodes a).length := by
          intro a; rw [hsl]; exact length_update_set _ _ _ _ _
        exact ⟨s2, _, _, _, _, _, hs', R', hl, Or.inl (by simp), by omega,
          fun a => by rw [hlens], fun a _ hne => absurd (hlens a) hne⟩

end frames

theorem RepF.to_rep {c : Consts} {s : Mem V} {xs : List (Option V)} {f : Option Nat}
    (hr : RepF c s xs f) : Rep c s xs := by
  rcases hr with ⟨hd, hxs, -⟩ | ⟨used, spare, h, t, hp, tp, fst, j, R, hl, -⟩
  · exact Or.inl ⟨hd, hxs⟩
  · exact Or.inr ⟨_, _, _, _, _, _, _, _, R, hl⟩

/-- One call keeps the abstraction relation and tracks the first segment. -/
theorem step_repF (c : Consts) (hc : Valid c) (op : Op V) (s : Mem V) (xs : List (Option V))
    (f : Option Nat) (hr : RepF c s xs f) :
    ∃ s', step c op s = some (s', (specStep op xs).2) ∧
      RepF c s' (specStep op xs).1 (firstAfter op s f) := by
  cases op with
  | Init => exact ⟨Init s, rfl, Or.inl ⟨rfl, rfl, rfl⟩⟩
  | Len => exact ⟨s, by simp [step, specStep, len_rep c s xs hr.to_rep], hr⟩
  | Front =>
    refine ⟨s, ?_, by cases xs <;> exact hr⟩
    simp only [step, front_rep c s xs hr.to_rep]
    cases xs <;> rfl
  | Push x =>
    rcases hr with ⟨hd, rfl, -⟩ | ⟨used, spare, h, t, hp, tp, fst, j, R, rfl, rfl⟩
    · obtain ⟨s', hs', R', hl⟩ := push_first c hc x s hd
      refine ⟨s', by simp [step, hs', specStep], Or.inr ⟨_, _, _, _, _, _, _, _, R', ?_, ?_⟩⟩
      · simp [specStep, hl]
      · simp [firstAfter, hd]
    · obtain ⟨s', used', spare', t', tp', j', hs', R', hl, -⟩ := push_step hc R x
      refine ⟨s', by simp [step, hs', specStep], Or.inr ⟨_, _, _, _, _, _, _, _, R', ?_, ?_⟩⟩
      · simp [specStep, hl]
      · simp [firstAfter, R.head_eq]
  | Pop =>
    cases xs with
    | nil => exact ⟨s, by simp [step, pop_rep_nil c s hr.to_rep, specStep], hr⟩
    | cons x xs =>
      rcases hr with ⟨-, hd, -⟩ | ⟨used, spare, h, t, hp, tp, fst, j, R, hl, rfl⟩
      · simp at hd
      · obtain ⟨s', used', spare', h', hp', tp', hs', R', hl', -⟩ := pop_frame R x xs hl.symm
        exact ⟨s', by simp [step, hs', specStep],
          Or.inr ⟨_, _, _, _, _, _, _, _, R', by simp [specStep, hl'], rfl⟩⟩

/-- A sequence of calls keeps the abstraction relation and tracks the first segment. -/
theorem run_repF (c : Consts) (hc : Valid c) (ops : List (Op V)) (s : Mem V)
    (xs : List (Option V)) (f : Option Nat) (hr : RepF c s xs f) :
    ∃ s', run c ops s = some (s', (specRun ops xs).2) ∧
      RepF c s' (specRun ops xs).1 (firstSegment c ops s f) := by
  induction ops generalizing s xs f with
  | nil => exact ⟨s, rfl, hr⟩
  | cons op ops ih =>
    obtain ⟨s1, h1, hr1⟩ := step_repF c hc op s xs f hr
    obtain ⟨s2, h2, hr2⟩ := ih s1 _ _ hr1
    exact ⟨s2, by simp [run, h1, h2, specRun], by simpa [firstSegment, h1] using hr2⟩

/-- The ghost state of the memory that a sequence of calls on a new queue ends in. -/
theorem run_ghost (c : Consts) (hc : Valid c) (ops : List (Op V)) (s : Mem V)
    (rs : List (Ret V)) (hrun : run c ops New = some (s, rs)) :
    RepF c s (specRun ops []).1 (firstSegment c ops New none) := by
  obtain ⟨s2, h2, hr2⟩ := run_repF c hc ops New [] none (Or.inl ⟨rfl, rfl, rfl⟩)
  rw [h2] at hrun
  simp only [Option.some.injEq, Prod.mk.injEq] at hrun
  exact hrun.1 ▸ hr2

/-- C11. Head-bound invariant: in every state reachable from a new queue in which head is
non-nil, head refers to a node, `hlp == len(head.v) - 1` and `0 <= hp <= hlp`. The
reachable states include those right after the first segment has grown in place and right
after `Pop` has rotated head to the next segment. -/
theorem head_bound (s : Mem V) (hs : Reachable defaults s) (h : Nat)
    (hh : s.d.head = some h) :
    ∃ nd, deref s.nodes (some h) = some nd ∧ s.d.hlp = (nd.v.length : Int) - 1 ∧
      0 ≤ s.d.hp ∧ s.d.hp ≤ s.d.hlp := by
  obtain ⟨xs, hr⟩ := hs.rep valid_defaults
  rcases hr with ⟨hd, -⟩ | ⟨used, spare, h', t, hp, tp, fst, j, R, -⟩
  · rw [hd] at hh; simp at hh
  · obtain rfl : h' = h := Option.some.inj (R.head_eq.symm.trans hh)
    obtain ⟨nd, hnd, hndv, -⟩ := deref_spec s.nodes h' R.h_lt
    refine ⟨nd, hnd, by rw [hndv]; exact R.hlp_eq, ?_, ?_⟩
    · rw [R.hp_eq]; exact Int.natCast_nonneg _
    · have := R.hp_lt
      rw [R.hp_eq, R.hlp_eq]
      omega

theorem head_bound_witness :
    Reachable defaults sampleMem ∧ sampleMem.d.head = some 0 ∧
      ∃ nd, deref sampleMem.nodes (some 0) = some nd ∧
        sampleMem.d.hlp = (nd.v.length : Int) - 1 ∧ 0 ≤ sampleMem.d.hp ∧
        sampleMem.d.hp ≤ sampleMem.d.hlp :=
  ⟨⟨sampleOps, sampleRets, by decide⟩, by decide,
    head_bound sampleMem ⟨sampleOps, sampleRets, by decide⟩ 0 (by decide)⟩

/-- C13. Single-segment cursor invariant: in every reachable state in which head and tail
refer to the same node, `0 <= hp <= tp <= len(head.v)` and `len == tp - hp`; and whenever
`Pop` takes the path of its second case (`len != 0`, not `hp < hlp`, `head == tail`) the
queue holds exactly one value, and after the `Pop` `len == 0`, `tp == hp` with `hp`
unchanged, and head and tail still refer to the same node, whose link and slot-array length
are unchanged. -/
theorem single_segment_cursor (s : Mem V) (hs : Reachable defaults s) :
    (∀ h, s.d.head = some h → s.d.tail = some h →
      ∃ nd, deref s.nodes (some h) = some nd ∧ 0 ≤ s.d.hp ∧ s.d.hp ≤ s.d.tp ∧
        s.d.tp ≤ (nd.v.length : Int) ∧ s.d.len = s.d.tp - s.d.hp) ∧
      (popCase s = PopCase.drain →
        s.d.len = 1 ∧ ∃ s' x, Pop s = some (s', x, true) ∧ s'.d.len = 0 ∧
          s'.d.tp = s'.d.hp ∧ s'.d.hp = s.d.hp ∧ s'.d.head = s.d.head ∧
          s'.d.tail = s.d.tail ∧ s'.d.head = s'.d.tail ∧ s'.d.head ≠ none ∧
          s'.nodes.length = s.nodes.length ∧ nextAt s'.nodes = nextAt s.nodes ∧
          ∀ a, (slotsAt s'.nodes a).length = (slotsAt s.nodes a).length) := by
  obtain ⟨xs, hr⟩ := hs.rep valid_defaults
  rcases hr with ⟨hd, -⟩ | ⟨used, spare, h, t, hp, tp, fst, j, R, hl⟩
  · refine ⟨fun h hh => by rw [hd] at hh; simp at hh, fun hcase => ?_⟩
    simp [popCase, hd] at hcase
  · have hcur : h = t → hp ≤ tp ∧ tp ≤ (slotsAt s.nodes h).length ∧
        (live (slotsAt s.nodes) used hp tp).length = tp - hp := by
      intro e
      have hu := R.single e
      subst e
      refine ⟨R.hp_le_tp rfl, R.tp_le, ?_⟩
      have := R.tp_le
      rw [hu, live_single]
      simp
      omega
    constructor
    · intro h' hh ht
      obtain rfl : h = h' := Option.some.inj (R.head_eq.symm.trans hh)
      obtain rfl : t = h := Option.some.inj (R.tail_eq.symm.trans ht)
      obtain ⟨nd, hnd, hndv, -⟩ := deref_spec s.nodes t R.h_lt
      obtain ⟨h1, h2, h3⟩ := hcur rfl
      refine ⟨nd, hnd, ?_, ?_, ?_, ?_⟩
      · rw [R.hp_eq]; exact Int.natCast_nonneg _
      · rw [R.hp_eq, R.tp_eq]; exact_mod_cast h1
      · rw [R.tp_eq, hndv]; exact_mod_cast h2
      · rw [R.len_eq, h3, R.tp_eq, R.hp_eq]; omega
    · intro hcase
      rw [R.popCase_eq] at hcase
      have hlen : s.d.len ≠ 0 := by
        intro e; simp [e] at hcase
      simp only [hlen, if_false] at hcase
      have hin : ¬ hp + 1 < (slotsAt s.nodes h).length := by
        intro e; simp [e] at hcase
      simp only [hin, if_false] at hcase
      have e : h = t := by
        by_contra e; simp [e] at hcase
      obtain ⟨h1, h2, h3⟩ := hcur e
      have hone : s.d.len = 1 := by
        have := R.hp_lt
        rw [R.len_eq] at hlen ⊢
        rw [h3] at hlen ⊢
        have : tp - hp ≠ 0 := by exact_mod_cast hlen
        have : tp - hp = 1 := by omega
        rw [this]; rfl
      have hend : hp + 1 = (slotsAt s.nodes h).length := by
        have := R.hp_lt
        omega
      cases hxs : live (slotsAt s.nodes) used hp tp with
      | nil =>
        rw [R.len_eq, hxs] at hlen
        exact absurd rfl hlen
      | cons x xs' =>
        obtain ⟨s', used', spare', h', hp', tp', hs', -, -, -, -, hnl, hsl, hnx, -⟩ :=
          pop_frame R x xs' hxs
        have hs1 : ∃ s1, Pop s = some (s1, x, true) ∧ Ring defaults s1 used spare h t hp hp fst j ∧
            live (slotsAt s1.nodes) used hp hp = xs' := by
          obtain ⟨nodes, d⟩ := s
          exact pop_drain R x xs' hxs hend e
        obtain ⟨s1, hs1, R1, hl1⟩ := hs1
        obtain rfl : s' = s1 := by
          have := hs'.symm.trans hs1
          simp only [Option.some.injEq, Prod.mk.injEq, and_true] at this
          exact this
        have hxs0 : xs' = [] := by
          rw [R.len_eq, hxs] at hone
          have : (x :: xs').length = 1 := by exact_mod_cast hone
          simpa using this
        refine ⟨hone, s', x, hs', ?_, ?_, ?_, ?_, ?_, ?_, ?_, hnl, hnx, ?_⟩
        · rw [R1.len_eq, hl1, hxs0]; rfl
        · rw [R1.tp_eq, R1.hp_eq]
        · rw [R1.hp_eq, R.hp_eq]
        · rw [R1.head_eq, R.head_eq]
        · rw [R1.tail_eq, R.tail_eq]
        · rw [R1.head_eq, R1.tail_eq, e]
        · rw [R1.head_eq]; simp
        · intro a
          rw [hsl]; exact length_update_set _ _ _ _ _

theorem single_segment_cursor_witness :
    Reachable defaults lastMem ∧ popCase lastMem = PopCase.drain ∧
      (∀ h, lastMem.d.head = some h → lastMem.d.tail = some h →
        ∃ nd, deref lastMem.nodes (some h) = some nd ∧ 0 ≤ lastMem.d.hp ∧
          lastMem.d.hp ≤ lastMem.d.tp ∧ lastMem.d.tp ≤ (nd.v.length : Int) ∧
          lastMem.d.len = lastMem.d.tp - lastMem.d.hp) ∧
      (popCase lastMem = PopCase.drain →
        lastMem.d.len = 1 ∧ ∃ s' x, Pop lastMem = some (s', x, true) ∧ s'.d.len = 0 ∧
          s'.d.tp = s'.d.hp ∧ s'.d.hp = lastMem.d.hp ∧ s'.d.head = lastMem.d.head ∧
          s'.d.tail = lastMem.d.tail ∧ s'.d.head = s'.d.tail ∧ s'.d.head ≠ none ∧
          s'.nodes.length = lastMem.nodes.length ∧ nextAt s'.nodes = nextAt lastMem.nodes ∧
          ∀ a, (slotsAt s'.nodes a).length = (slotsAt lastMem.nodes a).length) :=
  (fun hr => ⟨hr, by decide, single_segment_cursor lastMem hr⟩)
    ⟨lastOps, lastRets, by decide⟩

theorem step_push_eq (c : Consts) (x : Option V) (s s' : Mem V) (r : Ret V)
    (h : step c (Op.Push x) s = some (s', r)) : Push c x s = some s' := by
  simp only [step] at h
  cases hp : Push c x s with
  | none => simp [hp] at h
  | some s1 =>
    simp only [hp, Option.some.injEq, Prod.mk.injEq] at h
    rw [h.1]

theorem step_pop_eq (c : Consts) (s s' : Mem V) (r : Ret V)
    (h : step c (Op.Pop : Op V) s = some (s', r)) : ∃ x ok, Pop s = some (s', x, ok) := by
  simp only [step] at h
  cases hp : Pop s with
  | none => simp [hp] at h
  | some p =>
    obtain ⟨s1, x, ok⟩ := p
    simp only [hp, Option.some.injEq, Prod.mk.injEq] at h
    exact ⟨x, ok, by rw [h.1]⟩

/-- No call shortens a slot array, and the only call that changes the length of the slot
array of a node is a `Push` in its grow case, on the first segment. -/
theorem step_lengths (c : Consts) (hc : Valid c) (op : Op V) (s s' : Mem V) (r : Ret V)
    (xs : List (Option V)) (f : Option Nat) (hr : RepF c s xs f)
    (hstep : step c op s = some (s', r)) :
    (∀ a, (slotsAt s.nodes a).length ≤ (slotsAt s'.nodes a).length) ∧
      (∀ a, a < s.nodes.length →
        (slotsAt s'.nodes a).length ≠ (slotsAt s.nodes a).length →
          f = some a ∧ (∃ x, op = Op.Push x) ∧ pushCase c s = some PushCase.grow) := by
  have hsame : s' = s →
      (∀ a, (slotsAt s.nodes a).length ≤ (slotsAt s'.nodes a).length) ∧
      (∀ a, a < s.nodes.length →
        (slotsAt s'.nodes a).length ≠ (slotsAt s.nodes a).length →
          f = some a ∧ (∃ x, op = Op.Push x) ∧ pushCase c s = some PushCase.grow) := by
    rintro rfl
    exact ⟨fun a => Nat.le_refl _, fun a _ hne => absurd rfl hne⟩
  cases op with
  | Init =>
    simp only [step, Option.some.injEq, Prod.mk.injEq] at hstep
    obtain ⟨rfl, -⟩ := hstep
    exact ⟨fun a => Nat.le_refl _, fun a _ hne => absurd rfl hne⟩
  | Len =>
    simp only [step, Option.some.injEq, Prod.mk.injEq] at hstep
    exact hsame hstep.1.symm
  | Front =>
    simp only [step, front_rep c s xs hr.to_rep, Option.some.injEq, Prod.mk.injEq] at hstep
    exact hsame hstep.1.symm
  | Push x =>
    have hpush := step_push_eq c x s s' r hstep
    rcases hr with ⟨hd, -, -⟩ | ⟨used, spare, h, t, hp, tp, fst, j, R, -, rfl⟩
    · obtain ⟨s2, hs2, hlen, hsl, -, -⟩ := push_first_frame hc x hd
      obtain rfl : s2 = s' := Option.some.inj (hs2.symm.trans hpush)
      have hother : ∀ a, a ≠ s.nodes.length → slotsAt s2.nodes a = slotsAt s.nodes a := by
        intro a e; rw [hsl, Function.update_noteq e]
      constructor
      · intro a
        by_cases e : a = s.nodes.length
        · subst e; simp [slotsAt_of_le s.nodes _ (Nat.le_refl _)]
        · rw [hother a e]
      · intro a ha hne
        exact absurd (by rw [hother a (Nat.ne_of_lt ha)]) hne
    · obtain ⟨s2, -, -, -, -, -, hs2, -, -, -, -, hle, hne⟩ := push_step hc R x
      obtain rfl : s2 = s' := Option.some.inj (hs2.symm.trans hpush)
      refine ⟨hle, fun a ha hn => ?_⟩
      obtain ⟨h1, h2⟩ := hne a ha hn
      exact ⟨by rw [h1], ⟨x, rfl⟩, h2⟩
  | Pop =>
    obtain ⟨x, ok, hpop⟩ := step_pop_eq c s s' r hstep
    cases xs with
    | nil =>
      rw [pop_rep_nil c s hr.to_rep] at hpop
      simp only [Option.some.injEq, Prod.mk.injEq] at hpop
      exact hsame hpop.1.symm
    | cons y ys =>
      rcases hr with ⟨-, hd, -⟩ | ⟨used, spare, h, t, hp, tp, fst, j, R, hl, rfl⟩
      · simp at hd
      · obtain ⟨s2, -, -, -, -, -, hs2, -, -, -, -, -, hsl, -⟩ := pop_frame R y ys hl.symm
        obtain rfl : s2 = s' := by
          have := hs2.symm.trans hpop
          simp only [Option.some.injEq, Prod.mk.injEq] at this
          exact this.1
        have hlens : ∀ a, (slotsAt s2.nodes a).length = (slotsAt s.nodes a).length := by
          intro a; rw [hsl]; exact length_update_set _ _ _ _ _
        exact ⟨fun a => by rw [hlens], fun a _ hne => absurd (hlens a) hne⟩

/-- C12. In-place growth happens only on a single-segment queue: in the state `s` that a
sequence of calls on a new queue ends in, if `Push` takes its grow case then head and tail
are the same node, that node is linked to itself and is the only segment of the ring and is
the first segment allocated, and the `Push` multiplies the length of its slot array by the
growth factor, keeps every existing slot value at its index and leaves every other node
alone; and whenever any call changes the length of the slot array of a node, the call is a
`Push` in its grow case and the node is the first segment allocated. -/
theorem grow_only_first (ops : List (Op V)) (s : Mem V) (rs : List (Ret V))
    (hrun : run defaults ops New = some (s, rs)) :
    (pushCase defaults s = some PushCase.grow →
      s.d.head = s.d.tail ∧ ∃ t, s.d.tail = some t ∧ nextAt s.nodes t = some t ∧
        segments s = [t] ∧ firstSegment defaults ops New none = some t ∧
        ∀ x, ∃ s', Push defaults x s = some s' ∧
          (slotsAt s'.nodes t).length = (slotsAt s.nodes t).length * sliceGrowthFactor ∧
          (∀ i, i < (slotsAt s.nodes t).length →
            (slotsAt s'.nodes t)[i]? = (slotsAt s.nodes t)[i]?) ∧
          (∀ a, a ≠ t → slotsAt s'.nodes a = slotsAt s.nodes a ∧
            nextAt s'.nodes a = nextAt s.nodes a)) ∧
      (∀ op s' r a, step defaults op s = some (s', r) → a < s.nodes.length →
        (slotsAt s'.nodes a).length ≠ (slotsAt s.nodes a).length →
          firstSegment defaults ops New none = some a ∧ (∃ x, op = Op.Push x) ∧
            pushCase defaults s = some PushCase.grow) := by
  have hg := run_ghost defaults valid_defaults ops s rs hrun
  refine ⟨fun hcase => ?_, fun op s' r a hstep ha hne =>
    (step_lengths defaults valid_defaults op s s' r _ _ hg hstep).2 a ha hne⟩
  rcases hg with ⟨hd, -, -⟩ | ⟨used, spare, h, t, hp, tp, fst, j, R, -, hf⟩
  · simp [pushCase, hd] at hcase
  · rw [R.pushCase_eq] at hcase
    have hroom : ¬ tp < (slotsAt s.nodes t).length := by
      intro e; simp [e] at hcase
    simp only [hroom, if_false] at hcase
    have hlow : tp < defaults.maxFirstSliceSize.toNat := by
      by_contra e
      simp only [e, if_false] at hcase
      split at hcase <;> simp at hcase
    have hfull : tp = (slotsAt s.nodes t).length := Nat.le_antisymm R.tp_le (Nat.not_lt.1 hroom)
    have hfst : t = fst := by
      by_contra e
      have := R.cap_rest t (List.mem_append_left _ R.t_mem) e
      have := valid_defaults.ceiling_le
      omega
    subst hfst
    have hone : (used ++ spare).length < 2 := by
      by_contra e
      have := R.cap_multi (by omega)
      omega
    have hused : used = [t] := by
      obtain ⟨pre, hpre⟩ := List.getLast?_eq_some_iff.1 R.used_last
      cases pre with
      | nil => simpa using hpre
      | cons a pre => rw [hpre] at hone; simp at hone; omega
    have hspare : spare = [] := by
      rw [hused] at hone
      cases spare with
      | nil => rfl
      | cons a l => simp at hone; omega
    have hht : h = t := by
      have := R.used_head; rw [hused] at this; simpa using this.symm
    refine ⟨by rw [R.head_eq, R.tail_eq, hht], t, R.tail_eq, ?_, ?_, hf, ?_⟩
    · have := R.next_tail
      rw [hspare, hht] at this
      simpa using this
    · rw [R.segments_eq, hused, hspare]; rfl
    · intro x
      obtain ⟨s', hs', -, hsl, hnx, hmul, -⟩ := push_grow_frame valid_defaults R x hfull hlow
      refine ⟨s', hs', ?_, ?_, ?_⟩
      · rw [hsl]
        simp only [Function.update_same, List.length_set, List.length_append,
          List.length_replicate]
        show _ = _ * defaults.sliceGrowthFactor.toNat
        omega
      · intro i hi
        rw [hsl, Function.update_same, List.getElem?_set_ne (by omega),
          List.getElem?_append_left hi]
      · intro a e
        exact ⟨by rw [hsl, Function.update_noteq e], by rw [hnx]⟩

theorem grow_only_first_witness :
    run defaults fullOps New = some (fullMem, fullRets) ∧
      pushCase defaults fullMem = some PushCase.grow ∧
      (pushCase defaults fullMem = some PushCase.grow →
        fullMem.d.head = fullMem.d.tail ∧ ∃ t, fullMem.d.tail = some t ∧
          nextAt fullMem.nodes t = some t ∧ segments fullMem = [t] ∧
          firstSegment defaults fullOps New none = some t ∧
          ∀ x, ∃ s', Push defaults x fullMem = some s' ∧
            (slotsAt s'.nodes t).length = (slotsAt fullMem.nodes t).length * sliceGrowthFactor ∧
            (∀ i, i < (slotsAt fullMem.nodes t).length →
              (slotsAt s'.nodes t)[i]? = (slotsAt fullMem.nodes t)[i]?) ∧
            (∀ a, a ≠ t → slotsAt s'.nodes a = slotsAt fullMem.nodes a ∧
              nextAt s'.nodes a = nextAt fullMem.nodes a)) ∧
        (∀ op s' r a, step defaults op fullMem = some (s', r) → a < fullMem.nodes.length →
          (slotsAt s'.nodes a).length ≠ (slotsAt fullMem.nodes a).length →
            firstSegment defaults fullOps New none = some a ∧ (∃ x, op = Op.Push x) ∧
              pushCase defaults fullMem = some PushCase.grow) :=
  ⟨by decide, by decide, grow_only_first fullOps fullMem fullRets (by decide)⟩

/-- The segments after the head segment hold at least `tp` queued values. -/
theorem live_length_ge (sl : Nat → List (Option V)) (pre : List Nat) (t tp : Nat)
    (hle : tp ≤ (sl t).length) : tp ≤ (live sl (pre ++ [t]) 0 tp).length := by
  induction pre with
  | nil => simp [live_single, hle]
  | cons a l ih =>
    rw [List.cons_append, live_cons sl a (by simp), List.length_append]
    omega

/-- C14. Empty implies head == tail: in every state reachable from a new queue, if
`Len() == 0` then head and tail are equal (both nil, or the same node); and whenever head and
tail differ, both refer to nodes, the head segment holds the `len(head.v) - hp >= 1` values
of its slots from `hp` on, the tail segment holds the `tp >= 1` values of its slots below
`tp`, and the queue holds at least these, so at least two values. -/
theorem empty_implies_head_eq_tail (s : Mem V) (hs : Reachable defaults s) :
    (Len s = 0 → s.d.head = s.d.tail) ∧
      (s.d.head ≠ s.d.tail → ∃ h t hn tn, s.d.head = some h ∧ s.d.tail = some t ∧
        deref s.nodes (some h) = some hn ∧ deref s.nodes (some t) = some tn ∧
        0 ≤ s.d.hp ∧ s.d.hp < (hn.v.length : Int) ∧ 1 ≤ s.d.tp ∧
        s.d.tp ≤ (tn.v.length : Int) ∧
        held s h = hn.v.drop s.d.hp.toNat ∧ held s t = tn.v.take s.d.tp.toNat ∧
        ((hn.v.length : Int) - s.d.hp) + s.d.tp ≤ Len s ∧ 2 ≤ Len s) := by
  obtain ⟨xs, hr⟩ := hs.rep valid_defaults
  rcases hr with ⟨hd, -⟩ | ⟨used, spare, h, t, hp, tp, fst, j, R, -⟩
  · exact ⟨fun _ => by rw [hd], fun hne => absurd (by rw [hd]) hne⟩
  · have hmulti : h ≠ t → ((slotsAt s.nodes h).length - hp) + tp ≤
        (live (slotsAt s.nodes) used hp tp).length := by
      intro e
      obtain ⟨mid, hmid⟩ := R.multi e
      rw [hmid, live_cons _ h (by simp), List.length_append, List.length_drop]
      have := live_length_ge (slotsAt s.nodes) mid t tp R.tp_le
      omega
    constructor
    · intro hlen
      by_contra hne
      have e : h ≠ t := by
        rintro rfl
        exact hne (by rw [R.head_eq, R.tail_eq])
      have h1 := hmulti e
      have h2 := R.hp_lt
      have h3 : ((live (slotsAt s.nodes) used hp tp).length : Int) = 0 := by
        rw [← R.len_eq]; exact hlen
      omega
    · intro hne
      have e : h ≠ t := by
        rintro rfl
        exact hne (by rw [R.head_eq, R.tail_eq])
      obtain ⟨hn, hhn, hhnv, -⟩ := deref_spec s.nodes h R.h_lt
      obtain ⟨tn, htn, htnv, -⟩ := deref_spec s.nodes t R.t_lt
      have h1 := hmulti e
      have h2 := R.hp_lt
      have h3 := R.tp_pos e
      have h4 := R.tp_le
      refine ⟨h, t, hn, tn, R.head_eq, R.tail_eq, hhn, htn, ?_, ?_, ?_, ?_, ?_, ?_, ?_, ?_⟩
      · rw [R.hp_eq]; exact Int.natCast_nonneg _
      · rw [R.hp_eq, hhnv]; exact_mod_cast h2
      · rw [R.tp_eq]; exact_mod_cast h3
      · rw [R.tp_eq, htnv]; exact_mod_cast h4
      · simp [held, R.liveRange_used h R.h_mem, e, hhnv, R.hp_eq]
      · simp [held, R.liveRange_used t R.t_mem, Ne.symm e, htnv, R.tp_eq]
      · rw [hhnv, R.hp_eq, R.tp_eq]
        show _ ≤ s.d.len
        rw [R.len_eq]
        omega
      · show _ ≤ s.d.len
        rw [R.len_eq]
        omega

theorem empty_implies_head_eq_tail_witness :
    Reachable defaults drainedMem ∧ Len drainedMem = 0 ∧
      (Len drainedMem = 0 → drainedMem.d.head = drainedMem.d.tail) ∧
      (drainedMem.d.head ≠ drainedMem.d.tail → ∃ h t hn tn,
        drainedMem.d.head = some h ∧ drainedMem.d.tail = some t ∧
        deref drainedMem.nodes (some h) = some hn ∧ deref drainedMem.nodes (some t) = some tn ∧
        0 ≤ drainedMem.d.hp ∧ drainedMem.d.hp < (hn.v.length : Int) ∧ 1 ≤ drainedMem.d.tp ∧
        drainedMem.d.tp ≤ (tn.v.length : Int) ∧
        held drainedMem h = hn.v.drop drainedMem.d.hp.toNat ∧
        held drainedMem t = tn.v.take drainedMem.d.tp.toNat ∧
        ((hn.v.length : Int) - drainedMem.d.hp) + drainedMem.d.tp ≤ Len drainedMem ∧
        2 ≤ Len drainedMem) :=
  ⟨⟨[Op.Push (some 7), Op.Pop], [Ret.unit, Ret.val (some 7) true], by decide⟩, by decide,
    empty_implies_head_eq_tail drainedMem
      ⟨[Op.Push (some 7), Op.Pop], [Ret.unit, Ret.val (some 7) true], by decide⟩⟩

/-- In a run of `Push` and `Pop` calls that starts without nodes, the first segment
allocated is node 0. -/
theorem run_first_zero (c : Consts) (hc : Valid c) (ops : List (Op V))
    (hops : ∀ op ∈ ops, op.isPushPop = true) (s : Mem V) (xs : List (Option V))
    (f : Option Nat) (hr : RepF c s xs f) (h0 : f = none → s.nodes = [])
    (h1 : ∀ a, f = some a → a = 0) : ∀ a, firstSegment c ops s f = some a → a = 0 := by
  induction ops generalizing s xs f with
  | nil => exact h1
  | cons op ops ih =>
    obtain ⟨s1, hs1, hr1⟩ := step_repF c hc op s xs f hr
    have hops' : ∀ o ∈ ops, o.isPushPop = true := fun o ho => hops o (List.mem_cons_of_mem _ ho)
    have hop := hops op (List.mem_cons_self _ _)
    simp only [firstSegment, hs1]
    refine ih hops' s1 _ _ hr1 ?_ ?_
    · intro hf
      cases op with
      | Init => simp [Op.isPushPop] at hop
      | Len => simp [Op.isPushPop] at hop
      | Front => simp [Op.isPushPop] at hop
      | Push x =>
        simp only [firstAfter] at hf
        split at hf
        · simp at hf
        · rename_i hh
          rcases hr with ⟨hd, -, -⟩ | ⟨used, spare, h, t, hp, tp, fst, j, R, -, rfl⟩
          · exact absurd (by rw [hd]) hh
          · simp at hf
      | Pop =>
        simp only [firstAfter] at hf
        rcases hr with ⟨hd, rfl, -⟩ | ⟨used, spare, h, t, hp, tp, fst, j, R, -, rfl⟩
        · have := pop_rep_nil c s (Or.inl ⟨hd, rfl⟩)
          simp only [step, this, Option.some.injEq, Prod.mk.injEq] at hs1
          rw [← hs1.1]
          exact h0 hf
        · simp at hf
    · intro a ha
      cases op with
      | Init => simp [Op.isPushPop] at hop
      | Len => simp [Op.isPushPop] at hop
      | Front => simp [Op.isPushPop] at hop
      | Push x =>
        simp only [firstAfter] at ha
        split at ha
        · rename_i hh
          rcases hr with ⟨hd, -, hf⟩ | ⟨used, spare, h, t, hp, tp, fst, j, R, -, rfl⟩
          · simp only [Option.some.injEq] at ha
            rw [← ha, h0 hf]
            rfl
          · rw [R.head_eq] at hh; simp at hh
        · exact h1 a ha
      | Pop => exact h1 a ha

/-- The capacities allowed for the first segment with the constants of `queue.go`. -/
theorem first_capacity (n j : Nat)
    (hcap : n = defaults.firstSliceSize.toNat * defaults.sliceGrowthFactor.toNat ^ j)
    (hlow : j ≠ 0 →
      defaults.firstSliceSize.toNat * defaults.sliceGrowthFactor.toNat ^ (j - 1) < defaults.maxFirstSliceSize.toNat) :
    n = 4 ∨ n = 16 ∨ n = 64 := by
  have e1 : defaults.firstSliceSize.toNat = 4 := rfl
  have e2 : defaults.sliceGrowthFactor.toNat = 4 := rfl
  have e3 : defaults.maxFirstSliceSize.toNat = 64 := rfl
  rw [e1, e2] at hcap
  rw [e1, e2, e3] at hlow
  match j, hcap, hlow with
  | 0, hcap, _ => left; simpa using hcap
  | 1, hcap, _ => right; left; simpa using hcap
  | 2, hcap, _ => right; right; simpa using hcap
  | k + 3, _, hlow =>
    exfalso
    have h := hlow (by omega)
    have hk : k + 3 - 1 = k + 2 := by omega
    rw [hk, pow_succ, pow_succ] at h
    have : 1 ≤ 4 ^ k := Nat.one_le_pow _ _ (by omega)
    omega

/-- C15. Segment capacities: in the state that a sequence of `Push` and `Pop` calls on a new
queue ends in, the first segment allocated is node 0 and belongs to the ring as soon as the
ring has a segment, its slot array has length 4, 16 or 64, every other segment of the ring
has a slot array of length `maxInternalSliceSize = 256`, and no call makes the slot array of
any node shorter. -/
theorem segment_capacities (ops : List (Op V)) (s : Mem V) (rs : List (Ret V))
    (hops : ∀ op ∈ ops, op.isPushPop = true)
    (hrun : run defaults ops New = some (s, rs)) :
    (segments s ≠ [] → 0 ∈ segments s ∧ firstSegment defaults ops New none = some 0) ∧
      (∀ a ∈ segments s,
        (a = 0 → (slotsAt s.nodes a).length = 4 ∨ (slotsAt s.nodes a).length = 16 ∨
          (slotsAt s.nodes a).length = 64) ∧
        (a ≠ 0 → (slotsAt s.nodes a).length = maxInternalSliceSize)) ∧
      (∀ op s' r, step defaults op s = some (s', r) →
        ∀ a, (slotsAt s.nodes a).length ≤ (slotsAt s'.nodes a).length) := by
  have hg := run_ghost defaults valid_defaults ops s rs hrun
  have hz := run_first_zero defaults valid_defaults ops hops New [] none
    (Or.inl ⟨rfl, rfl, rfl⟩) (fun _ => rfl) (fun a ha => by simp at ha)
  refine ⟨?_, ?_, fun op s' r hstep =>
    (step_lengths defaults valid_defaults op s s' r _ _ hg hstep).1⟩
  · intro hne
    rcases hg with ⟨hd, -, -⟩ | ⟨used, spare, h, t, hp, tp, fst, j, R, -, hf⟩
    · simp [segments, hd] at hne
    · obtain rfl := hz fst hf
      exact ⟨by rw [R.segments_eq]; exact R.fst_mem, hf⟩
  · intro a ha
    rcases hg with ⟨hd, -, -⟩ | ⟨used, spare, h, t, hp, tp, fst, j, R, -, hf⟩
    · simp [segments, hd] at ha
    · obtain rfl := hz fst hf
      rw [R.segments_eq] at ha
      constructor
      · rintro rfl
        exact first_capacity _ j R.cap_fst R.cap_low
      · intro e
        exact R.cap_rest a ha e

theorem segment_capacities_witness :
    (∀ op ∈ fullOps, op.isPushPop = true) ∧
      run defaults fullOps New = some (fullMem, fullRets) ∧
      (segments fullMem ≠ [] →
        0 ∈ segments fullMem ∧ firstSegment defaults fullOps New none = some 0) ∧
      (∀ a ∈ segments fullMem,
        (a = 0 → (slotsAt fullMem.nodes a).length = 4 ∨ (slotsAt fullMem.nodes a).length = 16 ∨
          (slotsAt fullMem.nodes a).length = 64) ∧
        (a ≠ 0 → (slotsAt fullMem.nodes a).length = maxInternalSliceSize)) ∧
      (∀ op s' r, step defaults op fullMem = some (s', r) →
        ∀ a, (slotsAt fullMem.nodes a).length ≤ (slotsAt s'.nodes a).length) :=
  ⟨by decide, by decide, segment_capacities fullOps fullMem fullRets (by decide) (by decide)⟩

/-- C16. Reusing a spare segment never overwrites a queued value: in every reachable state
in which `Push` takes its spare-segment case, the segment `tail.n` is a segment of the ring
other than head that is not among the segments in use, it holds no queued value and all its
slots are nil; the `Push` writes slot 0 of that segment and nothing else in the heap, makes
it the tail with `tp = 1`, and the queued values after it are the queued values before it
followed by the pushed value. -/
theorem spare_reuse_safe (s : Mem V) (hs : Reachable defaults s)
    (hcase : pushCase defaults s = some PushCase.spare) :
    ∃ t n, s.d.tail = some t ∧ nextAt s.nodes t = some n ∧ s.d.head ≠ some n ∧
      n ∈ segments s ∧ n ∉ usedSegments s ∧ held s n = [] ∧
      (∀ y ∈ slotsAt s.nodes n, y = none) ∧
      ∀ x, ∃ s', Push defaults x s = some s' ∧ s'.d.tail = some n ∧ s'.d.tp = 1 ∧
        s'.nodes.length = s.nodes.length ∧ nextAt s'.nodes = nextAt s.nodes ∧
        slotsAt s'.nodes =
          Function.update (slotsAt s.nodes) n ((slotsAt s.nodes n).set 0 x) ∧
        queued s' = queued s ++ [x] := by
  obtain ⟨xs, hr⟩ := hs.rep valid_defaults
  rcases hr with ⟨hd, -⟩ | ⟨used, spare, h, t, hp, tp, fst, j, R, -⟩
  · simp [pushCase, hd] at hcase
  · rw [R.pushCase_eq] at hcase
    have hroom : ¬ tp < (slotsAt s.nodes t).length := by
      intro e; simp [e] at hcase
    simp only [hroom, if_false] at hcase
    have hlow : ¬ tp < defaults.maxFirstSliceSize.toNat := by
      intro e; simp [e] at hcase
    simp only [hlow, if_false] at hcase
    have hfull : tp = (slotsAt s.nodes t).length := Nat.le_antisymm R.tp_le (Nat.not_lt.1 hroom)
    cases spare with
    | nil => simp at hcase
    | cons n spare =>
      have hnu : n ∉ used := fun hu => R.not_spare hu (List.mem_cons_self _ _)
      refine ⟨t, n, R.tail_eq, by simpa using R.next_tail, ?_, ?_, ?_, ?_, ?_, ?_⟩
      · rw [R.head_eq]
        intro e
        exact hnu (Option.some.inj e ▸ R.h_mem)
      · rw [R.segments_eq]; simp
      · rw [R.usedSegments_eq]; exact hnu
      · simp [held, R.liveRange_spare n hnu]
      · exact R.nil_spare n (List.mem_cons_self _ _)
      · intro x
        obtain ⟨s', hs', R', hl⟩ := push_spare defaults x s R hfull (Nat.not_lt.1 hlow)
        obtain ⟨s2, hs2, hlen, hsl, hnx, hd⟩ :=
          push_spare_frame R x hfull (Nat.not_lt.1 hlow)
        obtain rfl : s2 = s' := Option.some.inj (hs2.symm.trans hs')
        exact ⟨s2, hs', R'.tail_eq, by rw [R'.tp_eq]; rfl, hlen, hnx, hsl,
          by rw [R'.queued_eq, R.queued_eq, hl]⟩

set_option maxRecDepth 100000 in
theorem spare_reuse_safe_witness :
    Reachable defaults spareMem ∧ pushCase defaults spareMem = some PushCase.spare ∧
      ∃ t n, spareMem.d.tail = some t ∧ nextAt spareMem.nodes t = some n ∧
        spareMem.d.head ≠ some n ∧ n ∈ segments spareMem ∧ n ∉ usedSegments spareMem ∧
        held spareMem n = [] ∧ (∀ y ∈ slotsAt spareMem.nodes n, y = none) ∧
        ∀ x, ∃ s', Push defaults x spareMem = some s' ∧ s'.d.tail = some n ∧ s'.d.tp = 1 ∧
          s'.nodes.length = spareMem.nodes.length ∧ nextAt s'.nodes = nextAt spareMem.nodes ∧
          slotsAt s'.nodes =
            Function.update (slotsAt spareMem.nodes) n ((slotsAt spareMem.nodes n).set 0 x) ∧
          queued s' = queued spareMem ++ [x] :=
  (fun hr => ⟨hr, by decide, spare_reuse_safe spareMem hr (by decide)⟩)
    ⟨spareOps, spareRets, by decide⟩

/-- The segments in use each hold a queued value when the tail segment is full. -/
theorem Ring.held_ne_nil {c : Consts} {s : Mem V} {used spare : List Nat}
    {h t hp tp fst j : Nat} (R : Ring c s used spare h t hp tp fst j)
    (hfull : tp = (slotsAt s.nodes t).length) (a : Nat) (ha : a ∈ used) : held s a ≠ [] := by
  have hpos := R.cap_pos a (List.mem_append_left _ ha)
  have hlt := R.hp_lt
  have hne : ∀ l : List (Option V), 0 < l.length → l ≠ [] := by
    intro l hl e; rw [e] at hl; exact Nat.lt_irrefl 0 hl
  apply hne
  simp only [held, R.liveRange_used a ha, List.length_drop, List.length_take]
  by_cases e1 : a = h <;> by_cases e2 : a = t
  · subst e1; subst e2; simp only [if_true]; omega
  · subst e1; simp only [if_true, e2, if_false]; omega
  · subst e2; simp only [e1, if_false, if_true]; omega
  · simp only [e1, e2, if_false]; omega

/-- C17. Segments are allocated only when none is unused: in every reachable state, if
`Push` takes its first case the ring has no segment, and the `Push` allocates one node,
links it to itself and makes it head and tail; if `Push` takes its last case every segment of
the ring is in use and holds at least one queued value, and the `Push` allocates one node
with `maxInternalSliceSize` slots, links the old tail to it and it to head, and makes it
the tail, so that the ring is the old ring followed by the new node. -/
theorem alloc_only_when_no_spare (s : Mem V) (hs : Reachable defaults s) :
    (pushCase defaults s = some PushCase.first →
      segments s = [] ∧ ∀ x, ∃ s', Push defaults x s = some s' ∧
        s'.nodes.length = s.nodes.length + 1 ∧ s'.d.head = some s.nodes.length ∧
        s'.d.tail = some s.nodes.length ∧
        nextAt s'.nodes s.nodes.length = some s.nodes.length ∧
        segments s' = [s.nodes.length]) ∧
      (pushCase defaults s = some PushCase.alloc →
        segments s = usedSegments s ∧ (∀ a ∈ segments s, held s a ≠ []) ∧
        ∃ h t, s.d.head = some h ∧ s.d.tail = some t ∧
          ∀ x, ∃ s', Push defaults x s = some s' ∧
            s'.nodes.length = s.nodes.length + 1 ∧
            (slotsAt s'.nodes s.nodes.length).length = maxInternalSliceSize ∧
            nextAt s'.nodes s.nodes.length = some h ∧
            nextAt s'.nodes t = some s.nodes.length ∧
            s'.d.tail = some s.nodes.length ∧ s'.d.head = some h ∧
            segments s' = segments s ++ [s.nodes.length]) := by
  obtain ⟨xs, hr⟩ := hs.rep valid_defaults
  rcases hr with ⟨hd, -⟩ | ⟨used, spare, h, t, hp, tp, fst, j, R, -⟩
  · constructor
    · intro _
      refine ⟨by simp [segments, hd], fun x => ?_⟩
      obtain ⟨s', hs', R', -⟩ := push_first defaults valid_defaults x s hd
      obtain ⟨s2, hs2, hlen, -, hnx, -⟩ := push_first_frame valid_defaults x hd
      obtain rfl : s2 = s' := Option.some.inj (hs2.symm.trans hs')
      exact ⟨s2, hs', hlen, R'.head_eq, R'.tail_eq, by rw [hnx]; simp,
        by rw [R'.segments_eq]; rfl⟩
    · intro hcase
      simp [pushCase, hd] at hcase
  · constructor
    · intro hcase
      simp [pushCase, R.head_eq] at hcase
      cases hd : deref s.nodes s.d.tail with
      | none => simp [hd] at hcase
      | some nd =>
        simp only [hd] at hcase
        split at hcase
        · simp at hcase
        · split at hcase
          · simp at hcase
          · split at hcase <;> simp at hcase
    · intro hcase
      rw [R.pushCase_eq] at hcase
      have hroom : ¬ tp < (slotsAt s.nodes t).length := by
        intro e; simp [e] at hcase
      simp only [hroom, if_false] at hcase
      have hlow : ¬ tp < defaults.maxFirstSliceSize.toNat := by
        intro e; simp [e] at hcase
      simp only [hlow, if_false] at hcase
      have hfull : tp = (slotsAt s.nodes t).length :=
        Nat.le_antisymm R.tp_le (Nat.not_lt.1 hroom)
      cases spare with
      | cons n spare => simp at hcase
      | nil =>
        refine ⟨by rw [R.segments_eq, R.usedSegments_eq, List.append_nil], ?_, h, t,
          R.head_eq, R.tail_eq, fun x => ?_⟩
        · intro a ha
          rw [R.segments_eq, List.append_nil] at ha
          exact R.held_ne_nil hfull a ha
        · obtain ⟨s', hs', R', -⟩ :=
            push_alloc defaults valid_defaults x s R hfull (Nat.not_lt.1 hlow)
          obtain ⟨s2, hs2, hlen, hsl, hnx, -⟩ :=
            push_alloc_frame valid_defaults R x hfull (Nat.not_lt.1 hlow)
          obtain rfl : s2 = s' := Option.some.inj (hs2.symm.trans hs')
          have hne : s.nodes.length ≠ t := Ne.symm (Nat.ne_of_lt R.t_lt)
          refine ⟨s2, hs', hlen, ?_, ?_, ?_, R'.tail_eq, R'.head_eq, ?_⟩
          · rw [hsl]; simp; rfl
          · rw [hnx, Function.update_noteq hne]; simp
          · rw [hnx]; simp
          · rw [R'.segments_eq, R.segments_eq]; simp

set_option maxRecDepth 100000 in
theorem alloc_only_when_no_spare_witness :
    Reachable defaults allocMem ∧
      pushCase defaults allocMem = some PushCase.alloc ∧
      (pushCase defaults allocMem = some PushCase.first →
        segments allocMem = [] ∧ ∀ x, ∃ s', Push defaults x allocMem = some s' ∧
          s'.nodes.length = allocMem.nodes.length + 1 ∧
          s'.d.head = some allocMem.nodes.length ∧
          s'.d.tail = some allocMem.nodes.length ∧
          nextAt s'.nodes allocMem.nodes.length = some allocMem.nodes.length ∧
          segments s' = [allocMem.nodes.length]) ∧
      (pushCase defaults allocMem = some PushCase.alloc →
        segments allocMem = usedSegments allocMem ∧
        (∀ a ∈ segments allocMem, held allocMem a ≠ []) ∧
        ∃ h t, allocMem.d.head = some h ∧ allocMem.d.tail = some t ∧
          ∀ x, ∃ s', Push defaults x allocMem = some s' ∧
            s'.nodes.length = allocMem.nodes.length + 1 ∧
            (slotsAt s'.nodes allocMem.nodes.length).length = maxInternalSliceSize ∧
            nextAt s'.nodes allocMem.nodes.length = some h ∧
            nextAt s'.nodes t = some allocMem.nodes.length ∧
            s'.d.tail = some allocMem.nodes.length ∧ s'.d.head = some h ∧
            segments s' = segments allocMem ++ [allocMem.nodes.length]) :=
  (fun hr => ⟨hr, by decide, alloc_only_when_no_spare allocMem hr⟩)
    ⟨allocOps, allocRets, by decide⟩

theorem getElem?_of_all_none {α : Type} (l : List (Option α)) (h : ∀ y ∈ l, y = none)
    (i : Nat) (hi : i < l.length) : l[i]? = some none := by
  rw [List.getElem?_eq_getElem hi, h _ (List.getElem_mem hi)]

/-- C18. Slot clearing: in every state reachable from a new queue, every slot of every
segment of the ring whose index is outside the range of slots that hold queued values
contains nil; and right after a `Pop` that returns found, the slot the value was read from,
slot `hp` of the former head, contains nil. -/
theorem slot_clearing (s : Mem V) (hs : Reachable defaults s) :
    (∀ a ∈ segments s, ∀ i, i < (slotsAt s.nodes a).length →
      (i < (liveRange s a).1 ∨ (liveRange s a).2 ≤ i) →
        (slotsAt s.nodes a)[i]? = some none) ∧
      (∀ s' x h, Pop s = some (s', x, true) → s.d.head = some h →
        index (slotsAt s'.nodes h) s.d.hp = some none) := by
  obtain ⟨xs, hr⟩ := hs.rep valid_defaults
  rcases hr with ⟨hd, -⟩ | ⟨used, spare, h, t, hp, tp, fst, j, R, hl⟩
  · refine ⟨fun a ha => by simp [segments, hd] at ha, fun s' x h _ hh => ?_⟩
    rw [hd] at hh; simp at hh
  · constructor
    · intro a ha i hi hout
      rw [R.segments_eq] at ha
      by_cases hu : a ∈ used
      · rw [R.liveRange_used a hu] at hout
        rcases hout with hlo | hhi
        · by_cases e : a = h
          · subst e
            simp only [if_true] at hlo
            have h1 := getElem?_of_all_none _ R.nil_head i (by simp; omega)
            rwa [List.getElem?_take_of_lt hlo] at h1
          · simp [e] at hlo
        · by_cases e : a = t
          · subst e
            simp only [if_true] at hhi
            have h1 := getElem?_of_all_none _ R.nil_tail (i - tp) (by simp; omega)
            rw [List.getElem?_drop] at h1
            have : tp + (i - tp) = i := by omega
            rwa [this] at h1
          · simp only [e, if_false] at hhi
            omega
      · have hsp : a ∈ spare := (List.mem_append.1 ha).resolve_left hu
        exact getElem?_of_all_none _ (R.nil_spare a hsp) i hi
    · intro s' x h' hpop hh
      obtain rfl : h = h' := Option.some.inj (R.head_eq.symm.trans hh)
      cases hxs : live (slotsAt s.nodes) used hp tp with
      | nil =>
        have hr0 : Rep defaults s [] := Or.inr ⟨_, _, _, _, _, _, _, _, R, hxs.symm⟩
        rw [pop_rep_nil _ _ hr0] at hpop
        simp at hpop
      | cons y ys =>
        obtain ⟨s2, -, -, -, -, -, hs2, -, -, -, -, -, hsl, -⟩ := pop_frame R y ys hxs
        obtain rfl : s2 = s' := by
          have := hs2.symm.trans hpop
          simp only [Option.some.injEq, Prod.mk.injEq] at this
          exact this.1
        rw [hsl, R.hp_eq, Function.update_same]
        simp only [index, Int.natCast_nonneg, if_true, Int.toNat_ofNat]
        rw [List.getElem?_set_self (by exact R.hp_lt)]

theorem slot_clearing_witness :
    Reachable defaults sampleMem ∧
      (∀ a ∈ segments sampleMem, ∀ i, i < (slotsAt sampleMem.nodes a).length →
        (i < (liveRange sampleMem a).1 ∨ (liveRange sampleMem a).2 ≤ i) →
          (slotsAt sampleMem.nodes a)[i]? = some none) ∧
      (∀ s' x h, Pop sampleMem = some (s', x, true) → sampleMem.d.head = some h →
        index (slotsAt s'.nodes h) sampleMem.d.hp = some none) :=
  (fun hr => ⟨hr, slot_clearing sampleMem hr⟩) ⟨sampleOps, sampleRets, by decide⟩

/-- C19. Segments are retained, and Pop does not touch the ring: in every reachable state,
`Pop` leaves tail, the number of nodes, every link and the length of every slot array
unchanged, changes no slot other than slot `hp` of the head segment, and changes `tp` only on
the path of its second case; and after a `Push` or a `Pop` every segment of the ring is
still a segment of the ring, so the ring does not lose segments. -/
theorem pop_leaves_ring (s : Mem V) (hs : Reachable defaults s) :
    (∀ s' x ok, Pop s = some (s', x, ok) →
      s'.d.tail = s.d.tail ∧ s'.nodes.length = s.nodes.length ∧
      nextAt s'.nodes = nextAt s.nodes ∧
      (∀ a, (slotsAt s'.nodes a).length = (slotsAt s.nodes a).length) ∧
      (∀ a i : Nat, ¬ (s.d.head = some a ∧ s.d.hp = (i : Int)) →
        (slotsAt s'.nodes a)[i]? = (slotsAt s.nodes a)[i]?) ∧
      (s'.d.tp ≠ s.d.tp → popCase s = PopCase.drain)) ∧
      (∀ op s' r, op.isPushPop = true → step defaults op s = some (s', r) →
        (∀ a ∈ segments s, a ∈ segments s') ∧
          (segments s).length ≤ (segments s').length) := by
  obtain ⟨xs, hr⟩ := hs.rep valid_defaults
  have hsame : ∀ s' : Mem V, s' = s →
      s'.d.tail = s.d.tail ∧ s'.nodes.length = s.nodes.length ∧
      nextAt s'.nodes = nextAt s.nodes ∧
      (∀ a, (slotsAt s'.nodes a).length = (slotsAt s.nodes a).length) ∧
      (∀ a i : Nat, ¬ (s.d.head = some a ∧ s.d.hp = (i : Int)) →
        (slotsAt s'.nodes a)[i]? = (slotsAt s.nodes a)[i]?) ∧
      (s'.d.tp ≠ s.d.tp → popCase s = PopCase.drain) := by
    rintro s' rfl
    exact ⟨rfl, rfl, rfl, fun _ => rfl, fun _ _ _ => rfl, fun h => absurd rfl h⟩
  have hpopf : ∀ s' x ok, Pop s = some (s', x, ok) →
      (s' = s ∨ ∃ used spare h t hp tp fst j used' spare' h' hp' tp',
        Ring defaults s used spare h t hp tp fst j ∧
        Ring defaults s' used' spare' h' t hp' tp' fst j ∧
        (used' ++ spare').Perm (used ++ spare) ∧
        s'.nodes.length = s.nodes.length ∧
        slotsAt s'.nodes =
          Function.update (slotsAt s.nodes) h ((slotsAt s.nodes h).set hp none) ∧
        nextAt s'.nodes = nextAt s.nodes ∧ s'.d.tail = s.d.tail ∧
        (s'.d.tp = s.d.tp ∨ (popCase s = PopCase.drain ∧ s'.d.tp = s.d.hp))) := by
    intro s' x ok hpop
    cases xs with
    | nil =>
      rw [pop_rep_nil _ _ hr] at hpop
      simp only [Option.some.injEq, Prod.mk.injEq] at hpop
      exact Or.inl hpop.1.symm
    | cons y ys =>
      rcases hr with ⟨-, hd⟩ | ⟨used, spare, h, t, hp, tp, fst, j, R, hl⟩
      · simp at hd
      · obtain ⟨s2, used', spare', h', hp', tp', hs2, R', -, hperm, -, hlen, hsl, hnx, htl, -,
          htp⟩ := pop_frame R y ys hl.symm
        obtain rfl : s2 = s' := by
          have := hs2.symm.trans hpop
          simp only [Option.some.injEq, Prod.mk.injEq] at this
          exact this.1
        exact Or.inr ⟨_, _, _, _, _, _, _, _, _, _, _, _, _, R, R', hperm, hlen, hsl, hnx, htl,
          htp⟩
  constructor
  · intro s' x ok hpop
    rcases hpopf s' x ok hpop with e | ⟨used, spare, h, t, hp, tp, fst, j, used', spare', h',
      hp', tp', R, R', -, hlen, hsl, hnx, htl, htp⟩
    · exact hsame s' e
    · refine ⟨htl, hlen, hnx, fun a => by rw [hsl]; exact length_update_set _ _ _ _ _, ?_, ?_⟩
      · intro a i hne
        rw [hsl]
        by_cases e : a = h
        · subst e
          rw [Function.update_same, List.getElem?_set_ne]
          intro e2
          exact hne ⟨R.head_eq, by rw [R.hp_eq, e2]⟩
        · rw [Function.update_noteq e]
      · intro hne
        rcases htp with h0 | ⟨h0, -⟩
        · exact absurd h0 hne
        · exact h0
  · intro op s' r hop hstep
    cases op with
    | Init => simp [Op.isPushPop] at hop
    | Len => simp [Op.isPushPop] at hop
    | Front => simp [Op.isPushPop] at hop
    | Push x =>
      have hpush := step_push_eq defaults x s s' r hstep
      rcases hr with ⟨hd, -⟩ | ⟨used, spare, h, t, hp, tp, fst, j, R, -⟩
      · have : segments s = [] := by simp [segments, hd]
        rw [this]
        exact ⟨fun a ha => by simp at ha, Nat.zero_le _⟩
      · obtain ⟨s2, used', spare', t', tp', j', hs2, R', -, hring, -⟩ :=
          push_step valid_defaults R x
        obtain rfl : s2 = s' := Option.some.inj (hs2.symm.trans hpush)
        rw [R.segments_eq, R'.segments_eq]
        rcases hring with e | e
        · rw [e]; exact ⟨fun a ha => ha, Nat.le_refl _⟩
        · rw [e]
          exact ⟨fun a ha => List.mem_append_left _ ha, by simp⟩
    | Pop =>
      obtain ⟨x, ok, hpop⟩ := step_pop_eq defaults s s' r hstep
      rcases hpopf s' x ok hpop with e | ⟨used, spare, h, t, hp, tp, fst, j, used', spare', h',
        hp', tp', R, R', hperm, -⟩
      · rw [e]; exact ⟨fun a ha => ha, Nat.le_refl _⟩
      · rw [R.segments_eq, R'.segments_eq]
        exact ⟨fun a ha => hperm.symm.subset ha, by rw [hperm.length_eq]⟩

theorem pop_leaves_ring_witness :
    Reachable defaults sampleMem ∧
      (∀ s' x ok, Pop sampleMem = some (s', x, ok) →
        s'.d.tail = sampleMem.d.tail ∧ s'.nodes.length = sampleMem.nodes.length ∧
        nextAt s'.nodes = nextAt sampleMem.nodes ∧
        (∀ a, (slotsAt s'.nodes a).length = (slotsAt sampleMem.nodes a).length) ∧
        (∀ a i : Nat, ¬ (sampleMem.d.head = some a ∧ sampleMem.d.hp = (i : Int)) →
          (slotsAt s'.nodes a)[i]? = (slotsAt sampleMem.nodes a)[i]?) ∧
        (s'.d.tp ≠ sampleMem.d.tp → popCase sampleMem = PopCase.drain)) ∧
      (∀ op s' r, op.isPushPop = true → step defaults op sampleMem = some (s', r) →
        (∀ a ∈ segments sampleMem, a ∈ segments s') ∧
          (segments sampleMem).length ≤ (segments s').length) :=
  (fun hr => ⟨hr, pop_leaves_ring sampleMem hr⟩) ⟨sampleOps, sampleRets, by decide⟩

theorem pushShape_one (x : Option V) :
    ∃ s, Push defaults x New = some s ∧ PushShape 1 s := by
  obtain ⟨s', hs', R', -⟩ := push_first defaults valid_defaults x (New : Mem V) rfl
  obtain ⟨s2, hs2, hlen, hsl, -, -⟩ :=
    @push_first_frame V defaults (New : Mem V) valid_defaults x rfl
  obtain rfl : s2 = s' := Option.some.inj (hs2.symm.trans hs')
  refine ⟨s2, hs', 0, R', hlen, ?_⟩
  rw [hsl]
  simp [New, pushCap]
  rfl

theorem push_arith_room (n L : Nat) (hn : 1 ≤ n) (h0 : pushK n = 0 → L = pushCap n)
    (h1 : pushK n ≠ 0 → L = 256 ∧ 1 ≤ pushTp n) (hroom : pushTp n < L) :
    pushK (n + 1) = pushK n ∧ pushTp (n + 1) = pushTp n + 1 ∧ pushCap (n + 1) = pushCap n := by
  unfold pushTp pushK pushCap at *
  split_ifs at * <;> omega

theorem push_arith_grow (n L : Nat) (hn : 1 ≤ n) (h0 : pushK n = 0 → L = pushCap n)
    (h1 : pushK n ≠ 0 → L = 256 ∧ 1 ≤ pushTp n) (hfull : pushTp n = L) (hlow : L < 64) :
    pushK n = 0 ∧ pushK (n + 1) = 0 ∧ pushTp (n + 1) = pushTp n + 1 ∧
      pushCap (n + 1) = L * 4 := by
  unfold pushTp pushK pushCap at *
  split_ifs at * <;> omega

theorem push_arith_alloc (n L : Nat) (hn : 1 ≤ n) (h0 : pushK n = 0 → L = pushCap n)
    (h1 : pushK n ≠ 0 → L = 256 ∧ 1 ≤ pushTp n) (hfull : pushTp n = L) (hhigh : 64 ≤ L) :
    pushK (n + 1) = pushK n + 1 ∧ pushTp (n + 1) = 1 ∧ pushCap (n + 1) = pushCap n := by
  unfold pushTp pushK pushCap at *
  split_ifs at * <;> omega

theorem pushShape_succ (n : Nat) (hn : 1 ≤ n) (s : Mem V) (x : Option V)
    (hs : PushShape n s) : ∃ s', Push defaults x s = some s' ∧ PushShape (n + 1) s' := by
  obtain ⟨j, R, hlen, hcap⟩ := hs
  have e1 : defaults.maxFirstSliceSize.toNat = 64 := rfl
  have e3 : defaults.sliceGrowthFactor.toNat = 4 := rfl
  have h0 : pushK n = 0 → (slotsAt s.nodes (pushK n)).length = pushCap n := by
    intro e; rw [e]; exact hcap
  have h1 : pushK n ≠ 0 → (slotsAt s.nodes (pushK n)).length = 256 ∧ 1 ≤ pushTp n := fun e =>
    ⟨R.cap_rest _ (List.mem_append_left _ R.t_mem) e, R.tp_pos (Ne.symm e)⟩
  by_cases hroom : pushTp n < (slotsAt s.nodes (pushK n)).length
  · obtain ⟨hK, hT, hC⟩ := push_arith_room n _ hn h0 h1 hroom
    obtain ⟨s', hs', R', -⟩ := push_room defaults x s R hroom
    obtain ⟨s2, hs2, hl2, hsl, -, -⟩ := push_room_frame R x hroom
    obtain rfl : s2 = s' := Option.some.inj (hs2.symm.trans hs')
    refine ⟨s2, hs', j, by rw [hK, hT]; exact R', by rw [hK, hl2, hlen], ?_⟩
    rw [hC, hsl, length_update_set, hcap]
  · have hfull : pushTp n = (slotsAt s.nodes (pushK n)).length :=
      Nat.le_antisymm R.tp_le (Nat.not_lt.1 hroom)
    by_cases hlow : pushTp n < defaults.maxFirstSliceSize.toNat
    · obtain ⟨hk, hK, hT, hC⟩ := push_arith_grow n _ hn h0 h1 hfull (by omega)
      obtain ⟨s', hs', R', -⟩ := push_grow defaults valid_defaults x s R hfull hlow
      obtain ⟨s2, hs2, hl2, hsl, -, -, -⟩ := push_grow_frame valid_defaults R x hfull hlow
      obtain rfl : s2 = s' := Option.some.inj (hs2.symm.trans hs')
      refine ⟨s2, hs', j + 1, ?_, by rw [hK, hl2, hlen, hk], ?_⟩
      · rw [hk] at R'
        rw [hK, hT]; exact R'
      · rw [hC, hsl, hk]
        simp only [Function.update_same, List.length_set, List.length_append,
          List.length_replicate, e3]
        rw [hk] at hfull h0
        omega
    · obtain ⟨hK, hT, hC⟩ := push_arith_alloc n _ hn h0 h1 hfull (by omega)
      obtain ⟨s', hs', R', -⟩ :=
        push_alloc defaults valid_defaults x s R hfull (Nat.not_lt.1 hlow)
      obtain ⟨s2, hs2, hl2, hsl, -, -⟩ :=
        push_alloc_frame valid_defaults R x hfull (Nat.not_lt.1 hlow)
      obtain rfl : s2 = s' := Option.some.inj (hs2.symm.trans hs')
      refine ⟨s2, hs', j, ?_, by rw [hK, hl2, hlen], ?_⟩
      · rw [hlen] at R'
        rw [hK, hT, List.range_succ]; exact R'
      · rw [hC, hsl, Function.update_noteq (by omega), hcap]

theorem run_snoc (c : Consts) (ops : List (Op V)) (op : Op V) (s s1 s2 : Mem V)
    (rs : List (Ret V)) (r : Ret V) (h1 : run c ops s = some (s1, rs))
    (h2 : step c op s1 = some (s2, r)) : run c (ops ++ [op]) s = some (s2, rs ++ [r]) := by
  induction ops generalizing s rs with
  | nil =>
    simp only [run, Option.some.injEq, Prod.mk.injEq] at h1
    obtain ⟨rfl, rfl⟩ := h1
    simp [run, h2]
  | cons o ops ih =>
    simp only [run] at h1
    cases ho : step c o s with
    | none => simp [ho] at h1
    | some p =>
      obtain ⟨s0, r0⟩ := p
      simp only [ho] at h1
      cases hr : run c ops s0 with
      | none => simp [hr] at h1
      | some q =>
        obtain ⟨s3, rs3⟩ := q
        simp only [hr, Option.some.injEq, Prod.mk.injEq] at h1
        obtain ⟨rfl, rfl⟩ := h1
        simp [run, ho, ih s0 rs3 hr]

/-- After `n + 1` pushes on a new queue the memory has the push-only shape. -/
theorem pushShape_run (x : Option V) (xs : List (Option V)) :
    ∃ s, run defaults ((x :: xs).map Op.Push) New =
        some (s, List.replicate (xs.length + 1) Ret.unit) ∧ PushShape (xs.length + 1) s := by
  induction xs using List.reverseRecOn with
  | nil =>
    obtain ⟨s, hs, hsh⟩ := pushShape_one x
    exact ⟨s, by simp [run, step, hs], hsh⟩
  | append_singleton xs y ih =>
    obtain ⟨s, hs, hsh⟩ := ih
    obtain ⟨s', hs', hsh'⟩ := pushShape_succ (xs.length + 1) (by omega) s y hsh
    refine ⟨s', ?_, by simpa using hsh'⟩
    have hstep : step defaults (Op.Push y) s = some (s', Ret.unit) := by simp [step, hs']
    have := run_snoc defaults _ _ _ _ _ _ _ hs hstep
    rw [← List.cons_append, List.map_append, List.map_singleton, this]
    simp [List.replicate_succ']

/-- C20. Shape after push-only sequences: after `n >= 1` pushes (of any values) and no pop
on a new queue, the first segment, node 0, which is the head, has a slot array of length 4 if
`n <= 4`, 16 if `5 <= n <= 16` and 64 if `n >= 17`; the ring has exactly one segment if
`n <= 64` and exactly `1 + ceil((n - 64) / 256)` segments if `n > 64`; and the slot array of
the tail segment has length 256 exactly when `n > 64`. -/
theorem push_only_shape (x : Option V) (xs : List (Option V)) :
    ∃ s, run defaults ((x :: xs).map Op.Push) New =
        some (s, List.replicate (xs.length + 1) Ret.unit) ∧
      s.d.head = some 0 ∧
      (slotsAt s.nodes 0).length =
        (if xs.length + 1 ≤ 4 then 4 else if xs.length + 1 ≤ 16 then 16 else 64) ∧
      (segments s).length =
        (if xs.length + 1 ≤ 64 then 1 else 1 + (xs.length + 1 - 64 + 255) / 256) ∧
      ∃ t, s.d.tail = some t ∧
        ((slotsAt s.nodes t).length = 256 ↔ 64 < xs.length + 1) := by
  obtain ⟨s, hs, j, R, hlen, hcap⟩ := pushShape_run x xs
  refine ⟨s, hs, R.head_eq, hcap, ?_, pushK (xs.length + 1), R.tail_eq, ?_⟩
  · rw [R.segments_eq]
    simp only [List.append_nil, List.length_range, pushK]
    split <;> omega
  · by_cases hk : pushK (xs.length + 1) = 0
    · have h64 : xs.length + 1 ≤ 64 := by
        unfold pushK at hk; split at hk <;> omega
      rw [hk, hcap]
      unfold pushCap
      constructor
      · intro h; split_ifs at h <;> omega
      · intro h; omega
    · have h64 : 64 < xs.length + 1 := by
        unfold pushK at hk; split at hk <;> omega
      have := R.cap_rest _ (List.mem_append_left _ R.t_mem) hk
      exact ⟨fun _ => h64, fun _ => this⟩

/-- After pushing a non-empty list of values on a new queue the memory has the push-only
shape and its queued values are the list. -/
theorem pushShape_queued (l : List (Option V)) (hl : l ≠ []) :
    ∃ s, run defaults (l.map Op.Push) New = some (s, List.replicate l.length Ret.unit) ∧
      PushShape l.length s ∧ queued s = l := by
  cases l with
  | nil => exact absurd rfl hl
  | cons x xs =>
    obtain ⟨s, hs, hsh⟩ := pushShape_run x xs
    refine ⟨s, hs, hsh, ?_⟩
    have hr := (run_rep_eq defaults valid_defaults _ New s [] _ (new_rep _) hs).2
    rw [specRun_pushes, List.nil_append] at hr
    rcases hr with ⟨-, hd⟩ | ⟨used, spare, h, t, hp, tp, fst, j, R, hlive⟩
    · simp at hd
    · rw [R.queued_eq, ← hlive]

/-- What the push-only shape says about the memory, read off without ghost state. -/
theorem PushShape.facts {n : Nat} {s : Mem V} (hs : PushShape n s) :
    segments s = List.range (pushK n + 1) ∧ usedSegments s = List.range (pushK n + 1) ∧
      s.d.head = some 0 ∧ s.d.tail = some (pushK n) ∧ s.d.hp = 0 ∧
      s.d.tp = (pushTp n : Int) ∧ (slotsAt s.nodes 0).length = pushCap n ∧
      (pushK n ≠ 0 → (slotsAt s.nodes (pushK n)).length = 256) ∧
      pushCase defaults s = some
        (if pushTp n < (slotsAt s.nodes (pushK n)).length then PushCase.room
         else if pushTp n < 64 then PushCase.grow else PushCase.alloc) := by
  obtain ⟨j, R, -, hcap⟩ := hs
  refine ⟨by rw [R.segments_eq, List.append_nil], R.usedSegments_eq, R.head_eq, R.tail_eq,
    R.hp_eq, R.tp_eq, hcap, fun e => R.cap_rest _ (List.mem_append_left _ R.t_mem) e, ?_⟩
  rw [R.pushCase_eq]
  rfl

theorem pushK_values : pushK 64 = 0 ∧ pushK 65 = 1 ∧ pushK 256 = 1 ∧ pushK 320 = 1 ∧
    pushK 321 = 2 ∧ pushK 512 = 2 := by
  unfold pushK
  refine ⟨?_, ?_, ?_, ?_, ?_, ?_⟩ <;> norm_num

theorem pushTp_values : pushTp 64 = 64 ∧ pushTp 256 = 192 ∧ pushTp 320 = 256 ∧
    pushTp 512 = 192 := by
  unfold pushTp pushK
  refine ⟨?_, ?_, ?_, ?_⟩ <;> norm_num

theorem pushCap_values : pushCap 64 = 64 ∧ pushCap 256 = 64 ∧ pushCap 320 = 64 ∧
    pushCap 512 = 64 := by
  unfold pushCap
  refine ⟨?_, ?_, ?_, ?_⟩ <;> norm_num

/-- With two or more segments in use, the head segment holds its whole slot array. -/
theorem held_head_full (s : Mem V) (k : Nat) (hk : k ≠ 0)
    (hu : usedSegments s = List.range (k + 1)) (hh : s.d.head = some 0)
    (ht : s.d.tail = some k) (hp : s.d.hp = 0) : held s 0 = slotsAt s.nodes 0 := by
  have hmem : 0 ∈ usedSegments s := by rw [hu]; simp
  have hne : ¬ (some k = some 0) := by simpa using hk
  simp [held, liveRange, hmem, hh, ht, hp, hne]

/-- C21 (amended). The first array fills at `maxFirstSliceSize` pushes: for any 321 values
pushed in order on a new queue, after the first 64 pushes the ring is the single node 0,
which holds all 64 values in an array of 64 slots that is full, and the next `Push` takes the
case that allocates a node; after 65 pushes the ring has a second node with 256 slots; after
320 pushes the second node holds the 256 values pushed after the first 64 and is full, and
the next `Push` takes the case that allocates; after 321 pushes the ring has three nodes. -/
theorem first_array_fills_at_64 (vals : List (Option V)) (hlen : vals.length = 321) :
    (∃ s, run defaults ((vals.take 64).map Op.Push) New =
        some (s, List.replicate 64 Ret.unit) ∧
      segments s = [0] ∧ held s 0 = vals.take 64 ∧ (slotsAt s.nodes 0).length = 64 ∧
      s.d.tail = some 0 ∧ s.d.tp = 64 ∧ pushCase defaults s = some PushCase.alloc) ∧
    (∃ s, run defaults ((vals.take 65).map Op.Push) New =
        some (s, List.replicate 65 Ret.unit) ∧
      segments s = [0, 1] ∧ (slotsAt s.nodes 1).length = 256) ∧
    (∃ s, run defaults ((vals.take 320).map Op.Push) New =
        some (s, List.replicate 320 Ret.unit) ∧
      segments s = [0, 1] ∧ held s 0 = vals.take 64 ∧
      held s 1 = (vals.take 320).drop 64 ∧ (slotsAt s.nodes 1).length = 256 ∧
      s.d.tail = some 1 ∧ s.d.tp = 256 ∧ pushCase defaults s = some PushCase.alloc) ∧
    (∃ s, run defaults (vals.map Op.Push) New = some (s, List.replicate 321 Ret.unit) ∧
      segments s = [0, 1, 2]) := by
  obtain ⟨k64, k65, -, k320, k321, -⟩ := pushK_values
  obtain ⟨t64, -, t320, -⟩ := pushTp_values
  obtain ⟨c64, -, c320, -⟩ := pushCap_values
  have len64 : (vals.take 64).length = 64 := by simp [hlen]
  have len65 : (vals.take 65).length = 65 := by simp [hlen]
  have len320 : (vals.take 320).length = 320 := by simp [hlen]
  have hne : ∀ l : List (Option V), 0 < l.length → l ≠ [] := by
    intro l hl e; rw [e] at hl; exact Nat.lt_irrefl 0 hl
  refine ⟨?_, ?_, ?_, ?_⟩
  · obtain ⟨s, hs, hsh, hq⟩ := pushShape_queued (vals.take 64) (hne _ (by omega))
    obtain ⟨hseg, hused, hh, ht, hp, htp, hcap, -, hcase⟩ := hsh.facts
    rw [len64] at hs hseg hused ht htp hcap hcase
    rw [k64] at hseg hused ht hcase
    rw [t64] at htp hcase
    rw [c64] at hcap
    refine ⟨s, hs, hseg, ?_, hcap, ht, htp, ?_⟩
    · rw [← hq]; simp [queued, hused, List.range_succ]
    · rw [hcase, hcap]; rfl
  · obtain ⟨s, hs, hsh, -⟩ := pushShape_queued (vals.take 65) (hne _ (by omega))
    obtain ⟨hseg, -, -, -, -, -, -, htl, -⟩ := hsh.facts
    rw [len65] at hs hseg htl
    rw [k65] at hseg htl
    exact ⟨s, hs, hseg, htl (by omega)⟩
  · obtain ⟨s, hs, hsh, hq⟩ := pushShape_queued (vals.take 320) (hne _ (by omega))
    obtain ⟨hseg, hused, hh, ht, hp, htp, hcap, htl, hcase⟩ := hsh.facts
    rw [len320] at hs hseg hused ht htp hcap htl hcase
    rw [k320] at hseg hused ht htl hcase
    rw [t320] at htp hcase
    rw [c320] at hcap
    have h0 := held_head_full s 1 (by omega) hused hh ht hp
    have hsplit : vals.take 320 = held s 0 ++ held s 1 := by
      rw [← hq]; simp [queued, hused, List.range_succ]
    have hl0 : (held s 0).length = 64 := by rw [h0, hcap]
    have htake : held s 0 = vals.take 64 := by
      have := congrArg (List.take 64) hsplit
      rw [List.take_take, List.take_left' hl0] at this
      simpa using this.symm
    have hdrop : held s 1 = (vals.take 320).drop 64 := by
      rw [hsplit, List.drop_left' hl0]
    refine ⟨s, hs, hseg, htake, hdrop, htl (by omega), ht, htp, ?_⟩
    rw [hcase, htl (by omega)]
    rfl
  · obtain ⟨s, hs, hsh, -⟩ := pushShape_queued vals (hne _ (by omega))
    obtain ⟨hseg, -⟩ := hsh.facts
    rw [hlen] at hs hseg
    rw [k321] at hseg
    exact ⟨s, hs, hseg⟩

theorem first_array_fills_at_64_witness :
    (List.replicate 321 (none : Option Nat)).length = 321 ∧
    (∃ s, run defaults (((List.replicate 321 (none : Option Nat)).take 64).map Op.Push) New =
        some (s, List.replicate 64 Ret.unit) ∧
      segments s = [0] ∧ held s 0 = (List.replicate 321 (none : Option Nat)).take 64 ∧
      (slotsAt s.nodes 0).length = 64 ∧
      s.d.tail = some 0 ∧ s.d.tp = 64 ∧ pushCase defaults s = some PushCase.alloc) ∧
    (∃ s, run defaults (((List.replicate 321 (none : Option Nat)).take 65).map Op.Push) New =
        some (s, List.replicate 65 Ret.unit) ∧
      segments s = [0, 1] ∧ (slotsAt s.nodes 1).length = 256) ∧
    (∃ s, run defaults (((List.replicate 321 (none : Option Nat)).take 320).map Op.Push) New =
        some (s, List.replicate 320 Ret.unit) ∧
      segments s = [0, 1] ∧ held s 0 = (List.replicate 321 (none : Option Nat)).take 64 ∧
      held s 1 = ((List.replicate 321 (none : Option Nat)).take 320).drop 64 ∧
      (slotsAt s.nodes 1).length = 256 ∧
      s.d.tail = some 1 ∧ s.d.tp = 256 ∧ pushCase defaults s = some PushCase.alloc) ∧
    (∃ s, run defaults ((List.replicate 321 (none : Option Nat)).map Op.Push) New =
        some (s, List.replicate 321 Ret.unit) ∧
      segments s = [0, 1, 2]) :=
  ⟨List.length_replicate _ _,
    first_array_fills_at_64 (List.replicate 321 none) (List.length_replicate _ _)⟩

/-- C21 as stated fails: after 256 pushes (of nil) on a new queue the ring already has two
nodes, node 0 has 64 slots and holds 64 of the 256 queued values, the tail cursor is 192 and
the 257th `Push` takes the case with room in the tail, which allocates nothing; so it is not
the case that the first array holds all queued values and the next `Push` allocates. After
512 pushes the ring already has three nodes and the 513th `Push` also finds room. -/
theorem first_array_fills_at_256_counterexample :
    (∃ s, run defaults (List.replicate 256 (Op.Push (none : Option Nat))) New =
        some (s, List.replicate 256 Ret.unit) ∧
      segments s = [0, 1] ∧ (slotsAt s.nodes 0).length = 64 ∧ (held s 0).length = 64 ∧
      (queued s).length = 256 ∧ s.d.tp = 192 ∧
      pushCase defaults s = some PushCase.room) ∧
    (¬ ∃ s rs, run defaults (List.replicate 256 (Op.Push (none : Option Nat))) New =
        some (s, rs) ∧
      held s 0 = queued s ∧ pushCase defaults s = some PushCase.alloc) ∧
    (∃ s, run defaults (List.replicate 512 (Op.Push (none : Option Nat))) New =
        some (s, List.replicate 512 Ret.unit) ∧
      segments s = [0, 1, 2] ∧ s.d.tp = 192 ∧
      pushCase defaults s = some PushCase.room) := by
  obtain ⟨-, -, k256, -, -, k512⟩ := pushK_values
  obtain ⟨-, t256, -, t512⟩ := pushTp_values
  obtain ⟨-, c256, -, -⟩ := pushCap_values
  have hfirst : ∃ s, run defaults (List.replicate 256 (Op.Push (none : Option Nat))) New =
        some (s, List.replicate 256 Ret.unit) ∧
      segments s = [0, 1] ∧ (slotsAt s.nodes 0).length = 64 ∧ (held s 0).length = 64 ∧
      (queued s).length = 256 ∧ s.d.tp = 192 ∧
      pushCase defaults s = some PushCase.room := by
    obtain ⟨s, hs, hsh, hq⟩ :=
      pushShape_queued (List.replicate 256 (none : Option Nat))
        (List.ne_nil_of_length_pos (by rw [List.length_replicate]; omega))
    obtain ⟨hseg, hused, hh, ht, hp, htp, hcap, htl, hcase⟩ := hsh.facts
    rw [List.length_replicate] at hs hseg hused ht htp hcap htl hcase
    rw [k256] at hseg hused ht htl hcase
    rw [t256] at htp hcase
    rw [c256] at hcap
    rw [List.map_replicate] at hs
    refine ⟨s, hs, hseg, hcap, ?_, by rw [hq, List.length_replicate], htp, ?_⟩
    · rw [held_head_full s 1 (by omega) hused hh ht hp, hcap]
    · rw [hcase, htl (by omega)]; rfl
  refine ⟨hfirst, ?_, ?_⟩
  · rintro ⟨s, rs, hs, -, hcase⟩
    obtain ⟨s', hs', -, -, -, -, -, hcase'⟩ := hfirst
    rw [hs] at hs'
    simp only [Option.some.injEq, Prod.mk.injEq] at hs'
    rw [hs'.1, hcase'] at hcase
    simp at hcase
  · obtain ⟨s, hs, hsh, -⟩ :=
      pushShape_queued (List.replicate 512 (none : Option Nat))
        (List.ne_nil_of_length_pos (by rw [List.length_replicate]; omega))
    obtain ⟨hseg, -, -, -, -, htp, -, htl, hcase⟩ := hsh.facts
    rw [List.length_replicate] at hs hseg htp htl hcase
    rw [k512] at hseg htl hcase
    rw [t512] at htp hcase
    rw [List.map_replicate] at hs
    refine ⟨s, hs, hseg, htp, ?_⟩
    rw [hcase, htl (by omega)]; rfl

/-- The stated constraints give the constraints the queue needs, once both capacities are
positive and the growth factor is not negative where the first array can grow. -/
theorem Tunable.valid {c : Consts} (ht : Tunable c) (h1 : 1 ≤ c.firstSliceSize)
    (h2 : 1 ≤ c.maxInternalSliceSize)
    (h3 : c.firstSliceSize < c.maxFirstSliceSize → 0 ≤ c.sliceGrowthFactor) : Valid c := by
  obtain ⟨⟨k, hk⟩, hle⟩ := ht
  refine ⟨h1, h2, hle, fun hlt => ?_⟩
  have h0 := h3 hlt
  by_contra hf
  have hf1 : c.sliceGrowthFactor ≤ 1 := by omega
  have hpow : c.sliceGrowthFactor ^ k ≤ 1 := pow_le_one₀ h0 hf1
  have : c.firstSliceSize * c.sliceGrowthFactor ^ k ≤ c.firstSliceSize * 1 :=
    mul_le_mul_of_nonneg_left hpow (by omega)
  omega

/-- C22 (amended). Constants are tuning parameters: with the four constants replaced by any
integers that satisfy the stated constraints, with an initial capacity of at least 1, a
standard capacity of at least 1 and, when the initial capacity is below the growth ceiling,
a growth factor of at least 0, every sequence of calls on a new queue (every sequence of
`Push` and `Pop` in particular) runs to completion and returns the results of the list
model, the same results as with the defaults 4, 4, 64, 256. -/
theorem tunable_constants_refine (c : Consts) (ht : Tunable c) (h1 : 1 ≤ c.firstSliceSize)
    (h2 : 1 ≤ c.maxInternalSliceSize)
    (h3 : c.firstSliceSize < c.maxFirstSliceSize → 0 ≤ c.sliceGrowthFactor)
    (ops : List (Op V)) :
    ∃ s s', run c ops New = some (s, (specRun ops []).2) ∧
      run defaults ops New = some (s', (specRun ops []).2) := by
  obtain ⟨s, hs, -⟩ := run_rep c (ht.valid h1 h2 h3) ops New [] (new_rep _)
  obtain ⟨s', hs', -⟩ := run_rep defaults valid_defaults ops New [] (new_rep _)
  exact ⟨s, s', hs, hs'⟩

theorem tunable_constants_refine_witness :
    Tunable ⟨2, 3, 18, 20⟩ ∧ 1 ≤ (⟨2, 3, 18, 20⟩ : Consts).firstSliceSize ∧
      1 ≤ (⟨2, 3, 18, 20⟩ : Consts).maxInternalSliceSize ∧
      ((⟨2, 3, 18, 20⟩ : Consts).firstSliceSize < (⟨2, 3, 18, 20⟩ : Consts).maxFirstSliceSize →
        0 ≤ (⟨2, 3, 18, 20⟩ : Consts).sliceGrowthFactor) ∧
      ∃ s s', run ⟨2, 3, 18, 20⟩
          ((List.range 40).map (fun i => Op.Push (some i)) ++ [Op.Pop, Op.Pop, Op.Pop])
          (New : Mem Nat) =
          some (s, (specRun
            ((List.range 40).map (fun i => Op.Push (some i)) ++ [Op.Pop, Op.Pop, Op.Pop])
            []).2) ∧
        run defaults
          ((List.range 40).map (fun i => Op.Push (some i)) ++ [Op.Pop, Op.Pop, Op.Pop])
          (New : Mem Nat) =
          some (s', (specRun
            ((List.range 40).map (fun i => Op.Push (some i)) ++ [Op.Pop, Op.Pop, Op.Pop])
            []).2) :=
  ⟨⟨⟨2, by decide⟩, by decide⟩, by decide, by decide, fun _ => by decide,
    tunable_constants_refine ⟨2, 3, 18, 20⟩ ⟨⟨2, by decide⟩, by decide⟩ (by decide) (by decide)
      (fun _ => by decide) _⟩

/-- C22 as stated fails, on three sets of constants that satisfy the stated constraints.
With 0, 4, 0, 256 the first `Push` faults, writing slot 0 of an array without slots. With
1, 0, 0, 0 the second `Push` faults in the same way on the node it allocates. With
1, -2, 4, 4 (4 = 1 * (-2)^2, both capacities positive) the second `Push` faults in `make`,
asked for an array of length -2. -/
theorem tunable_constants_counterexample :
    (Tunable ⟨0, 4, 0, 256⟩ ∧
      (∀ op ∈ [(Op.Push (some 1) : Op Nat)], op.isPushPop = true) ∧
      run ⟨0, 4, 0, 256⟩ [Op.Push (some 1)] (New : Mem Nat) = none) ∧
    (Tunable ⟨1, 0, 0, 0⟩ ∧
      (∀ op ∈ [(Op.Push (some 1) : Op Nat), Op.Push (some 2)], op.isPushPop = true) ∧
      run ⟨1, 0, 0, 0⟩ [Op.Push (some 1), Op.Push (some 2)] (New : Mem Nat) = none) ∧
    (Tunable ⟨1, -2, 4, 4⟩ ∧
      (∀ op ∈ [(Op.Push (some 1) : Op Nat), Op.Push (some 2)], op.isPushPop = true) ∧
      run ⟨1, -2, 4, 4⟩ [Op.Push (some 1), Op.Push (some 2)] (New : Mem Nat) = none) ∧
    ¬ (∀ (c : Consts), Tunable c → ∀ ops : List (Op Nat),
        (∀ op ∈ ops, op.isPushPop = true) →
          ∃ s, run c ops New = some (s, (specRun ops []).2)) := by
  have h1 : Tunable ⟨1, -2, 4, 4⟩ := ⟨⟨2, by decide⟩, by decide⟩
  have h2 : run ⟨1, -2, 4, 4⟩ [Op.Push (some 1), Op.Push (some 2)] (New : Mem Nat) = none := by
    decide
  refine ⟨⟨⟨⟨0, by decide⟩, by decide⟩, by decide, by decide⟩,
    ⟨⟨⟨1, by decide⟩, by decide⟩, by decide, by decide⟩, ⟨h1, by decide, h2⟩, ?_⟩
  intro hall
  obtain ⟨s, hs⟩ := hall ⟨1, -2, 4, 4⟩ h1 [Op.Push (some 1), Op.Push (some 2)] (by decide)
  rw [h2] at hs
  simp at hs

end queue
